import Mathlib

/-!
# File_Crypter: the custom DES core (`src/des/des_custom.cpp`) and `CryptoUtils`

A shallow embedding of the `DESCustom` namespace: the hex/binary codec, the two
classes `DESEncryptor` and `DESDecryptor` with their own copies of the DES tables
and helpers, and `Utils::testEncryptionDecryption`; and of the hex conversion and
PKCS7 padding functions of `CryptoUtils` (`src/utils/crypto_utils.cpp`).

Modelling conventions.
* A C++ `char` is one byte, `Byte = Fin 256`; a `std::string` is a list of bytes.
  Where the source does integer arithmetic on a `char` the value is taken as the
  byte's code; every such place only looks at the four low bits or compares with
  ASCII letters, so the signedness of `char` makes no difference.
* `s[i]` is `charAt s i`.  Reading at or past the end of a string is not defined
  behaviour of the source apart from `s[size()]`, which is NUL; the embedding
  returns NUL there.
* A counted `for` loop becomes a `map`/`flatMap`/`foldl` over the list of values
  its index takes; a `while` loop becomes a recursive function.
* A thrown `DESException` is the `error` case of `Except`.
-/

namespace DESCustom

/-- One C++ `char`. -/
abbrev Byte := Fin 256

/-- A `std::string`: a sequence of bytes. -/
abbrev Str := List Byte

/-- The byte of an ASCII character literal. -/
def ch (c : Char) : Byte := Fin.ofNat c.toNat

/-- The bytes of an ASCII string literal. -/
def str (s : String) : Str := s.toList.map ch

/-- The integer value of a `char` in an arithmetic expression. -/
def code (c : Byte) : Int := (c.val : Int)

/-- Indexing `s[i]`.  The source defines the read for `i < s.size()` and, as the NUL
character, for `i = s.size()`; further out it defines no value, and the NUL given
here is a placeholder: the lookups with their bounds checked, below, say where a
run stays in range. -/
def charAt (s : Str) (i : Nat) : Byte := s.getD i 0

/-- The call `s.substr(pos, n)` for `pos <= s.size()`. -/
def substr (s : Str) (pos n : Nat) : Str := (s.drop pos).take n

/-- The values taken by `i` in `for (i = 0; i < n; i += step)`. -/
def strideStarts (n step : Nat) : List Nat :=
  (List.range ((n + step - 1) / step)).map (fun q => q * step)

/-- The test `(c >= '0' && c <= '9') || (c >= 'A' && c <= 'F') || (c >= 'a' && c <= 'f')`
that `validateKey` and `encrypt` apply to a character. -/
def isHexDigit (c : Byte) : Bool :=
  (ch '0' ≤ c && c ≤ ch '9') || (ch 'A' ≤ c && c ≤ ch 'F') || (ch 'a' ≤ c && c ≤ ch 'f')

/-- The exception class `DESException`, carrying its message. -/
structure DESException where
  message : String
  deriving DecidableEq, Repr

deriving instance DecidableEq for Except

/-! ## Helper functions -/

/-- The chain of comparisons in the body of the loop of `binToHex`: the hex digit
appended for the group `k`, nothing when `k` is none of the sixteen patterns. -/
def nibbleHex (k : Str) : Str :=
  if k = str "0000" then [ch '0']
  else if k = str "0001" then [ch '1']
  else if k = str "0010" then [ch '2']
  else if k = str "0011" then [ch '3']
  else if k = str "0100" then [ch '4']
  else if k = str "0101" then [ch '5']
  else if k = str "0110" then [ch '6']
  else if k = str "0111" then [ch '7']
  else if k = str "1000" then [ch '8']
  else if k = str "1001" then [ch '9']
  else if k = str "1010" then [ch 'A']
  else if k = str "1011" then [ch 'B']
  else if k = str "1100" then [ch 'C']
  else if k = str "1101" then [ch 'D']
  else if k = str "1110" then [ch 'E']
  else if k = str "1111" then [ch 'F']
  else []

/-- The function `binToHex`: for `i = 0, 4, 8, ...` the group `binary.substr(i, 4)`
contributes its upper-case hex digit. -/
def binToHex (binary : Str) : Str :=
  (strideStarts binary.length 4).flatMap fun i => nibbleHex (substr binary i 4)

/-- The function `hexToBin`: `val` is `hexChar - '0'` for a decimal digit and
`hexChar - 'A' + 10` for every other character; the four bits `(val >> i) & 1`,
`i = 3..0`, are appended.  On `Int`, `>>>` is the arithmetic shift and `x % 2` is
the low bit `x & 1` of the two's complement value. -/
def hexToBin (hex : Str) : Str :=
  hex.flatMap fun hexChar =>
    let val : Int :=
      if ch '0' ≤ hexChar ∧ hexChar ≤ ch '9' then code hexChar - code (ch '0')
      else code hexChar - code (ch 'A') + 10
    [3, 2, 1, 0].map fun i => if (val >>> i) % 2 ≠ 0 then ch '1' else ch '0'

/-- The first loop of `decToBin`: `while (n > 0) { bin = (char)(n % 2 + '0') + bin; n /= 2; }`. -/
def decToBinLoop (n : Nat) (bin : Str) : Str :=
  if 0 < n then decToBinLoop (n / 2) (Fin.ofNat (n % 2 + (ch '0').val) :: bin) else bin
termination_by n
decreasing_by omega

/-- The function `decToBin`; the second loop, `while (bin.size() < 4) bin = '0' + bin`,
pads on the left to four characters. -/
def decToBin (n : Nat) : Str :=
  List.leftpad 4 (ch '0') (decToBinLoop n [])

/-- One lower-case hex digit, as the stream prints it under `std::hex`. -/
def hexDigitLower (d : Nat) : Byte :=
  if d < 10 then Fin.ofNat ((ch '0').val + d) else Fin.ofNat ((ch 'a').val + (d - 10))

/-- The function `stringToHex`: every character, as an `unsigned char` widened to
`int`, is printed with `std::hex`, `setw(2)` and `setfill('0')`. -/
def stringToHex (input : Str) : Str :=
  input.flatMap fun c => [hexDigitLower (c.val / 16), hexDigitLower (c.val % 16)]

/-- The value of a hex digit for `strtol`, if the character is one. -/
def hexVal (c : Byte) : Option Nat :=
  if ch '0' ≤ c ∧ c ≤ ch '9' then some (c.val - (ch '0').val)
  else if ch 'a' ≤ c ∧ c ≤ ch 'f' then some (c.val - (ch 'a').val + 10)
  else if ch 'A' ≤ c ∧ c ≤ ch 'F' then some (c.val - (ch 'A').val + 10)
  else none

/-- The digit loop of `strtol`: digits are consumed up to the first character that
is not a hex digit. -/
def strtolDigits : Str → Int → Int
  | [], acc => acc
  | c :: cs, acc =>
    match hexVal c with
    | some d => strtolDigits cs (acc * 16 + d)
    | none => acc

/-- The C library call `strtol(s.c_str(), nullptr, 16)` for the strings of at most
two characters that `hexToString` passes: the C string ends at the first NUL,
leading white space is skipped, one sign is accepted, then hex digits are read.
(With at most two characters the `0x` prefix rule and the range clamp of the
library cannot change the result.) -/
def strtol16 (s : Str) : Int :=
  let cstr := s.takeWhile (fun c => c ≠ 0)
  let body := cstr.dropWhile (fun c => c.val = 32 ∨ (9 ≤ c.val ∧ c.val ≤ 13))
  match body with
  | [] => 0
  | c :: cs =>
    if c = ch '-' then - strtolDigits cs 0
    else if c = ch '+' then strtolDigits cs 0
    else strtolDigits (c :: cs) 0

/-- The conversion `(char)strtol(byteString.c_str(), nullptr, 16)`: the value is
reduced modulo 256. -/
def hexByte (byteString : Str) : Byte :=
  Fin.ofNat ((strtol16 byteString) % 256).toNat

/-- The function `hexToString`: for `i = 0, 2, 4, ...` the group `hex.substr(i, 2)`
is parsed by `strtol` in base 16 and appended as one `char`. -/
def hexToString (hex : Str) : Str :=
  (strideStarts hex.length 2).map fun i => hexByte (substr hex i 2)

/-- The padding loop of `encrypt`:
`while (plaintextHex.length() % 16 != 0) plaintextHex += '0'`. -/
def padLoop (plaintextHex : Str) : Str :=
  if plaintextHex.length % 16 ≠ 0 then padLoop (plaintextHex ++ [ch '0']) else plaintextHex
termination_by (16 - plaintextHex.length % 16) % 16
decreasing_by simp only [List.length_append, List.length_singleton]; omega

/-! ## The class `DESEncryptor` -/

/-- The data members of a `DESEncryptor`. -/
structure DESEncryptor where
  key : Str
  subkeys : List Str
  deriving DecidableEq, Repr

namespace DESEncryptor

/-- The table `PC_1` (parity drop), 1-based positions in the 64-bit key. -/
def PC_1 : List Nat :=
  [57, 49, 41, 33, 25, 17, 9,
   1, 58, 50, 42, 34, 26, 18,
   10, 2, 59, 51, 43, 35, 27,
   19, 11, 3, 60, 52, 44, 36,
   63, 55, 47, 39, 31, 23, 15,
   7, 62, 54, 46, 38, 30, 22,
   14, 6, 61, 53, 45, 37, 29,
   21, 13, 5, 28, 20, 12, 4]

/-- The table `PC_2` (compression), 1-based positions in the 56-bit key. -/
def PC_2 : List Nat :=
  [14, 17, 11, 24, 1, 5,
   3, 28, 15, 6, 21, 10,
   23, 19, 12, 4, 26, 8,
   16, 7, 27, 20, 13, 2,
   41, 52, 31, 37, 47, 55,
   30, 40, 51, 45, 33, 48,
   44, 49, 39, 56, 34, 53,
   46, 42, 50, 36, 29, 32]

/-- The table `IP_T` (initial permutation). -/
def IP_T : List Nat :=
  [58, 50, 42, 34, 26, 18, 10, 2,
   60, 52, 44, 36, 28, 20, 12, 4,
   62, 54, 46, 38, 30, 22, 14, 6,
   64, 56, 48, 40, 32, 24, 16, 8,
   57, 49, 41, 33, 25, 17, 9, 1,
   59, 51, 43, 35, 27, 19, 11, 3,
   61, 53, 45, 37, 29, 21, 13, 5,
   63, 55, 47, 39, 31, 23, 15, 7]

/-- The table `E_T` (expansion of the right half). -/
def E_T : List Nat :=
  [32, 1, 2, 3, 4, 5,
   4, 5, 6, 7, 8, 9,
   8, 9, 10, 11, 12, 13,
   12, 13, 14, 15, 16, 17,
   16, 17, 18, 19, 20, 21,
   20, 21, 22, 23, 24, 25,
   24, 25, 26, 27, 28, 29,
   28, 29, 30, 31, 32, 1]

/-- The table `S`: eight substitution boxes of four rows and sixteen columns. -/
def S : List (List (List Nat)) :=
  [[[14, 4, 13, 1, 2, 15, 11, 8, 3, 10, 6, 12, 5, 9, 0, 7],
    [0, 15, 7, 4, 14, 2, 13, 1, 10, 6, 12, 11, 9, 5, 3, 8],
    [4, 1, 14, 8, 13, 6, 2, 11, 15, 12, 9, 7, 3, 10, 5, 0],
    [15, 12, 8, 2, 4, 9, 1, 7, 5, 11, 3, 14, 10, 0, 6, 13]],
   [[15, 1, 8, 14, 6, 11, 3, 4, 9, 7, 2, 13, 12, 0, 5, 10],
    [3, 13, 4, 7, 15, 2, 8, 14, 12, 0, 1, 10, 6, 9, 11, 5],
    [0, 14, 7, 11, 10, 4, 13, 1, 5, 8, 12, 6, 9, 3, 2, 15],
    [13, 8, 10, 1, 3, 15, 4, 2, 11, 6, 7, 12, 0, 5, 14, 9]],
   [[10, 0, 9, 14, 6, 3, 15, 5, 1, 13, 12, 7, 11, 4, 2, 8],
    [13, 7, 0, 9, 3, 4, 6, 10, 2, 8, 5, 14, 12, 11, 15, 1],
    [13, 6, 4, 9, 8, 15, 3, 0, 11, 1, 2, 12, 5, 10, 14, 7],
    [1, 10, 13, 0, 6, 9, 8, 7, 4, 15, 14, 3, 11, 5, 2, 12]],
   [[7, 13, 14, 3, 0, 6, 9, 10, 1, 2, 8, 5, 11, 12, 4, 15],
    [13, 8, 11, 5, 6, 15, 0, 3, 4, 7, 2, 12, 1, 10, 14, 9],
    [10, 6, 9, 0, 12, 11, 7, 13, 15, 1, 3, 14, 5, 2, 8, 4],
    [3, 15, 0, 6, 10, 1, 13, 8, 9, 4, 5, 11, 12, 7, 2, 14]],
   [[2, 12, 4, 1, 7, 10, 11, 6, 8, 5, 3, 15, 13, 0, 14, 9],
    [14, 11, 2, 12, 4, 7, 13, 1, 5, 0, 15, 10, 3, 9, 8, 6],
    [4, 2, 1, 11, 10, 13, 7, 8, 15, 9, 12, 5, 6, 3, 0, 14],
    [11, 8, 12, 7, 1, 14, 2, 13, 6, 15, 0, 9, 10, 4, 5, 3]],
   [[12, 1, 10, 15, 9, 2, 6, 8, 0, 13, 3, 4, 14, 7, 5, 11],
    [10, 15, 4, 2, 7, 12, 9, 5, 6, 1, 13, 14, 0, 11, 3, 8],
    [9, 14, 15, 5, 2, 8, 12, 3, 7, 0, 4, 10, 1, 13, 11, 6],
    [4, 3, 2, 12, 9, 5, 15, 10, 11, 14, 1, 7, 6, 0, 8, 13]],
   [[4, 11, 2, 14, 15, 0, 8, 13, 3, 12, 9, 7, 5, 10, 6, 1],
    [13, 0, 11, 7, 4, 9, 1, 10, 14, 3, 5, 12, 2, 15, 8, 6],
    [1, 4, 11, 13, 12, 3, 7, 14, 10, 15, 6, 8, 0, 5, 9, 2],
    [6, 11, 13, 8, 1, 4, 10, 7, 9, 5, 0, 15, 14, 2, 3, 12]],
   [[13, 2, 8, 4, 6, 15, 11, 1, 10, 9, 3, 14, 5, 0, 12, 7],
    [1, 15, 13, 8, 10, 3, 7, 4, 12, 5, 6, 11, 0, 14, 9, 2],
    [7, 11, 4, 1, 9, 12, 14, 2, 0, 6, 10, 13, 15, 3, 5, 8],
    [2, 1, 14, 7, 4, 10, 8, 13, 15, 12, 9, 0, 3, 5, 6, 11]]]

/-- The table `P` (straight permutation). -/
def P : List Nat :=
  [16, 7, 20, 21,
   29, 12, 28, 17,
   1, 15, 23, 26,
   5, 18, 31, 10,
   2, 8, 24, 14,
   32, 27, 3, 9,
   19, 13, 30, 6,
   22, 11, 4, 25]

/-- The table `P_1` (final permutation). -/
def P_1 : List Nat :=
  [40, 8, 48, 16, 56, 24, 64, 32,
   39, 7, 47, 15, 55, 23, 63, 31,
   38, 6, 46, 14, 54, 22, 62, 30,
   37, 5, 45, 13, 53, 21, 61, 29,
   36, 4, 44, 12, 52, 20, 60, 28,
   35, 3, 43, 11, 51, 19, 59, 27,
   34, 2, 42, 10, 50, 18, 58, 26,
   33, 1, 41, 9, 49, 17, 57, 25]

/-- The table `NUM_LEFTSHIFT`: the rotation of each round. -/
def NUM_LEFTSHIFT : List Nat :=
  [1, 1, 2, 2, 2, 2, 2, 2, 1, 2, 2, 2, 2, 2, 2, 1]

/-- The member `processKey`: the 64 key bits selected by `PC_1`. -/
def processKey (keyHex : Str) : Str :=
  let keyBin := hexToBin keyHex
  PC_1.map fun t => charAt keyBin (t - 1)

/-- The member `shiftBit`: the characters from index `n` on, then the first `n`. -/
def shiftBit (s : Str) (n : Nat) : Str :=
  ((List.range (s.length - n)).map fun d => charAt s (n + d)) ++
    ((List.range n).map fun i => charAt s i)

/-- The member `xorAdd`: for every index of `s1`, `'1'` where the two strings
differ and `'0'` where they agree. -/
def xorAdd (s1 s2 : Str) : Str :=
  (List.range s1.length).map fun j => if charAt s1 j ≠ charAt s2 j then ch '1' else ch '0'

/-- The lookup `S[k][dec1][dec2]`; the indices are C++ `int`s. -/
def sboxEntry (k : Nat) (dec1 dec2 : Int) : Nat :=
  if 0 ≤ dec1 ∧ 0 ≤ dec2 then ((S.getD k []).getD dec1.toNat []).getD dec2.toNat 0 else 0

/-- The member `getElementFromBox`: the row is `2 * s[0] + s[5]`, the column is
read from `s[size - 2]` (weight 1) down to `s[1]`, and the entry is rendered by
`decToBin`. -/
def getElementFromBox (s : Str) (k : Nat) : Str :=
  let dec1 : Int := (code (charAt s 0) - code (ch '0')) * 2 + (code (charAt s 5) - code (ch '0'))
  let dec2 : Int :=
    ((List.range (s.length - 2)).map fun pwr =>
      (code (charAt s (s.length - 2 - pwr)) - code (ch '0')) * 2 ^ pwr).sum
  decToBin (sboxEntry k dec1 dec2)

/-- The entry `L_key[i]` (or `R_key[i]`) of `generateSubkeys`: entry 0 rotates the
half by `NUM_LEFTSHIFT[0]`, entry `i` rotates entry `i - 1` by `NUM_LEFTSHIFT[i]`. -/
def rotatedHalf (half : Str) : Nat → Str
  | 0 => shiftBit half (NUM_LEFTSHIFT.getD 0 0)
  | i + 1 => shiftBit (rotatedHalf half i) (NUM_LEFTSHIFT.getD (i + 1) 0)

/-- The sixteen strings that `generateSubkeys` pushes, in the order pushed. -/
def scheduledKeys (key : Str) : List Str :=
  let processedKey := processKey key
  let keyFirstHalf := substr processedKey 0 28
  let keySecondHalf := substr processedKey 28 28
  (List.range 16).map fun i =>
    let key56 := rotatedHalf keyFirstHalf i ++ rotatedHalf keySecondHalf i
    PC_2.map fun t => charAt key56 (t - 1)

/-- The body of the loop `for (round = 0; round < 16; round++)`, on the pair `(L, R)`. -/
def roundStep (subkey : Str) (LR : Str × Str) : Str × Str :=
  let oldL := LR.1
  let R := LR.2
  let R48 := E_T.map fun t => charAt R (t - 1)
  let R_xor_K := xorAdd R48 subkey
  let s_output := (strideStarts 48 6).flatMap fun j =>
    getElementFromBox (substr R_xor_K j 6) (j / 6)
  let P_R := P.map fun t => charAt s_output (t - 1)
  (R, xorAdd P_R oldL)

/-- The body of the loop over the 16-character blocks: initial permutation,
sixteen rounds with `subkeys[round]`, the swap `R + L`, final permutation,
`binToHex`. -/
def blockTransform (subkeys : List Str) (block : Str) : Str :=
  let blockBin := hexToBin block
  let IP := IP_T.map fun t => charAt blockBin (t - 1)
  let L := substr IP 0 32
  let R := substr IP 32 32
  let LR := (List.range 16).foldl (fun st round => roundStep (subkeys.getD round []) st) (L, R)
  let RL := LR.2 ++ LR.1
  let finalPerm := P_1.map fun t => charAt RL (t - 1)
  binToHex finalPerm

/-- The member `generateSubkeys`: `subkeys` is cleared and refilled from `key`. -/
def generateSubkeys (self : DESEncryptor) : DESEncryptor :=
  { self with subkeys := scheduledKeys self.key }

/-- The static member `validateKey`. -/
def validateKey (key : Str) : Bool :=
  if key.length ≠ 16 then false else key.all isHexDigit

/-- The static member `generateRandomKey`. -/
def generateRandomKey : Str := str "133457799BBCDFF1"

/-- The constructor `DESEncryptor(key)`. -/
def init (key : Str) : Except DESException DESEncryptor :=
  if !validateKey key then .error ⟨"Invalid DES key format"⟩
  else .ok (generateSubkeys ⟨key, []⟩)

/-- The member `setKey`. -/
def setKey (self : DESEncryptor) (newKey : Str) : Except DESException DESEncryptor :=
  if !validateKey newKey then .error ⟨"Invalid DES key format"⟩
  else .ok (generateSubkeys { self with key := newKey })

/-- The member `generateKey`. -/
def generateKey (self : DESEncryptor) : DESEncryptor :=
  generateSubkeys { self with key := generateRandomKey }

/-- The member `getKey`. -/
def getKey (self : DESEncryptor) : Str := self.key

/-- The member `encrypt`: the string it returns (every read is in range; see
`encryptChecked` and `encryptRun`). -/
def encrypt (self : DESEncryptor) (plaintext : Str) : Str :=
  let isHex := plaintext.all isHexDigit
  let plaintextHex := if isHex && plaintext.length % 2 == 0 then plaintext else stringToHex plaintext
  let plaintextHex := padLoop plaintextHex
  (strideStarts plaintextHex.length 16).flatMap fun i =>
    blockTransform self.subkeys (substr plaintextHex i 16)

end DESEncryptor

/-! ## The class `DESDecryptor` -/

/-- The data members of a `DESDecryptor`. -/
structure DESDecryptor where
  key : Str
  subkeys : List Str
  deriving DecidableEq, Repr

namespace DESDecryptor

/-- The table `PC_1` (parity drop), 1-based positions in the 64-bit key. -/
def PC_1 : List Nat :=
  [57, 49, 41, 33, 25, 17, 9,
   1, 58, 50, 42, 34, 26, 18,
   10, 2, 59, 51, 43, 35, 27,
   19, 11, 3, 60, 52, 44, 36,
   63, 55, 47, 39, 31, 23, 15,
   7, 62, 54, 46, 38, 30, 22,
   14, 6, 61, 53, 45, 37, 29,
   21, 13, 5, 28, 20, 12, 4]

/-- The table `PC_2` (compression), 1-based positions in the 56-bit key. -/
def PC_2 : List Nat :=
  [14, 17, 11, 24, 1, 5,
   3, 28, 15, 6, 21, 10,
   23, 19, 12, 4, 26, 8,
   16, 7, 27, 20, 13, 2,
   41, 52, 31, 37, 47, 55,
   30, 40, 51, 45, 33, 48,
   44, 49, 39, 56, 34, 53,
   46, 42, 50, 36, 29, 32]

/-- The table `IP_T` (initial permutation). -/
def IP_T : List Nat :=
  [58, 50, 42, 34, 26, 18, 10, 2,
   60, 52, 44, 36, 28, 20, 12, 4,
   62, 54, 46, 38, 30, 22, 14, 6,
   64, 56, 48, 40, 32, 24, 16, 8,
   57, 49, 41, 33, 25, 17, 9, 1,
   59, 51, 43, 35, 27, 19, 11, 3,
   61, 53, 45, 37, 29, 21, 13, 5,
   63, 55, 47, 39, 31, 23, 15, 7]

/-- The table `E_T` (expansion of the right half). -/
def E_T : List Nat :=
  [32, 1, 2, 3, 4, 5,
   4, 5, 6, 7, 8, 9,
   8, 9, 10, 11, 12, 13,
   12, 13, 14, 15, 16, 17,
   16, 17, 18, 19, 20, 21,
   20, 21, 22, 23, 24, 25,
   24, 25, 26, 27, 28, 29,
   28, 29, 30, 31, 32, 1]

/-- The table `S`: eight substitution boxes of four rows and sixteen columns. -/
def S : List (List (List Nat)) :=
  [[[14, 4, 13, 1, 2, 15, 11, 8, 3, 10, 6, 12, 5, 9, 0, 7],
    [0, 15, 7, 4, 14, 2, 13, 1, 10, 6, 12, 11, 9, 5, 3, 8],
    [4, 1, 14, 8, 13, 6, 2, 11, 15, 12, 9, 7, 3, 10, 5, 0],
    [15, 12, 8, 2, 4, 9, 1, 7, 5, 11, 3, 14, 10, 0, 6, 13]],
   [[15, 1, 8, 14, 6, 11, 3, 4, 9, 7, 2, 13, 12, 0, 5, 10],
    [3, 13, 4, 7, 15, 2, 8, 14, 12, 0, 1, 10, 6, 9, 11, 5],
    [0, 14, 7, 11, 10, 4, 13, 1, 5, 8, 12, 6, 9, 3, 2, 15],
    [13, 8, 10, 1, 3, 15, 4, 2, 11, 6, 7, 12, 0, 5, 14, 9]],
   [[10, 0, 9, 14, 6, 3, 15, 5, 1, 13, 12, 7, 11, 4, 2, 8],
    [13, 7, 0, 9, 3, 4, 6, 10, 2, 8, 5, 14, 12, 11, 15, 1],
    [13, 6, 4, 9, 8, 15, 3, 0, 11, 1, 2, 12, 5, 10, 14, 7],
    [1, 10, 13, 0, 6, 9, 8, 7, 4, 15, 14, 3, 11, 5, 2, 12]],
   [[7, 13, 14, 3, 0, 6, 9, 10, 1, 2, 8, 5, 11, 12, 4, 15],
    [13, 8, 11, 5, 6, 15, 0, 3, 4, 7, 2, 12, 1, 10, 14, 9],
    [10, 6, 9, 0, 12, 11, 7, 13, 15, 1, 3, 14, 5, 2, 8, 4],
    [3, 15, 0, 6, 10, 1, 13, 8, 9, 4, 5, 11, 12, 7, 2, 14]],
   [[2, 12, 4, 1, 7, 10, 11, 6, 8, 5, 3, 15, 13, 0, 14, 9],
    [14, 11, 2, 12, 4, 7, 13, 1, 5, 0, 15, 10, 3, 9, 8, 6],
    [4, 2, 1, 11, 10, 13, 7, 8, 15, 9, 12, 5, 6, 3, 0, 14],
    [11, 8, 12, 7, 1, 14, 2, 13, 6, 15, 0, 9, 10, 4, 5, 3]],
   [[12, 1, 10, 15, 9, 2, 6, 8, 0, 13, 3, 4, 14, 7, 5, 11],
    [10, 15, 4, 2, 7, 12, 9, 5, 6, 1, 13, 14, 0, 11, 3, 8],
    [9, 14, 15, 5, 2, 8, 12, 3, 7, 0, 4, 10, 1, 13, 11, 6],
    [4, 3, 2, 12, 9, 5, 15, 10, 11, 14, 1, 7, 6, 0, 8, 13]],
   [[4, 11, 2, 14, 15, 0, 8, 13, 3, 12, 9, 7, 5, 10, 6, 1],
    [13, 0, 11, 7, 4, 9, 1, 10, 14, 3, 5, 12, 2, 15, 8, 6],
    [1, 4, 11, 13, 12, 3, 7, 14, 10, 15, 6, 8, 0, 5, 9, 2],
    [6, 11, 13, 8, 1, 4, 10, 7, 9, 5, 0, 15, 14, 2, 3, 12]],
   [[13, 2, 8, 4, 6, 15, 11, 1, 10, 9, 3, 14, 5, 0, 12, 7],
    [1, 15, 13, 8, 10, 3, 7, 4, 12, 5, 6, 11, 0, 14, 9, 2],
    [7, 11, 4, 1, 9, 12, 14, 2, 0, 6, 10, 13, 15, 3, 5, 8],
    [2, 1, 14, 7, 4, 10, 8, 13, 15, 12, 9, 0, 3, 5, 6, 11]]]

/-- The table `P` (straight permutation). -/
def P : List Nat :=
  [16, 7, 20, 21,
   29, 12, 28, 17,
   1, 15, 23, 26,
   5, 18, 31, 10,
   2, 8, 24, 14,
   32, 27, 3, 9,
   19, 13, 30, 6,
   22, 11, 4, 25]

/-- The table `P_1` (final permutation). -/
def P_1 : List Nat :=
  [40, 8, 48, 16, 56, 24, 64, 32,
   39, 7, 47, 15, 55, 23, 63, 31,
   38, 6, 46, 14, 54, 22, 62, 30,
   37, 5, 45, 13, 53, 21, 61, 29,
   36, 4, 44, 12, 52, 20, 60, 28,
   35, 3, 43, 11, 51, 19, 59, 27,
   34, 2, 42, 10, 50, 18, 58, 26,
   33, 1, 41, 9, 49, 17, 57, 25]

/-- The table `NUM_LEFTSHIFT`: the rotation of each round. -/
def NUM_LEFTSHIFT : List Nat :=
  [1, 1, 2, 2, 2, 2, 2, 2, 1, 2, 2, 2, 2, 2, 2, 1]

/-- The member `processKey`: the 64 key bits selected by `PC_1`. -/
def processKey (keyHex : Str) : Str :=
  let keyBin := hexToBin keyHex
  PC_1.map fun t => charAt keyBin (t - 1)

/-- The member `shiftBit`: the characters from index `n` on, then the first `n`. -/
def shiftBit (s : Str) (n : Nat) : Str :=
  ((List.range (s.length - n)).map fun d => charAt s (n + d)) ++
    ((List.range n).map fun i => charAt s i)

/-- The member `xorAdd`: for every index of `s1`, `'1'` where the two strings
differ and `'0'` where they agree. -/
def xorAdd (s1 s2 : Str) : Str :=
  (List.range s1.length).map fun j => if charAt s1 j ≠ charAt s2 j then ch '1' else ch '0'

/-- The lookup `S[k][dec1][dec2]`; the indices are C++ `int`s. -/
def sboxEntry (k : Nat) (dec1 dec2 : Int) : Nat :=
  if 0 ≤ dec1 ∧ 0 ≤ dec2 then ((S.getD k []).getD dec1.toNat []).getD dec2.toNat 0 else 0

/-- The member `getElementFromBox`: the row is `2 * s[0] + s[5]`, the column is
read from `s[size - 2]` (weight 1) down to `s[1]`, and the entry is rendered by
`decToBin`. -/
def getElementFromBox (s : Str) (k : Nat) : Str :=
  let dec1 : Int := (code (charAt s 0) - code (ch '0')) * 2 + (code (charAt s 5) - code (ch '0'))
  let dec2 : Int :=
    ((List.range (s.length - 2)).map fun pwr =>
      (code (charAt s (s.length - 2 - pwr)) - code (ch '0')) * 2 ^ pwr).sum
  decToBin (sboxEntry k dec1 dec2)

/-- The entry `L_key[i]` (or `R_key[i]`) of `generateSubkeys`: entry 0 rotates the
half by `NUM_LEFTSHIFT[0]`, entry `i` rotates entry `i - 1` by `NUM_LEFTSHIFT[i]`. -/
def rotatedHalf (half : Str) : Nat → Str
  | 0 => shiftBit half (NUM_LEFTSHIFT.getD 0 0)
  | i + 1 => shiftBit (rotatedHalf half i) (NUM_LEFTSHIFT.getD (i + 1) 0)

/-- The sixteen strings that `generateSubkeys` pushes, in the order pushed (before the
final `std::reverse`). -/
def scheduledKeys (key : Str) : List Str :=
  let processedKey := processKey key
  let keyFirstHalf := substr processedKey 0 28
  let keySecondHalf := substr processedKey 28 28
  (List.range 16).map fun i =>
    let key56 := rotatedHalf keyFirstHalf i ++ rotatedHalf keySecondHalf i
    PC_2.map fun t => charAt key56 (t - 1)

/-- The body of the loop `for (round = 0; round < 16; round++)`, on the pair `(L, R)`. -/
def roundStep (subkey : Str) (LR : Str × Str) : Str × Str :=
  let oldL := LR.1
  let R := LR.2
  let R48 := E_T.map fun t => charAt R (t - 1)
  let R_xor_K := xorAdd R48 subkey
  let s_output := (strideStarts 48 6).flatMap fun j =>
    getElementFromBox (substr R_xor_K j 6) (j / 6)
  let P_R := P.map fun t => charAt s_output (t - 1)
  (R, xorAdd P_R oldL)

/-- The body of the loop over the 16-character blocks: initial permutation,
sixteen rounds with `subkeys[round]`, the swap `R + L`, final permutation,
`binToHex`. -/
def blockTransform (subkeys : List Str) (block : Str) : Str :=
  let blockBin := hexToBin block
  let IP := IP_T.map fun t => charAt blockBin (t - 1)
  let L := substr IP 0 32
  let R := substr IP 32 32
  let LR := (List.range 16).foldl (fun st round => roundStep (subkeys.getD round []) st) (L, R)
  let RL := LR.2 ++ LR.1
  let finalPerm := P_1.map fun t => charAt RL (t - 1)
  binToHex finalPerm

/-- The member `generateSubkeys`: `subkeys` is cleared, refilled from `key` and
reversed. -/
def generateSubkeys (self : DESDecryptor) : DESDecryptor :=
  { self with subkeys := (scheduledKeys self.key).reverse }

/-- The static member `validateKey`. -/
def validateKey (key : Str) : Bool := DESEncryptor.validateKey key

/-- The constructor `DESDecryptor(key)`. -/
def init (key : Str) : Except DESException DESDecryptor :=
  if !validateKey key then .error ⟨"Invalid DES key format"⟩
  else .ok (generateSubkeys ⟨key, []⟩)

/-- The member `setKey`. -/
def setKey (self : DESDecryptor) (newKey : Str) : Except DESException DESDecryptor :=
  if !validateKey newKey then .error ⟨"Invalid DES key format"⟩
  else .ok (generateSubkeys { self with key := newKey })

/-- The member `getKey`. -/
def getKey (self : DESDecryptor) : Str := self.key

/-- The member `decrypt`: the string it returns when every read is in range, which
is the case for a ciphertext whose length is a multiple of 16 (see
`decryptChecked` and `decryptRun` for the other lengths). -/
def decrypt (self : DESDecryptor) (ciphertext : Str) : Str :=
  (strideStarts ciphertext.length 16).flatMap fun i =>
    blockTransform self.subkeys (substr ciphertext i 16)

end DESDecryptor

/-! ## The namespace `Utils` -/

namespace Utils

/-- The function `Utils::generateKey`. -/
def generateKey : Str := DESEncryptor.generateRandomKey

/-- The first steps of `testEncryptionDecryption` for a key and a text: construct
both objects, encrypt, decrypt. -/
def encryptThenDecrypt (testKey testData : Str) : Except DESException Str := do
  let encryptor ← DESEncryptor.init testKey
  let decryptor ← DESDecryptor.init testKey
  let encrypted := encryptor.encrypt testData
  pure (decryptor.decrypt encrypted)

/-- The rest of `testEncryptionDecryption`: `hexToString`, then
`while (!s.empty() && s.back() == 0) s.pop_back()`. -/
def decryptedText (testKey testData : Str) : Except DESException Str := do
  let decrypted ← encryptThenDecrypt testKey testData
  let decryptedStr := hexToString decrypted
  pure (decryptedStr.rdropWhile fun c => c == 0)

/-- The function `testEncryptionDecryption`; a caught exception gives `false`. -/
def testEncryptionDecryption : Bool :=
  match decryptedText (str "133457799BBCDFF1") (str "Hello, World!") with
  | .ok decryptedStr => decryptedStr == str "Hello, World!"
  | .error _ => false

end Utils

/-! ## Definitions used to state and prove the properties -/

/-- A string made of the characters `'0'` and `'1'` only. -/
def IsBits (s : Str) : Prop := ∀ c ∈ s, c = ch '0' ∨ c = ch '1'

instance (s : Str) : Decidable (IsBits s) :=
  decidable_of_iff (s.all (fun c => c = ch '0' ∨ c = ch '1') = true) (by simp [IsBits])

/-- Selection through a table of 1-based positions: the loop `out += s[table[j] - 1]`
that the source writes out for `PC_1`, `PC_2`, `IP_T`, `E_T`, `P` and `P_1`. -/
def pick (table : List Nat) (s : Str) : Str := table.map fun t => charAt s (t - 1)

namespace DESEncryptor

/-- The value `P_R` computed in a round from the right half `R` and the round's subkey. -/
def feistel (subkey R : Str) : Str :=
  pick P ((strideStarts 48 6).flatMap fun j =>
    getElementFromBox (substr (xorAdd (pick E_T R) subkey) j 6) (j / 6))

/-- The sixteen rounds as a fold over the list of subkeys. -/
def rounds (ks : List Str) (LR : Str × Str) : Str × Str :=
  ks.foldl (fun st k => roundStep k st) LR

/-- Both halves are 32-character bit strings. -/
def GoodHalves (LR : Str × Str) : Prop :=
  LR.1.length = 32 ∧ LR.2.length = 32 ∧ IsBits LR.1 ∧ IsBits LR.2

end DESEncryptor

/-- The groups `s.substr(i, n)` for `i = 0, n, 2n, ...` below `s.size()`. -/
def blocksOf (n : Nat) (s : Str) : List Str :=
  (strideStarts s.length n).map fun i => substr s i n

/-- The upper-case form of a hex letter `a`..`f`; other characters are unchanged. -/
def toUpperHex (c : Byte) : Byte :=
  if ch 'a' ≤ c ∧ c ≤ ch 'f' then Fin.ofNat (c.val - 32) else c

/-- The test for an upper-case hex digit, `0`..`9` or `A`..`F`. -/
def isUpperHexDigit (c : Byte) : Bool :=
  (ch '0' ≤ c && c ≤ ch '9') || (ch 'A' ≤ c && c ≤ ch 'F')

namespace DESEncryptor

/-- The split of the permuted block into `L = IP.substr(0, 32)` and `R = IP.substr(32, 32)`. -/
def halves (IP : Str) : Str × Str := (substr IP 0 32, substr IP 32 32)

end DESEncryptor

/-- The first step of `encrypt`: the input itself when it is an even-length string
of hex digits, its `stringToHex` rendering otherwise. -/
def hexForm (plaintext : Str) : Str :=
  if plaintext.all isHexDigit && plaintext.length % 2 == 0 then plaintext
  else stringToHex plaintext

/-! ## The object as a state, and the lookups with their bounds checked -/

namespace DESEncryptor

/-- The call `setKey(newKey)` as a step on the object: the outcome of the call and
the members after it.  The `throw` comes before any member is assigned. -/
def setKeyStep (self : DESEncryptor) (newKey : Str) :
    Except DESException Unit × DESEncryptor :=
  if !validateKey newKey then (.error ⟨"Invalid DES key format"⟩, self)
  else (.ok (), generateSubkeys { self with key := newKey })

/-- The object states that can arise: after a constructor call that returned,
after a call of `setKey` (whether it threw or not), after a call of `generateKey`. -/
inductive Reachable : DESEncryptor → Prop
  | construct {key : Str} {e : DESEncryptor} : init key = .ok e → Reachable e
  | afterSetKey {e : DESEncryptor} (newKey : Str) :
      Reachable e → Reachable (e.setKeyStep newKey).2
  | afterGenerateKey {e : DESEncryptor} : Reachable e → Reachable e.generateKey

/-- The row index `dec1` that `getElementFromBox` computes from `s`. -/
def sboxRow (s : Str) : Int :=
  (code (charAt s 0) - code (ch '0')) * 2 + (code (charAt s 5) - code (ch '0'))

/-- The column index `dec2` that `getElementFromBox` computes from `s`. -/
def sboxCol (s : Str) : Int :=
  ((List.range (s.length - 2)).map fun pwr =>
    (code (charAt s (s.length - 2 - pwr)) - code (ch '0')) * 2 ^ pwr).sum

/-- The loop `out += s[table[j] - 1]` with every read checked: `none` as soon as
one `table[j] - 1` is not an index of `s`. -/
def pickChecked (table : List Nat) (s : Str) : Option Str :=
  if table.all (fun t => decide (1 ≤ t ∧ t - 1 < s.length)) then
    some (table.map fun t => charAt s (t - 1))
  else none

/-- The member `xorAdd` with its reads checked: `s2[j]` is read for every index
`j` of `s1`. -/
def xorAddChecked (s1 s2 : Str) : Option Str :=
  if s1.length ≤ s2.length then some (xorAdd s1 s2) else none

/-- The member `getElementFromBox` with its reads checked: `s[0]` and `s[5]` must
exist and `S[k][dec1][dec2]` must lie inside the `8 x 4 x 16` array. -/
def getElementFromBoxChecked (s : Str) (k : Nat) : Option Str :=
  if 5 < s.length ∧ k < 8 ∧ 0 ≤ sboxRow s ∧ sboxRow s < 4 ∧ 0 ≤ sboxCol s ∧ sboxCol s < 16 then
    some (getElementFromBox s k)
  else none

/-- The body of the round loop with every read checked, `subkeys[round]` included. -/
def roundStepChecked (subkeys : List Str) (LR : Str × Str) (round : Nat) :
    Option (Str × Str) := do
  let oldL := LR.1
  let R := LR.2
  let R48 ← pickChecked E_T R
  let subkey ← subkeys[round]?
  let R_xor_K ← xorAddChecked R48 subkey
  let boxes := (strideStarts 48 6).map fun j =>
    getElementFromBoxChecked (substr R_xor_K j 6) (j / 6)
  let s_output ← if boxes.all Option.isSome then
      some ((strideStarts 48 6).flatMap fun j => getElementFromBox (substr R_xor_K j 6) (j / 6))
    else none
  let P_R ← pickChecked P s_output
  let newR ← xorAddChecked P_R oldL
  pure (R, newR)

/-- The body of the loop over the blocks with every read checked. -/
def blockTransformChecked (subkeys : List Str) (block : Str) : Option Str := do
  let blockBin := hexToBin block
  let IP ← pickChecked IP_T blockBin
  let L := substr IP 0 32
  let R := substr IP 32 32
  let LR ← (List.range 16).foldlM (roundStepChecked subkeys) (L, R)
  let RL := LR.2 ++ LR.1
  let finalPerm ← pickChecked P_1 RL
  pure (binToHex finalPerm)

/-- The member `encrypt` with every read checked: `none` when the transform of some
block reads out of range. -/
def encryptChecked (self : DESEncryptor) (plaintext : Str) : Option Str :=
  let isHex := plaintext.all isHexDigit
  let plaintextHex := if isHex && plaintext.length % 2 == 0 then plaintext else stringToHex plaintext
  let plaintextHex := padLoop plaintextHex
  let outs := (strideStarts plaintextHex.length 16).map fun i =>
    blockTransformChecked self.subkeys (substr plaintextHex i 16)
  if outs.all Option.isSome then some (self.encrypt plaintext) else none

end DESEncryptor

namespace DESDecryptor

/-- The call `setKey(newKey)` as a step on the object: the outcome of the call and
the members after it.  The `throw` comes before any member is assigned. -/
def setKeyStep (self : DESDecryptor) (newKey : Str) :
    Except DESException Unit × DESDecryptor :=
  if !validateKey newKey then (.error ⟨"Invalid DES key format"⟩, self)
  else (.ok (), generateSubkeys { self with key := newKey })

/-- The object states that can arise: after a constructor call that returned and
after a call of `setKey` (whether it threw or not). -/
inductive Reachable : DESDecryptor → Prop
  | construct {key : Str} {d : DESDecryptor} : init key = .ok d → Reachable d
  | afterSetKey {d : DESDecryptor} (newKey : Str) :
      Reachable d → Reachable (d.setKeyStep newKey).2

/-- The row index `dec1` that `getElementFromBox` computes from `s`. -/
def sboxRow (s : Str) : Int :=
  (code (charAt s 0) - code (ch '0')) * 2 + (code (charAt s 5) - code (ch '0'))

/-- The column index `dec2` that `getElementFromBox` computes from `s`. -/
def sboxCol (s : Str) : Int :=
  ((List.range (s.length - 2)).map fun pwr =>
    (code (charAt s (s.length - 2 - pwr)) - code (ch '0')) * 2 ^ pwr).sum

/-- The loop `out += s[table[j] - 1]` with every read checked: `none` as soon as
one `table[j] - 1` is not an index of `s`. -/
def pickChecked (table : List Nat) (s : Str) : Option Str :=
  if table.all (fun t => decide (1 ≤ t ∧ t - 1 < s.length)) then
    some (table.map fun t => charAt s (t - 1))
  else none

/-- The member `xorAdd` with its reads checked: `s2[j]` is read for every index
`j` of `s1`. -/
def xorAddChecked (s1 s2 : Str) : Option Str :=
  if s1.length ≤ s2.length then some (xorAdd s1 s2) else none

/-- The member `getElementFromBox` with its reads checked: `s[0]` and `s[5]` must
exist and `S[k][dec1][dec2]` must lie inside the `8 x 4 x 16` array. -/
def getElementFromBoxChecked (s : Str) (k : Nat) : Option Str :=
  if 5 < s.length ∧ k < 8 ∧ 0 ≤ sboxRow s ∧ sboxRow s < 4 ∧ 0 ≤ sboxCol s ∧ sboxCol s < 16 then
    some (getElementFromBox s k)
  else none

/-- The body of the round loop with every read checked, `subkeys[round]` included. -/
def roundStepChecked (subkeys : List Str) (LR : Str × Str) (round : Nat) :
    Option (Str × Str) := do
  let oldL := LR.1
  let R := LR.2
  let R48 ← pickChecked E_T R
  let subkey ← subkeys[round]?
  let R_xor_K ← xorAddChecked R48 subkey
  let boxes := (strideStarts 48 6).map fun j =>
    getElementFromBoxChecked (substr R_xor_K j 6) (j / 6)
  let s_output ← if boxes.all Option.isSome then
      some ((strideStarts 48 6).flatMap fun j => getElementFromBox (substr R_xor_K j 6) (j / 6))
    else none
  let P_R ← pickChecked P s_output
  let newR ← xorAddChecked P_R oldL
  pure (R, newR)

/-- The body of the loop over the blocks with every read checked. -/
def blockTransformChecked (subkeys : List Str) (block : Str) : Option Str := do
  let blockBin := hexToBin block
  let IP ← pickChecked IP_T blockBin
  let L := substr IP 0 32
  let R := substr IP 32 32
  let LR ← (List.range 16).foldlM (roundStepChecked subkeys) (L, R)
  let RL := LR.2 ++ LR.1
  let finalPerm ← pickChecked P_1 RL
  pure (binToHex finalPerm)

/-- The member `decrypt` with every read checked: `none` when the transform of some
block reads out of range. -/
def decryptChecked (self : DESDecryptor) (ciphertext : Str) : Option Str :=
  let outs := (strideStarts ciphertext.length 16).map fun i =>
    blockTransformChecked self.subkeys (substr ciphertext i 16)
  if outs.all Option.isSome then some (self.decrypt ciphertext) else none

end DESDecryptor

/-! ## Reference forms of the key schedule and of the S-box lookup -/

/-- The numeric value of a character `'0'` or `'1'`. -/
def bitValue (c : Byte) : Nat := c.val - (ch '0').val

/-- The four binary digits of `n`, most significant first, as characters. -/
def binary4 (n : Nat) : Str :=
  [Fin.ofNat (n / 8 % 2 + (ch '0').val), Fin.ofNat (n / 4 % 2 + (ch '0').val),
   Fin.ofNat (n / 2 % 2 + (ch '0').val), Fin.ofNat (n % 2 + (ch '0').val)]

namespace DESEncryptor

/-- The subkey of round `i` (counted from 1) as the specification words it: with
`C0` and `D0` the first and the last 28 bits of `PC_1` applied to the 64 key bits and
`s` the sum of the first `i` entries of the shift table, `PC_2` applied to the
circular left rotations of `C0` and of `D0` by `s`, concatenated. -/
def specSubkey (key : Str) (i : Nat) : Str :=
  let permuted := pick PC_1 (hexToBin key)
  let C0 := permuted.take 28
  let D0 := permuted.drop 28
  let s := (NUM_LEFTSHIFT.take i).sum
  pick PC_2 (C0.rotate s ++ D0.rotate s)

end DESEncryptor

/-! ## The calls `encrypt` and `decrypt` as runs on the object -/

namespace DESEncryptor

/-- The member call `xorAdd(s1, s2)` made on the object, its reads checked: the
returned string and the object after the call.  The body of `xorAdd` builds and
returns a local string and names no member. -/
def xorAddRun (self : DESEncryptor) (s1 s2 : Str) : Option (Str × DESEncryptor) :=
  (xorAddChecked s1 s2).map fun r => (r, self)

/-- The member call `getElementFromBox(s, k)` made on the object, its reads
checked: the returned string and the object after the call.  The body reads the
table `S` and assigns to locals only. -/
def getElementFromBoxRun (self : DESEncryptor) (s : Str) (k : Nat) :
    Option (Str × DESEncryptor) :=
  (getElementFromBoxChecked s k).map fun r => (r, self)

/-- One pass of the loop `for (j = 0; j < 48; j += 6)`, as a step on the object and
the local `s_output`: `s_output += getElementFromBox(s_input, j / 6)`. -/
def sboxBody (R_xor_K : Str) (st : DESEncryptor × Str) (j : Nat) :
    Option (DESEncryptor × Str) := do
  let s_input := substr R_xor_K j 6
  let (out, self) ← st.1.getElementFromBoxRun s_input (j / 6)
  pure (self, st.2 ++ out)

/-- One pass of the loop `for (round = 0; round < 16; round++)`, as a step on the
object and the locals `L` and `R`: `subkeys[round]` is read from the object, and
the object is passed through the three member calls.  `none` when a read is out of
range. -/
def roundBody (st : DESEncryptor × Str × Str) (round : Nat) :
    Option (DESEncryptor × Str × Str) := do
  let self := st.1
  let oldL := st.2.1
  let R := st.2.2
  let R48 ← pickChecked E_T R
  let subkey ← self.subkeys[round]?
  let (R_xor_K, self) ← self.xorAddRun R48 subkey
  let (self, s_output) ← (strideStarts 48 6).foldlM (sboxBody R_xor_K) (self, [])
  let P_R ← pickChecked P s_output
  let (newR, self) ← self.xorAddRun P_R oldL
  pure (self, R, newR)

/-- The variables of the body of `encrypt` that live across the loop over the
blocks: the object (`*this`, with its members `key` and `subkeys`) and the locals
`plaintextHex` and `result`. -/
structure EncryptVars where
  self : DESEncryptor
  plaintextHex : Str
  result : Str

/-- One pass of the loop over the blocks, as a step on the variables: initial
permutation, the sixteen rounds on the object, the swap, final permutation and
`result += binToHex(finalPerm)`.  `none` when a read is out of range. -/
def blockBody (st : EncryptVars) (i : Nat) : Option EncryptVars := do
  let block := substr st.plaintextHex i 16
  let blockBin := hexToBin block
  let IP ← pickChecked IP_T blockBin
  let L := substr IP 0 32
  let R := substr IP 32 32
  let (self, L, R) ← (List.range 16).foldlM roundBody (st.self, L, R)
  let RL := R ++ L
  let finalPerm ← pickChecked P_1 RL
  pure { st with self := self, result := st.result ++ binToHex finalPerm }

/-- The call `encrypt(plaintext)` as a run on the object: the returned string and
the object after the call, or `none` when a read is out of range.  The loop over
the blocks does not assign to `plaintextHex`, so its bound is the length after
padding. -/
def encryptRun (self : DESEncryptor) (plaintext : Str) : Option (Str × DESEncryptor) :=
  let isHex := plaintext.all isHexDigit
  let plaintextHex := if isHex && plaintext.length % 2 == 0 then plaintext else stringToHex plaintext
  let plaintextHex := padLoop plaintextHex
  ((strideStarts plaintextHex.length 16).foldlM blockBody ⟨self, plaintextHex, []⟩).map
    fun st => (st.result, st.self)

/-- The calls `encrypt(q)`, for the `q` of `inputs` in order, on one object: the
object after the last call. -/
def afterEncrypts (self : DESEncryptor) (inputs : List Str) : Option DESEncryptor :=
  inputs.foldlM (fun s q => (s.encryptRun q).map Prod.snd) self

end DESEncryptor

namespace DESDecryptor

/-- The member call `xorAdd(s1, s2)` made on the object, its reads checked: the
returned string and the object after the call.  The body of `xorAdd` builds and
returns a local string and names no member. -/
def xorAddRun (self : DESDecryptor) (s1 s2 : Str) : Option (Str × DESDecryptor) :=
  (xorAddChecked s1 s2).map fun r => (r, self)

/-- The member call `getElementFromBox(s, k)` made on the object, its reads
checked: the returned string and the object after the call.  The body reads the
table `S` and assigns to locals only. -/
def getElementFromBoxRun (self : DESDecryptor) (s : Str) (k : Nat) :
    Option (Str × DESDecryptor) :=
  (getElementFromBoxChecked s k).map fun r => (r, self)

/-- One pass of the loop `for (j = 0; j < 48; j += 6)`, as a step on the object and
the local `s_output`: `s_output += getElementFromBox(s_input, j / 6)`. -/
def sboxBody (R_xor_K : Str) (st : DESDecryptor × Str) (j : Nat) :
    Option (DESDecryptor × Str) := do
  let s_input := substr R_xor_K j 6
  let (out, self) ← st.1.getElementFromBoxRun s_input (j / 6)
  pure (self, st.2 ++ out)

/-- One pass of the loop `for (round = 0; round < 16; round++)`, as a step on the
object and the locals `L` and `R`: `subkeys[round]` is read from the object, and
the object is passed through the three member calls.  `none` when a read is out of
range. -/
def roundBody (st : DESDecryptor × Str × Str) (round : Nat) :
    Option (DESDecryptor × Str × Str) := do
  let self := st.1
  let oldL := st.2.1
  let R := st.2.2
  let R48 ← pickChecked E_T R
  let subkey ← self.subkeys[round]?
  let (R_xor_K, self) ← self.xorAddRun R48 subkey
  let (self, s_output) ← (strideStarts 48 6).foldlM (sboxBody R_xor_K) (self, [])
  let P_R ← pickChecked P s_output
  let (newR, self) ← self.xorAddRun P_R oldL
  pure (self, R, newR)

/-- The variables of the body of `decrypt` that live across the loop over the
blocks: the object (`*this`, with its members `key` and `subkeys`), the parameter
`ciphertext` and the local `result`. -/
structure DecryptVars where
  self : DESDecryptor
  ciphertext : Str
  result : Str

/-- One pass of the loop over the blocks, as a step on the variables: initial
permutation, the sixteen rounds on the object, the swap, final permutation and
`result += binToHex(finalPerm)`.  `none` when a read is out of range. -/
def blockBody (st : DecryptVars) (i : Nat) : Option DecryptVars := do
  let block := substr st.ciphertext i 16
  let blockBin := hexToBin block
  let IP ← pickChecked IP_T blockBin
  let L := substr IP 0 32
  let R := substr IP 32 32
  let (self, L, R) ← (List.range 16).foldlM roundBody (st.self, L, R)
  let RL := R ++ L
  let finalPerm ← pickChecked P_1 RL
  pure { st with self := self, result := st.result ++ binToHex finalPerm }

/-- The call `decrypt(ciphertext)` as a run on the object: the returned string and
the object after the call, or `none` when a read is out of range. -/
def decryptRun (self : DESDecryptor) (ciphertext : Str) : Option (Str × DESDecryptor) :=
  ((strideStarts ciphertext.length 16).foldlM blockBody ⟨self, ciphertext, []⟩).map
    fun st => (st.result, st.self)

/-- The calls `decrypt(q)`, for the `q` of `inputs` in order, on one object: the
object after the last call. -/
def afterDecrypts (self : DESDecryptor) (inputs : List Str) : Option DESDecryptor :=
  inputs.foldlM (fun s q => (s.decryptRun q).map Prod.snd) self

end DESDecryptor

/-! ## The complement of a bit string and of a hex string -/

/-- The complement of a binary digit: `'0'` and `'1'` are exchanged. -/
def flipBit (c : Byte) : Byte :=
  if c = ch '0' then ch '1' else if c = ch '1' then ch '0' else c

/-- The bitwise complement of a string of binary digits. -/
def flipBits (s : Str) : Str := s.map flipBit

/-- The hex digit `15 - d` for a hex digit of value `d`, written in upper case. -/
def complDigit (c : Byte) : Byte :=
  match hexVal c with
  | some d => charAt (str "0123456789ABCDEF") (15 - d)
  | none => c

/-- The complement of a hex string: every digit `d` is replaced by `15 - d`. -/
def complHex (s : Str) : Str := s.map complDigit

end DESCustom

/-! ## The namespace `CryptoUtils` (`src/utils/crypto_utils.cpp`)

A `std::vector<unsigned char>` is a list of bytes and a `size_t` is a natural
number. -/

namespace CryptoUtils

open DESCustom

/-- The exception class `CryptoException`, carrying its message. -/
structure CryptoException where
  message : String
  deriving DecidableEq, Repr

/-- What a call of `DataConverter::hexToBytes` can throw: its own `CryptoException`,
or the `std::invalid_argument` of `std::stoi`. -/
inductive ConversionFailure where
  | cryptoException (e : CryptoException)
  | invalidArgument
  deriving DecidableEq, Repr

/-- The call `std::stoi(s, nullptr, 16)` for the two-character strings that
`hexToBytes` passes: the C string ends at the first NUL, leading white space is
skipped, one sign is accepted, then hex digits are read; `none` stands for the
`std::invalid_argument` thrown when no digit can be read.  (With two characters
the `0x` prefix rule and the range check cannot change the result.) -/
def stoi16 (s : Str) : Option Int :=
  let cstr := s.takeWhile (fun c => c ≠ 0)
  let body := cstr.dropWhile (fun c => c.val = 32 ∨ (9 ≤ c.val ∧ c.val ≤ 13))
  match body with
  | [] => none
  | c :: cs =>
    let negative := c = ch '-'
    let digits := if c = ch '-' ∨ c = ch '+' then cs else c :: cs
    match digits with
    | [] => none
    | d :: _ =>
      if (hexVal d).isSome then
        some (if negative then - strtolDigits digits 0 else strtolDigits digits 0)
      else none

/-- The lower-case form of a hex letter `A`..`F`; other characters are unchanged. -/
def toLowerHex (c : Byte) : Byte :=
  if ch 'A' ≤ c ∧ c ≤ ch 'F' then Fin.ofNat (c.val + 32) else c

/-- The byte that `hexToBytes` pushes for one two-character group. -/
def groupByte (g : Str) : Byte := Fin.ofNat (((stoi16 g).getD 0) % 256).toNat

namespace DataConverter

/-- The function `DataConverter::hexToBytes`: an odd length throws; otherwise every
group `hex.substr(i, 2)`, `i = 0, 2, 4, ...`, is converted by `std::stoi` in base
16 and cast to `unsigned char`; a group that `std::stoi` cannot convert makes it
throw. -/
def hexToBytes (hex : Str) : Except ConversionFailure (List Byte) :=
  if hex.length % 2 ≠ 0 then
    .error (.cryptoException ⟨"Hex string must have even length"⟩)
  else
    let groups := (strideStarts hex.length 2).map fun i => stoi16 (substr hex i 2)
    if groups.all Option.isSome then
      .ok (groups.map fun v => Fin.ofNat ((v.getD 0) % 256).toNat)
    else .error .invalidArgument

/-- The function `DataConverter::bytesToHex`: every byte, widened to `int`, is
printed with `std::hex`, `setw(2)` and `setfill('0')`. -/
def bytesToHex (data : List Byte) : Str :=
  data.flatMap fun byte => [hexDigitLower (byte.val / 16), hexDigitLower (byte.val % 16)]

end DataConverter

namespace Padding

/-- The function `Padding::pkcs7Pad`. -/
def pkcs7Pad (data : List Byte) (blockSize : Nat) : Except CryptoException (List Byte) :=
  if blockSize = 0 ∨ blockSize > 255 then
    .error ⟨"Invalid block size for PKCS7 padding"⟩
  else
    let paddingLength := blockSize - data.length % blockSize
    .ok (data ++ List.replicate paddingLength (Fin.ofNat paddingLength))

/-- The function `Padding::pkcs7Unpad`: `paddingLength` is the last byte; the loop
checks the bytes at the indices `size - paddingLength`, ..., `size - 1`. -/
def pkcs7Unpad (data : List Byte) : Except CryptoException (List Byte) :=
  if data.isEmpty then .error ⟨"Cannot unpad empty data"⟩
  else
    let paddingLength : Byte := data.getLastD 0
    if paddingLength.val = 0 ∨ paddingLength.val > data.length then
      .error ⟨"Invalid PKCS7 padding"⟩
    else if (List.range paddingLength.val).any
        (fun d => data.getD (data.length - paddingLength.val + d) 0 ≠ paddingLength) then
      .error ⟨"Invalid PKCS7 padding"⟩
    else .ok (data.take (data.length - paddingLength.val))

end Padding

end CryptoUtils

namespace DESCustom

/-! ## Properties -/

theorem isBits_append {a b : Str} (ha : IsBits a) (hb : IsBits b) : IsBits (a ++ b) := by
  intro c hc
  rcases List.mem_append.mp hc with h | h
  · exact ha c h
  · exact hb c h

theorem charAt_of_lt {s : Str} {i : Nat} (h : i < s.length) : charAt s i = s[i] :=
  List.getD_eq_getElem s 0 h

theorem charAt_mem {s : Str} {i : Nat} (h : i < s.length) : charAt s i ∈ s := by
  rw [charAt_of_lt h]; exact List.getElem_mem h

theorem pick_length (t : List Nat) (s : Str) : (pick t s).length = t.length := by
  simp [pick]

theorem pick_isBits {t : List Nat} {s : Str} (hs : IsBits s)
    (ht : ∀ i ∈ t, i - 1 < s.length) : IsBits (pick t s) := by
  intro c hc
  simp only [pick, List.mem_map] at hc
  obtain ⟨i, hi, rfl⟩ := hc
  exact hs _ (charAt_mem (ht i hi))

theorem getD_eq_default_or_mem {α : Type} (l : List α) (i : Nat) (d : α) :
    l.getD i d = d ∨ l.getD i d ∈ l := by
  by_cases h : i < l.length
  · right; rw [List.getD_eq_getElem _ _ h]; exact List.getElem_mem h
  · left; exact List.getD_eq_default _ _ (Nat.le_of_not_lt h)

theorem length_flatMap_of_const {α : Type} (l : List α) (f : α → Str) (n : Nat)
    (h : ∀ a ∈ l, (f a).length = n) : (l.flatMap f).length = n * l.length := by
  induction l with
  | nil => simp
  | cons a l ih =>
    rw [List.flatMap_cons, List.length_append, h a (List.mem_cons_self _ _),
      ih (fun b hb => h b (List.mem_cons_of_mem _ hb)), List.length_cons]
    ring

theorem isBits_flatMap {α : Type} (l : List α) (f : α → Str)
    (h : ∀ a ∈ l, IsBits (f a)) : IsBits (l.flatMap f) := by
  intro c hc
  obtain ⟨a, ha, hca⟩ := List.mem_flatMap.mp hc
  exact h a ha c hca

theorem decToBin_small : ∀ n < 16, (decToBin n).length = 4 ∧ IsBits (decToBin n) := by
  decide!

namespace DESEncryptor

theorem S_entries_small : ∀ box ∈ S, ∀ row ∈ box, ∀ x ∈ row, x < 16 := by decide

theorem sboxEntry_lt (k : Nat) (dec1 dec2 : Int) : sboxEntry k dec1 dec2 < 16 := by
  unfold sboxEntry
  split
  · rcases getD_eq_default_or_mem S k [] with h1 | h1
    · rw [h1]; simp
    · rcases getD_eq_default_or_mem (S.getD k []) dec1.toNat [] with h2 | h2
      · rw [h2]; simp
      · rcases getD_eq_default_or_mem ((S.getD k []).getD dec1.toNat []) dec2.toNat 0 with h3 | h3
        · rw [h3]; decide
        · exact S_entries_small _ h1 _ h2 _ h3
  · decide

theorem getElementFromBox_length (s : Str) (k : Nat) : (getElementFromBox s k).length = 4 :=
  (decToBin_small _ (sboxEntry_lt k _ _)).1

theorem getElementFromBox_isBits (s : Str) (k : Nat) : IsBits (getElementFromBox s k) :=
  (decToBin_small _ (sboxEntry_lt k _ _)).2

theorem feistel_length (k R : Str) : (feistel k R).length = 32 := by
  unfold feistel
  rw [pick_length]
  decide

theorem P_in_range : ∀ i ∈ P, i - 1 < 32 := by decide

theorem feistel_isBits (k R : Str) : IsBits (feistel k R) := by
  unfold feistel
  apply pick_isBits
  · exact isBits_flatMap _ _ (fun j _ => getElementFromBox_isBits _ _)
  · rw [length_flatMap_of_const _ _ 4 (fun j _ => getElementFromBox_length _ _)]
    exact P_in_range

theorem roundStep_eq (k : Str) (LR : Str × Str) :
    roundStep k LR = (LR.2, xorAdd (feistel k LR.2) LR.1) := rfl

theorem xorAdd_length (a b : Str) : (xorAdd a b).length = a.length := by
  simp [xorAdd]

theorem xorAdd_isBits (a b : Str) : IsBits (xorAdd a b) := by
  intro c hc
  simp only [xorAdd, List.mem_map] at hc
  obtain ⟨j, -, rfl⟩ := hc
  split
  · exact Or.inr rfl
  · exact Or.inl rfl

theorem charAt_xorAdd {a : Str} (b : Str) {j : Nat} (h : j < a.length) :
    charAt (xorAdd a b) j = if charAt a j ≠ charAt b j then ch '1' else ch '0' := by
  have h2 : j < (xorAdd a b).length := by rw [xorAdd_length]; exact h
  rw [charAt_of_lt h2]
  simp [xorAdd]

theorem xorAdd_cancel {a b : Str} (ha : IsBits a) (hb : IsBits b)
    (hl : a.length = b.length) : xorAdd a (xorAdd a b) = b := by
  apply List.ext_getElem
  · rw [xorAdd_length, hl]
  · intro n h1 h2
    have hn : n < a.length := by rw [xorAdd_length] at h1; exact h1
    have e1 : (xorAdd a (xorAdd a b))[n] = charAt (xorAdd a (xorAdd a b)) n :=
      (charAt_of_lt h1).symm
    rw [e1, charAt_xorAdd _ hn, charAt_xorAdd _ hn, charAt_of_lt hn, charAt_of_lt h2]
    have hA := ha _ (List.getElem_mem hn)
    have hB := hb _ (List.getElem_mem h2)
    rcases hA with hA | hA <;> rcases hB with hB | hB <;> rw [hA, hB] <;> decide

theorem roundStep_good (k : Str) {LR : Str × Str} (h : GoodHalves LR) :
    GoodHalves (roundStep k LR) := by
  obtain ⟨-, h2, -, h4⟩ := h
  refine ⟨h2, ?_, h4, ?_⟩
  · show (xorAdd (feistel k LR.2) LR.1).length = 32
    rw [xorAdd_length, feistel_length]
  · exact xorAdd_isBits _ _

theorem roundStep_swap_cancel (k : Str) {LR : Str × Str} (h : GoodHalves LR) :
    roundStep k (roundStep k LR).swap = LR.swap := by
  obtain ⟨h1, -, h3, -⟩ := h
  rw [roundStep_eq k LR, roundStep_eq]
  show (LR.2, xorAdd (feistel k LR.2) (xorAdd (feistel k LR.2) LR.1)) = (LR.2, LR.1)
  rw [xorAdd_cancel (feistel_isBits _ _) h3 (by rw [feistel_length, h1])]

theorem rounds_good (ks : List Str) : ∀ {LR : Str × Str}, GoodHalves LR →
    GoodHalves (rounds ks LR) := by
  induction ks with
  | nil => intro LR h; exact h
  | cons k ks ih => intro LR h; exact ih (roundStep_good k h)

theorem rounds_append (ks ms : List Str) (LR : Str × Str) :
    rounds (ks ++ ms) LR = rounds ms (rounds ks LR) := by
  simp [rounds, List.foldl_append]

theorem rounds_cancel (ks : List Str) : ∀ {LR : Str × Str}, GoodHalves LR →
    rounds ks.reverse (rounds ks LR).swap = LR.swap := by
  induction ks using List.reverseRecOn with
  | nil => intro LR _; rfl
  | append_singleton ks k ih =>
    intro LR h
    rw [rounds_append, List.reverse_append, List.reverse_singleton, List.singleton_append]
    show rounds ks.reverse (roundStep k (roundStep k (rounds ks LR)).swap) = LR.swap
    rw [roundStep_swap_cancel k (rounds_good ks h)]
    exact ih h

theorem range_foldl_getD {σ : Type} (f : Str → σ → σ) (ks : List Str) (x : σ) :
    (List.range ks.length).foldl (fun st round => f (ks.getD round []) st) x
      = ks.foldl (fun st k => f k st) x := by
  have h : (List.range ks.length).map (fun round => ks.getD round []) = ks := by
    apply List.ext_getElem
    · simp
    · intro n h1 h2
      simp only [List.getElem_map, List.getElem_range]
      exact List.getD_eq_getElem _ _ h2
  conv_rhs => rw [← h]
  rw [List.foldl_map]

theorem IP_T_P_1_inverse : ∀ j < 64, P_1.getD (IP_T.getD j 0 - 1) 0 - 1 = j := by decide

theorem P_1_IP_T_inverse : ∀ j < 64, IP_T.getD (P_1.getD j 0 - 1) 0 - 1 = j := by decide

theorem IP_T_in_range : ∀ i ∈ IP_T, i - 1 < 64 := by decide

theorem P_1_in_range : ∀ i ∈ P_1, i - 1 < 64 := by decide

theorem pick_pick_of_inverse {t1 t2 : List Nat} {s : Str}
    (hlen : t1.length = s.length)
    (hrange : ∀ i ∈ t1, i - 1 < t2.length)
    (hinv : ∀ j < s.length, t2.getD (t1.getD j 0 - 1) 0 - 1 = j) :
    pick t1 (pick t2 s) = s := by
  apply List.ext_getElem
  · rw [pick_length, hlen]
  · intro n h1 h2
    have hn : n < t1.length := by rw [hlen]; exact h2
    have hr : t1[n] - 1 < t2.length := hrange _ (List.getElem_mem hn)
    have e := hinv n h2
    rw [List.getD_eq_getElem _ _ hn, List.getD_eq_getElem _ _ hr] at e
    have hr2 : t2[t1[n] - 1] - 1 < s.length := by rw [e]; exact h2
    simp only [pick, List.getElem_map]
    rw [charAt_of_lt (by simpa using hr)]
    simp only [List.getElem_map]
    rw [charAt_of_lt hr2]
    simp only [e]

theorem pick_IP_T_pick_P_1 {s : Str} (h : s.length = 64) : pick IP_T (pick P_1 s) = s :=
  pick_pick_of_inverse (by rw [h]; rfl) (by decide) (by rw [h]; exact IP_T_P_1_inverse)

theorem pick_P_1_pick_IP_T {s : Str} (h : s.length = 64) : pick P_1 (pick IP_T s) = s :=
  pick_pick_of_inverse (by rw [h]; rfl) (by decide) (by rw [h]; exact P_1_IP_T_inverse)

end DESEncryptor

theorem strideStarts_add {n : Nat} (hn : 0 < n) (m : Nat) :
    strideStarts (n + m) n = 0 :: (strideStarts m n).map (fun i => i + n) := by
  unfold strideStarts
  have h : (n + m + n - 1) / n = (m + n - 1) / n + 1 := by
    have : n + m + n - 1 = (m + n - 1) + n := by omega
    rw [this, Nat.add_div_right _ hn]
  rw [h, List.range_succ_eq_map]
  simp only [List.map_cons, List.map_map, Nat.zero_mul]
  congr 1
  apply List.map_congr_left
  intro q _
  simp only [Function.comp_apply, Nat.succ_eq_add_one]
  ring

theorem blocksOf_nil (n : Nat) : blocksOf n [] = [] := by
  unfold blocksOf strideStarts
  rcases Nat.eq_zero_or_pos n with h | h
  · subst h; simp
  · have : (([] : Str).length + n - 1) / n = 0 := by
      simp only [List.length_nil, Nat.zero_add]
      exact Nat.div_eq_of_lt (by omega)
    rw [this]; rfl

theorem blocksOf_append {n : Nat} (hn : 0 < n) {a : Str} (ha : a.length = n) (b : Str) :
    blocksOf n (a ++ b) = a :: blocksOf n b := by
  unfold blocksOf
  rw [List.length_append, ha, strideStarts_add hn]
  simp only [List.map_cons, List.map_map]
  congr 1
  · simp [substr, ← ha]
  · apply List.map_congr_left
    intro i _
    simp only [Function.comp_apply, substr]
    congr 1
    rw [Nat.add_comm, ← List.drop_drop]
    congr 1
    rw [← ha]
    exact List.drop_left _ _

theorem blocksOf_flatten {n : Nat} (hn : 0 < n) (bs : List Str)
    (h : ∀ b ∈ bs, b.length = n) : blocksOf n bs.flatten = bs := by
  induction bs with
  | nil => exact blocksOf_nil n
  | cons b bs ih =>
    rw [List.flatten_cons, blocksOf_append hn (h b (List.mem_cons_self _ _)),
      ih (fun c hc => h c (List.mem_cons_of_mem _ hc))]

theorem blocksOf_spec {n : Nat} (hn : 0 < n) : ∀ (m : Nat) (s : Str), s.length = m * n →
    (blocksOf n s).flatten = s ∧ ∀ b ∈ blocksOf n s, b.length = n := by
  intro m
  induction m with
  | zero =>
    intro s hs
    have : s = [] := List.length_eq_zero.mp (by simpa using hs)
    subst this
    rw [blocksOf_nil]
    exact ⟨rfl, fun b hb => absurd hb (List.not_mem_nil b)⟩
  | succ m ih =>
    intro s hs
    have hle : n ≤ s.length := by rw [hs]; exact Nat.le_mul_of_pos_left n (Nat.succ_pos m)
    have ht : (s.take n).length = n := by rw [List.length_take]; omega
    have hd : (s.drop n).length = m * n := by
      rw [List.length_drop, hs, Nat.succ_mul]; omega
    obtain ⟨ih1, ih2⟩ := ih (s.drop n) hd
    have hsplit : blocksOf n s = s.take n :: blocksOf n (s.drop n) := by
      conv_lhs => rw [← List.take_append_drop n s]
      exact blocksOf_append hn ht _
    rw [hsplit]
    refine ⟨?_, ?_⟩
    · rw [List.flatten_cons, ih1, List.take_append_drop]
    · intro b hb
      rcases List.mem_cons.mp hb with h | h
      · rw [h]; exact ht
      · exact ih2 b h

theorem blocksOf_of_dvd {n : Nat} (hn : 0 < n) {s : Str} (h : s.length % n = 0) :
    (blocksOf n s).flatten = s ∧ ∀ b ∈ blocksOf n s, b.length = n := by
  apply blocksOf_spec hn (s.length / n)
  rw [Nat.div_mul_cancel (Nat.dvd_of_mod_eq_zero h)]

theorem hexToBin_append (a b : Str) : hexToBin (a ++ b) = hexToBin a ++ hexToBin b := by
  simp [hexToBin, List.flatMap_append]

theorem hexToBin_eq_flatMap (s : Str) : hexToBin s = s.flatMap fun c => hexToBin [c] := by
  simp [hexToBin]

theorem hexToBin_singleton_length (c : Byte) : (hexToBin [c]).length = 4 := by
  simp [hexToBin]

theorem hexToBin_singleton_isBits : ∀ c : Byte, IsBits (hexToBin [c]) := by
  decide!

theorem hexToBin_length (s : Str) : (hexToBin s).length = 4 * s.length := by
  rw [hexToBin_eq_flatMap]
  exact length_flatMap_of_const _ _ 4 (fun c _ => hexToBin_singleton_length c)

theorem hexToBin_isBits (s : Str) : IsBits (hexToBin s) := by
  rw [hexToBin_eq_flatMap]
  exact isBits_flatMap _ _ (fun c _ => hexToBin_singleton_isBits c)

theorem binToHex_eq_blocksOf (b : Str) : binToHex b = (blocksOf 4 b).flatMap nibbleHex := by
  simp [binToHex, blocksOf, List.flatMap_map]

theorem binToHex_hexToBin (s : Str) :
    binToHex (hexToBin s) = s.flatMap fun c => nibbleHex (hexToBin [c]) := by
  have h : hexToBin s = (s.map fun c => hexToBin [c]).flatten := by
    rw [hexToBin_eq_flatMap]; rfl
  rw [binToHex_eq_blocksOf, h, blocksOf_flatten (by decide)]
  · rw [List.flatMap_map]
  · intro b hb
    obtain ⟨c, -, rfl⟩ := List.mem_map.mp hb
    exact hexToBin_singleton_length c

theorem nibbleHex_hexToBin_of_hex :
    ∀ c : Byte, isHexDigit c = true → nibbleHex (hexToBin [c]) = [toUpperHex c] := by
  decide!

theorem toUpperHex_of_upper : ∀ c : Byte, isUpperHexDigit c = true → toUpperHex c = c := by
  decide!

theorem binToHex_hexToBin_of_hex {s : Str} (h : ∀ c ∈ s, isHexDigit c = true) :
    binToHex (hexToBin s) = s.map toUpperHex := by
  rw [binToHex_hexToBin]
  induction s with
  | nil => rfl
  | cons c s ih =>
    rw [List.flatMap_cons, List.map_cons,
      nibbleHex_hexToBin_of_hex c (h c (List.mem_cons_self _ _)),
      ih (fun x hx => h x (List.mem_cons_of_mem _ hx))]
    rfl

theorem map_toUpperHex_of_upper {s : Str} (h : ∀ c ∈ s, isUpperHexDigit c = true) :
    s.map toUpperHex = s := by
  induction s with
  | nil => rfl
  | cons c s ih =>
    rw [List.map_cons, toUpperHex_of_upper c (h c (List.mem_cons_self _ _)),
      ih (fun x hx => h x (List.mem_cons_of_mem _ hx))]

theorem bits4_cases {k : Str} (hl : k.length = 4) (hb : IsBits k) :
    hexToBin (nibbleHex k) = k := by
  match k, hl with
  | [a, b, c, d], _ =>
    have ha := hb a (by simp)
    have hb' := hb b (by simp)
    have hc := hb c (by simp)
    have hd := hb d (by simp)
    rcases ha with rfl | rfl <;> rcases hb' with rfl | rfl <;> rcases hc with rfl | rfl <;>
      rcases hd with rfl | rfl <;> decide!

theorem hexToBin_binToHex {b : Str} (hb : IsBits b) (hl : b.length % 4 = 0) :
    hexToBin (binToHex b) = b := by
  obtain ⟨h1, h2⟩ := blocksOf_of_dvd (n := 4) (by decide) hl
  have hbits : ∀ k ∈ blocksOf 4 b, IsBits k := by
    intro k hk c hc
    apply hb
    rw [← h1]
    exact List.mem_flatten.mpr ⟨k, hk, hc⟩
  rw [binToHex_eq_blocksOf, hexToBin_eq_flatMap, List.flatMap_assoc]
  conv_rhs => rw [← h1]
  rw [List.flatten_eq_flatMap]
  apply List.flatMap_congr
  intro k hk
  rw [← hexToBin_eq_flatMap]
  simp only [id_eq]
  exact bits4_cases (h2 k hk) (hbits k hk)

theorem binToHex_length {b : Str} (hb : IsBits b) (hl : b.length % 4 = 0) :
    (binToHex b).length = b.length / 4 := by
  have h := congrArg List.length (hexToBin_binToHex hb hl)
  rw [hexToBin_length] at h
  omega

namespace DESEncryptor

theorem blockTransform_eq {ks : List Str} (hk : ks.length = 16) (block : Str) :
    blockTransform ks block =
      binToHex (pick P_1 ((rounds ks (halves (pick IP_T (hexToBin block)))).2 ++
        (rounds ks (halves (pick IP_T (hexToBin block)))).1)) := by
  have h := range_foldl_getD roundStep ks (halves (pick IP_T (hexToBin block)))
  rw [hk] at h
  unfold blockTransform
  simp only []
  rw [show (substr (List.map (fun t => charAt (hexToBin block) (t - 1)) IP_T) 0 32,
        substr (List.map (fun t => charAt (hexToBin block) (t - 1)) IP_T) 32 32)
      = halves (pick IP_T (hexToBin block)) from rfl, h]
  rfl

theorem isBits_take {a : Str} (n : Nat) (ha : IsBits a) : IsBits (a.take n) :=
  fun c hc => ha c (List.mem_of_mem_take hc)

theorem isBits_drop {a : Str} (n : Nat) (ha : IsBits a) : IsBits (a.drop n) :=
  fun c hc => ha c (List.mem_of_mem_drop hc)

theorem halves_good {IP : Str} (hb : IsBits IP) (hl : IP.length = 64) : GoodHalves (halves IP) := by
  refine ⟨?_, ?_, ?_, ?_⟩
  · simp [halves, substr, hl]
  · simp [halves, substr, hl]
  · exact isBits_take _ (isBits_drop _ hb)
  · exact isBits_take _ (isBits_drop _ hb)

theorem halves_append {a b : Str} (ha : a.length = 32) (hb : b.length = 32) :
    halves (a ++ b) = (a, b) := by
  simp only [halves, substr, List.drop_zero]
  rw [List.take_left' ha, List.drop_left' ha, List.take_of_length_le (Nat.le_of_eq hb)]

theorem halves_join {IP : Str} (hl : IP.length = 64) : (halves IP).1 ++ (halves IP).2 = IP := by
  have h : (List.drop 32 IP).take 32 = List.drop 32 IP := by
    apply List.take_of_length_le
    rw [List.length_drop, hl]
  simp only [halves, substr, List.drop_zero, h]
  exact List.take_append_drop 32 IP

theorem blockTransform_roundTrip {ks : List Str} (hk : ks.length = 16) {block : Str}
    (hb : block.length = 16) :
    blockTransform ks.reverse (blockTransform ks block) = binToHex (hexToBin block) := by
  have hbin : (hexToBin block).length = 64 := by rw [hexToBin_length, hb]
  have hIPlen : (pick IP_T (hexToBin block)).length = 64 := pick_length _ _
  have hIPbits : IsBits (pick IP_T (hexToBin block)) :=
    pick_isBits (hexToBin_isBits _) (by rw [hbin]; exact IP_T_in_range)
  have hx0 := halves_good hIPbits hIPlen
  have hy := rounds_good ks hx0
  obtain ⟨hy1, hy2, hy3, hy4⟩ := hy
  have hRLlen : ((rounds ks (halves (pick IP_T (hexToBin block)))).2 ++
      (rounds ks (halves (pick IP_T (hexToBin block)))).1).length = 64 := by
    rw [List.length_append, hy1, hy2]
  have hRLbits := isBits_append hy4 hy3
  have hfpbits := pick_isBits (t := P_1) hRLbits (by rw [hRLlen]; exact P_1_in_range)
  have hfplen : (pick P_1 ((rounds ks (halves (pick IP_T (hexToBin block)))).2 ++
      (rounds ks (halves (pick IP_T (hexToBin block)))).1)).length = 64 := pick_length _ _
  rw [blockTransform_eq hk block, blockTransform_eq (by rw [List.length_reverse, hk]),
    hexToBin_binToHex hfpbits (by rw [hfplen]), pick_IP_T_pick_P_1 hRLlen,
    halves_append hy2 hy1]
  have hc := rounds_cancel ks hx0
  rw [show ((rounds ks (halves (pick IP_T (hexToBin block)))).2,
      (rounds ks (halves (pick IP_T (hexToBin block)))).1)
      = (rounds ks (halves (pick IP_T (hexToBin block)))).swap from rfl, hc]
  show binToHex (pick P_1 ((halves (pick IP_T (hexToBin block))).1 ++
    (halves (pick IP_T (hexToBin block))).2)) = _
  rw [halves_join hIPlen, pick_P_1_pick_IP_T hbin]

theorem blockTransform_length {ks : List Str} (hk : ks.length = 16) {block : Str}
    (hb : block.length = 16) : (blockTransform ks block).length = 16 := by
  have hbin : (hexToBin block).length = 64 := by rw [hexToBin_length, hb]
  have hIPbits : IsBits (pick IP_T (hexToBin block)) :=
    pick_isBits (hexToBin_isBits _) (by rw [hbin]; exact IP_T_in_range)
  obtain ⟨hy1, hy2, hy3, hy4⟩ := rounds_good ks (halves_good hIPbits (pick_length _ _))
  have hRLlen : ((rounds ks (halves (pick IP_T (hexToBin block)))).2 ++
      (rounds ks (halves (pick IP_T (hexToBin block)))).1).length = 64 := by
    rw [List.length_append, hy1, hy2]
  have hfpbits := pick_isBits (t := P_1) (isBits_append hy4 hy3)
    (by rw [hRLlen]; exact P_1_in_range)
  rw [blockTransform_eq hk block, binToHex_length hfpbits (by rw [pick_length]; rfl),
    pick_length]
  rfl

end DESEncryptor

theorem padLoop_eq_aux : ∀ (k : Nat) (s : Str), (16 - s.length % 16) % 16 = k →
    padLoop s = s ++ List.replicate k (ch '0') := by
  intro k
  induction k with
  | zero =>
    intro s h
    have h0 : s.length % 16 = 0 := by omega
    rw [padLoop]
    simp [h0]
  | succ k ih =>
    intro s h
    have h0 : s.length % 16 ≠ 0 := by omega
    rw [padLoop, if_pos h0, ih (s ++ [ch '0'])]
    · rw [List.append_assoc, List.singleton_append, ← List.replicate_succ]
    · rw [List.length_append, List.length_singleton]; omega

theorem padLoop_eq (s : Str) :
    padLoop s = s ++ List.replicate ((16 - s.length % 16) % 16) (ch '0') :=
  padLoop_eq_aux _ s rfl

theorem padLoop_length_mod (s : Str) : (padLoop s).length % 16 = 0 := by
  rw [padLoop_eq, List.length_append, List.length_replicate]; omega

theorem padLoop_of_aligned {s : Str} (h : s.length % 16 = 0) : padLoop s = s := by
  rw [padLoop_eq, h]; simp

namespace DESEncryptor

theorem encrypt_eq (self : DESEncryptor) (plaintext : Str) :
    self.encrypt plaintext =
      (blocksOf 16 (padLoop (hexForm plaintext))).flatMap (blockTransform self.subkeys) := by
  simp only [encrypt, blocksOf, List.flatMap_map, hexForm]

theorem scheduledKeys_length (key : Str) : (scheduledKeys key).length = 16 := by
  simp [scheduledKeys]

theorem init_of_valid {key : Str} (h : validateKey key = true) :
    init key = .ok ⟨key, scheduledKeys key⟩ := by
  simp [init, h, generateSubkeys]

theorem messageRoundTrip {ks : List Str} (hk : ks.length = 16) {s : Str}
    (hs : s.length % 16 = 0) :
    (blocksOf 16 ((blocksOf 16 s).flatMap (blockTransform ks))).flatMap
        (blockTransform ks.reverse) = binToHex (hexToBin s) := by
  obtain ⟨h1, h2⟩ := blocksOf_of_dvd (n := 16) (by decide) hs
  have hflat : (blocksOf 16 s).flatMap (blockTransform ks)
      = ((blocksOf 16 s).map (blockTransform ks)).flatten := by
    rw [List.flatten_eq_flatMap, List.flatMap_map]; rfl
  rw [hflat, blocksOf_flatten (by decide), List.flatMap_map]
  · have hcongr : (blocksOf 16 s).flatMap (fun b => blockTransform ks.reverse (blockTransform ks b))
        = (blocksOf 16 s).flatMap (fun b => binToHex (hexToBin b)) :=
      List.flatMap_congr (fun b hb => blockTransform_roundTrip hk (h2 b hb))
    rw [hcongr]
    conv_rhs => rw [← h1, binToHex_hexToBin, List.flatten_eq_flatMap, List.flatMap_assoc]
    apply List.flatMap_congr
    intro b _
    rw [binToHex_hexToBin]
    rfl
  · intro c hc
    obtain ⟨b, hb, rfl⟩ := List.mem_map.mp hc
    exact blockTransform_length hk (h2 b hb)

end DESEncryptor

namespace DESDecryptor

theorem blockTransform_eq_encryptor :
    @DESDecryptor.blockTransform = @DESEncryptor.blockTransform := rfl

theorem rotatedHalf_eq_encryptor (half : Str) (i : Nat) :
    DESDecryptor.rotatedHalf half i = DESEncryptor.rotatedHalf half i := by
  induction i with
  | zero => rfl
  | succ i ih =>
    show DESDecryptor.shiftBit (DESDecryptor.rotatedHalf half i) _ = _
    rw [ih]; rfl

theorem scheduledKeys_eq_encryptor (key : Str) :
    DESDecryptor.scheduledKeys key = DESEncryptor.scheduledKeys key := by
  simp only [DESDecryptor.scheduledKeys, DESEncryptor.scheduledKeys, rotatedHalf_eq_encryptor]
  rfl

theorem decrypt_eq (self : DESDecryptor) (ciphertext : Str) :
    self.decrypt ciphertext =
      (blocksOf 16 ciphertext).flatMap (DESEncryptor.blockTransform self.subkeys) := by
  simp only [decrypt, blocksOf, List.flatMap_map, blockTransform_eq_encryptor]

theorem init_of_valid_key {key : Str} (h : DESEncryptor.validateKey key = true) :
    init key = .ok ⟨key, (DESEncryptor.scheduledKeys key).reverse⟩ := by
  simp [init, validateKey, h, generateSubkeys, scheduledKeys_eq_encryptor]

end DESDecryptor

namespace Utils

theorem encryptThenDecrypt_eq {K : Str} (hK : DESEncryptor.validateKey K = true) (p : Str) :
    encryptThenDecrypt K p = .ok (binToHex (hexToBin (padLoop (hexForm p)))) := by
  unfold encryptThenDecrypt
  rw [DESEncryptor.init_of_valid hK, DESDecryptor.init_of_valid_key hK]
  show Except.ok _ = _
  rw [DESDecryptor.decrypt_eq, DESEncryptor.encrypt_eq]
  exact congrArg Except.ok
    (DESEncryptor.messageRoundTrip (DESEncryptor.scheduledKeys_length K) (padLoop_length_mod _))

end Utils

theorem isHexDigit_iff_mem : ∀ c : Byte,
    isHexDigit c = true ↔ c ∈ str "0123456789ABCDEFabcdef" := by decide!

theorem isUpperHexDigit_iff_mem : ∀ c : Byte,
    isUpperHexDigit c = true ↔ c ∈ str "0123456789ABCDEF" := by decide!

theorem isHexDigit_of_upper : ∀ c : Byte, isUpperHexDigit c = true → isHexDigit c = true := by
  decide!

theorem all_isHexDigit_iff (s : Str) :
    s.all isHexDigit = true ↔ ∀ c ∈ s, c ∈ str "0123456789ABCDEFabcdef" := by
  rw [List.all_eq_true]
  exact forall_congr' fun c => imp_congr_right fun _ => isHexDigit_iff_mem c

theorem hexForm_of_evenHex {x : Str} (heven : x.length % 2 = 0)
    (hhex : ∀ c ∈ x, c ∈ str "0123456789ABCDEFabcdef") : hexForm x = x := by
  have h := (all_isHexDigit_iff x).mpr hhex
  simp [hexForm, h, heven]

theorem hexForm_of_not_evenHex {x : Str}
    (h : ¬ (x.length % 2 = 0 ∧ ∀ c ∈ x, c ∈ str "0123456789ABCDEFabcdef")) :
    hexForm x = stringToHex x := by
  unfold hexForm
  rw [if_neg]
  intro hc
  apply h
  rw [Bool.and_eq_true] at hc
  exact ⟨by simpa using hc.2, (all_isHexDigit_iff x).mp hc.1⟩

theorem stringToHex_length (s : Str) : (stringToHex s).length = 2 * s.length :=
  length_flatMap_of_const _ _ 2 (fun _ _ => rfl)

theorem stringToHex_singleton_all_lower : ∀ c : Byte,
    (stringToHex [c]).all (fun d => decide (d ∈ str "0123456789abcdef")) = true := by decide!

theorem stringToHex_singleton_lower (c : Byte) :
    ∀ d ∈ stringToHex [c], d ∈ str "0123456789abcdef" := by
  intro d hd
  have h := List.all_eq_true.mp (stringToHex_singleton_all_lower c) d hd
  exact of_decide_eq_true h

theorem lower_subset_hex : ∀ d : Byte, d ∈ str "0123456789abcdef" →
    d ∈ str "0123456789ABCDEFabcdef" := by decide!

theorem stringToHex_lower (s : Str) : ∀ d ∈ stringToHex s, d ∈ str "0123456789abcdef" := by
  intro d hd
  obtain ⟨c, -, hc⟩ := List.mem_flatMap.mp hd
  exact stringToHex_singleton_lower c d (by simpa [stringToHex] using hc)

theorem hexForm_stringToHex (s : Str) : hexForm (stringToHex s) = stringToHex s :=
  hexForm_of_evenHex (by rw [stringToHex_length]; omega)
    (fun d hd => lower_subset_hex d (stringToHex_lower s d hd))

theorem hexForm_padLoop_of_hex {x : Str}
    (hhex : ∀ c ∈ x, c ∈ str "0123456789ABCDEFabcdef") :
    hexForm (padLoop x) = padLoop x := by
  apply hexForm_of_evenHex
  · have := padLoop_length_mod x; omega
  · intro c hc
    rw [padLoop_eq] at hc
    rcases List.mem_append.mp hc with h | h
    · exact hhex c h
    · rw [List.eq_of_mem_replicate h]; decide

theorem padLoop_idem (s : Str) : padLoop (padLoop s) = padLoop s :=
  padLoop_of_aligned (padLoop_length_mod s)

theorem zeroPad_minimal (n : Nat) :
    (n + (16 - n % 16) % 16) % 16 = 0 ∧ ∀ j < (16 - n % 16) % 16, (n + j) % 16 ≠ 0 := by
  constructor
  · omega
  · intro j hj; omega

theorem map_toUpperHex_padLoop_of_upper {x : Str}
    (hup : ∀ c ∈ x, c ∈ str "0123456789ABCDEF") :
    binToHex (hexToBin (padLoop x)) = padLoop x := by
  have hall : ∀ c ∈ padLoop x, isUpperHexDigit c = true := by
    intro c hc
    rw [padLoop_eq] at hc
    rcases List.mem_append.mp hc with h | h
    · exact (isUpperHexDigit_iff_mem c).mpr (hup c h)
    · rw [List.eq_of_mem_replicate h]; decide
  rw [binToHex_hexToBin_of_hex (fun c hc => isHexDigit_of_upper c (hall c hc)),
    map_toUpperHex_of_upper hall]

/-- C2 (as stated, refuted): under the key `133457799BBCDFF1` the 16-hex-character
block `abcdefabcdefabcd` does not come back from decrypt-after-encrypt: the result
is `ABCDEFABCDEFABCD`. -/
theorem C2_lowercase_block_counterexample :
    DESEncryptor.validateKey (str "133457799BBCDFF1") = true ∧
    (str "abcdefabcdefabcd").length = 16 ∧
    (str "abcdefabcdefabcd").all (fun c => decide (c ∈ str "0123456789ABCDEFabcdef")) = true ∧
    Utils.encryptThenDecrypt (str "133457799BBCDFF1") (str "abcdefabcdefabcd")
      = .ok (str "ABCDEFABCDEFABCD") ∧
    Utils.encryptThenDecrypt (str "133457799BBCDFF1") (str "abcdefabcdefabcd")
      ≠ .ok (str "abcdefabcdefabcd") := by
  have h : Utils.encryptThenDecrypt (str "133457799BBCDFF1") (str "abcdefabcdefabcd")
      = .ok (str "ABCDEFABCDEFABCD") := by
    rw [Utils.encryptThenDecrypt_eq (by decide)]
    decide!
  refine ⟨by decide, by decide, by decide!, h, ?_⟩
  rw [h]
  decide!

/-- C2 (amended): for every valid key `K` and every block `B` of 16 hex characters,
decrypting the encryption of `B` under `K` gives `B` with its letters `a`..`f` in
upper case, which is `B` itself when `B` has upper-case hex digits only. -/
theorem C2_block_roundtrip_uppercased (K B : Str)
    (hK : DESEncryptor.validateKey K = true) (hlen : B.length = 16)
    (hhex : ∀ c ∈ B, c ∈ str "0123456789ABCDEFabcdef") :
    Utils.encryptThenDecrypt K B = .ok (B.map toUpperHex) ∧
    ((∀ c ∈ B, c ∈ str "0123456789ABCDEF") → Utils.encryptThenDecrypt K B = .ok B) := by
  have h16 : B.length % 16 = 0 := by rw [hlen]
  have h : Utils.encryptThenDecrypt K B = .ok (B.map toUpperHex) := by
    rw [Utils.encryptThenDecrypt_eq hK, hexForm_of_evenHex (by omega) hhex,
      padLoop_of_aligned h16,
      binToHex_hexToBin_of_hex (fun c hc => (isHexDigit_iff_mem c).mpr (hhex c hc))]
  refine ⟨h, fun hup => ?_⟩
  rw [h, map_toUpperHex_of_upper (fun c hc => (isUpperHexDigit_iff_mem c).mpr (hup c hc))]

theorem upper_subset_hex : ∀ d : Byte, d ∈ str "0123456789ABCDEF" →
    d ∈ str "0123456789ABCDEFabcdef" := by decide!

/-- C3: for every valid key and every even-length string `x` of upper-case hex
digits (the empty string included), decrypting the encryption of `x` gives `x`
followed by `k` characters `'0'`, where `k` is the least number that brings the
length to a multiple of 16. -/
theorem C3_roundtrip_keeps_padding (K x : Str)
    (hK : DESEncryptor.validateKey K = true) (heven : x.length % 2 = 0)
    (hup : ∀ c ∈ x, c ∈ str "0123456789ABCDEF") :
    ∃ k : Nat, Utils.encryptThenDecrypt K x = .ok (x ++ List.replicate k (ch '0')) ∧
      (x.length + k) % 16 = 0 ∧ ∀ j < k, (x.length + j) % 16 ≠ 0 := by
  refine ⟨(16 - x.length % 16) % 16, ?_, (zeroPad_minimal x.length).1,
    (zeroPad_minimal x.length).2⟩
  rw [Utils.encryptThenDecrypt_eq hK,
    hexForm_of_evenHex heven (fun c hc => upper_subset_hex c (hup c hc)),
    map_toUpperHex_padLoop_of_upper hup, padLoop_eq]

theorem hexToString_eq_blocksOf (h : Str) : hexToString h = (blocksOf 2 h).map hexByte := by
  simp [hexToString, blocksOf, List.map_map]

theorem stringToHex_cons (c : Byte) (s : Str) :
    stringToHex (c :: s) = stringToHex [c] ++ stringToHex s := by
  simp [stringToHex]

theorem map_toUpperHex_stringToHex (s : Str) :
    (stringToHex s).map toUpperHex
      = (s.map fun c => (stringToHex [c]).map toUpperHex).flatten := by
  induction s with
  | nil => rfl
  | cons c s ih =>
    rw [stringToHex_cons, List.map_append, ih, List.map_cons, List.flatten_cons]

theorem flatten_replicate_zeros (m : Nat) :
    (List.replicate m (str "00")).flatten = List.replicate (2 * m) (ch '0') := by
  induction m with
  | zero => rfl
  | succ m ih =>
    rw [List.replicate_succ, List.flatten_cons, ih, Nat.mul_succ,
      show 2 * m + 2 = (2 * m + 1) + 1 from rfl, List.replicate_succ, List.replicate_succ]
    rfl

theorem hexByte_upper_stringToHex : ∀ c : Byte,
    hexByte ((stringToHex [c]).map toUpperHex) = c := by decide!

theorem hexToString_upper_padded (s : Str) (m : Nat) :
    hexToString ((stringToHex s ++ List.replicate (2 * m) (ch '0')).map toUpperHex)
      = s ++ List.replicate m 0 := by
  have hflat : (stringToHex s ++ List.replicate (2 * m) (ch '0')).map toUpperHex
      = ((s.map fun c => (stringToHex [c]).map toUpperHex)
          ++ List.replicate m (str "00")).flatten := by
    rw [List.map_append, List.flatten_append, ← map_toUpperHex_stringToHex,
      flatten_replicate_zeros, List.map_replicate]
    rfl
  rw [hflat, hexToString_eq_blocksOf, blocksOf_flatten (by decide)]
  · rw [List.map_append, List.map_map, List.map_replicate]
    congr 1
    conv_rhs => rw [← List.map_id s]
    apply List.map_congr_left
    intro c _
    exact hexByte_upper_stringToHex c
  · intro b hb
    rcases List.mem_append.mp hb with h | h
    · obtain ⟨c, -, rfl⟩ := List.mem_map.mp h
      rfl
    · rw [List.eq_of_mem_replicate h]; rfl

theorem rdropWhile_append_replicate (p : Byte → Bool) (a : Byte) (ha : p a = true)
    (s : Str) (m : Nat) : (s ++ List.replicate m a).rdropWhile p = s.rdropWhile p := by
  induction m with
  | zero => simp
  | succ m ih =>
    rw [List.replicate_succ', ← List.append_assoc, List.rdropWhile_concat_pos _ _ _ ha, ih]

theorem rdropWhile_zero_of_last {s : Str} (h : s.getLast? ≠ some 0) :
    s.rdropWhile (fun c => c == 0) = s := by
  rw [List.rdropWhile_eq_self_iff]
  intro hne hp
  apply h
  rw [List.getLast?_eq_getLast _ hne]
  simpa using hp

/-- C4 (what the code returns at the test's input): under the key `133457799BBCDFF1`,
decrypt after encrypt of the text `Hello, World!` yields the 32-character hex
string `48656C6C6F2C20576F726C6421000000`, which is not the text. -/
theorem C4_hello_world_roundtrip_is_hex :
    Utils.encryptThenDecrypt (str "133457799BBCDFF1") (str "Hello, World!")
      = .ok (str "48656C6C6F2C20576F726C6421000000") ∧
    str "48656C6C6F2C20576F726C6421000000" ≠ str "Hello, World!" := by
  constructor
  · rw [Utils.encryptThenDecrypt_eq (by decide)]
    decide!
  · decide

/-- C5: for every valid key and every byte string `s` that is not an even-length
string of hex digits and does not end in a zero byte, `hexToString` of the
decrypted encryption of `s`, with its trailing zero bytes removed, is `s`. -/
theorem C5_text_roundtrip_after_unhex_and_strip (K s : Str)
    (hK : DESEncryptor.validateKey K = true)
    (hs : ¬ (s.length % 2 = 0 ∧ ∀ c ∈ s, c ∈ str "0123456789ABCDEFabcdef"))
    (hz : s.getLast? ≠ some 0) :
    Utils.decryptedText K s = .ok s := by
  have hk : (16 - (stringToHex s).length % 16) % 16
      = 2 * ((16 - (stringToHex s).length % 16) % 16 / 2) := by
    rw [stringToHex_length]; omega
  have hhex : ∀ c ∈ padLoop (stringToHex s), isHexDigit c = true := by
    intro c hc
    rw [padLoop_eq] at hc
    rcases List.mem_append.mp hc with h | h
    · exact (isHexDigit_iff_mem c).mpr (lower_subset_hex c (stringToHex_lower s c h))
    · rw [List.eq_of_mem_replicate h]; decide
  unfold Utils.decryptedText
  rw [Utils.encryptThenDecrypt_eq hK, hexForm_of_not_evenHex hs,
    binToHex_hexToBin_of_hex hhex, padLoop_eq, hk]
  show Except.ok _ = _
  rw [hexToString_upper_padded, rdropWhile_append_replicate _ _ (by decide),
    rdropWhile_zero_of_last hz]

theorem blocksOf_length_of_dvd {s : Str} (h : s.length % 16 = 0) :
    16 * (blocksOf 16 s).length = s.length := by
  obtain ⟨h1, h2⟩ := blocksOf_of_dvd (n := 16) (by decide) h
  have := length_flatMap_of_const (blocksOf 16 s) id 16 h2
  rw [← List.flatten_eq_flatMap, h1] at this
  exact this.symm

namespace DESEncryptor

theorem encrypt_length (self : DESEncryptor) (hk : self.subkeys.length = 16) (p : Str) :
    (self.encrypt p).length = (padLoop (hexForm p)).length := by
  have hmod := padLoop_length_mod (hexForm p)
  obtain ⟨-, h2⟩ := blocksOf_of_dvd (n := 16) (by decide) hmod
  rw [encrypt_eq, length_flatMap_of_const _ _ 16
    (fun b hb => blockTransform_length hk (h2 b hb)), blocksOf_length_of_dvd hmod]

theorem encrypt_two_blocks (self : DESEncryptor) {B1 B2 : Str}
    (h1 : B1.length = 16) (h2 : B2.length = 16)
    (hex1 : ∀ c ∈ B1, c ∈ str "0123456789ABCDEFabcdef")
    (hex2 : ∀ c ∈ B2, c ∈ str "0123456789ABCDEFabcdef") :
    self.encrypt (B1 ++ B2) = self.encrypt B1 ++ self.encrypt B2 := by
  have hex12 : ∀ c ∈ B1 ++ B2, c ∈ str "0123456789ABCDEFabcdef" := by
    intro c hc
    rcases List.mem_append.mp hc with h | h
    · exact hex1 c h
    · exact hex2 c h
  have e1 : blocksOf 16 B1 = [B1] := by
    have := blocksOf_append (n := 16) (by decide) h1 []
    rwa [List.append_nil, blocksOf_nil] at this
  have e2 : blocksOf 16 B2 = [B2] := by
    have := blocksOf_append (n := 16) (by decide) h2 []
    rwa [List.append_nil, blocksOf_nil] at this
  rw [encrypt_eq, encrypt_eq, encrypt_eq,
    hexForm_of_evenHex (by rw [List.length_append, h1, h2]) hex12,
    hexForm_of_evenHex (by rw [h1]) hex1, hexForm_of_evenHex (by rw [h2]) hex2,
    padLoop_of_aligned (by rw [List.length_append, h1, h2]),
    padLoop_of_aligned (by rw [h1]), padLoop_of_aligned (by rw [h2]),
    blocksOf_append (by decide) h1, e1, e2]
  simp

end DESEncryptor

/-- C6: for every valid key and every two blocks `B1`, `B2` of 16 hex characters,
the encryptor built from the key encrypts `B1 ++ B2` to the concatenation of the
encryptions of `B1` and of `B2`. -/
theorem C6_block_independence (K B1 B2 : Str)
    (hK : DESEncryptor.validateKey K = true)
    (h1 : B1.length = 16) (h2 : B2.length = 16)
    (hex1 : ∀ c ∈ B1, c ∈ str "0123456789ABCDEFabcdef")
    (hex2 : ∀ c ∈ B2, c ∈ str "0123456789ABCDEFabcdef") :
    ∃ e, DESEncryptor.init K = .ok e ∧
      e.encrypt (B1 ++ B2) = e.encrypt B1 ++ e.encrypt B2 :=
  ⟨_, DESEncryptor.init_of_valid hK, DESEncryptor.encrypt_two_blocks _ h1 h2 hex1 hex2⟩

/-- C7: for every valid key and every even-length hex string `x`, with `k` the
least number of `'0'` characters that brings the length of `x` to a multiple of
16, `encrypt x` equals `encrypt (x ++ '0' * k)` and has length `|x| + k`. -/
theorem C7_encrypt_zero_padding (K x : Str)
    (hK : DESEncryptor.validateKey K = true) (heven : x.length % 2 = 0)
    (hhex : ∀ c ∈ x, c ∈ str "0123456789ABCDEFabcdef") :
    ∃ e, DESEncryptor.init K = .ok e ∧ ∃ k : Nat,
      ((x.length + k) % 16 = 0 ∧ ∀ j < k, (x.length + j) % 16 ≠ 0) ∧
      e.encrypt x = e.encrypt (x ++ List.replicate k (ch '0')) ∧
      (e.encrypt x).length = (x ++ List.replicate k (ch '0')).length := by
  refine ⟨_, DESEncryptor.init_of_valid hK, (16 - x.length % 16) % 16,
    zeroPad_minimal x.length, ?_, ?_⟩
  · rw [← padLoop_eq, DESEncryptor.encrypt_eq, DESEncryptor.encrypt_eq,
      hexForm_of_evenHex heven hhex, hexForm_padLoop_of_hex hhex, padLoop_idem]
  · rw [DESEncryptor.encrypt_length _ (DESEncryptor.scheduledKeys_length K),
      hexForm_of_evenHex heven hhex, padLoop_eq]

theorem hexDigitLower_eq : ∀ d : Fin 16,
    hexDigitLower d.val = (str "0123456789abcdef").getD d.val 0 := by decide!

/-- C8: for every valid key the encryptor treats an input that has odd length or
a character outside `[0-9A-Fa-f]` as its `stringToHex` rendering, which writes
each byte as its two lower-case hex digits (high nibble first); an even-length
string of hex digits is padded and split into blocks as it is. -/
theorem C8_encrypt_renders_text_as_hex (K input : Str)
    (hK : DESEncryptor.validateKey K = true) :
    ∃ e, DESEncryptor.init K = .ok e ∧
      (¬ (input.length % 2 = 0 ∧ ∀ c ∈ input, c ∈ str "0123456789ABCDEFabcdef") →
        e.encrypt input = e.encrypt (stringToHex input)) ∧
      stringToHex input = input.flatMap (fun c =>
        [(str "0123456789abcdef").getD (c.val / 16) 0,
         (str "0123456789abcdef").getD (c.val % 16) 0]) ∧
      (input.length % 2 = 0 → (∀ c ∈ input, c ∈ str "0123456789ABCDEFabcdef") →
        e.encrypt input =
          (blocksOf 16 (padLoop input)).flatMap (DESEncryptor.blockTransform e.subkeys)) := by
  refine ⟨_, DESEncryptor.init_of_valid hK, ?_, ?_, ?_⟩
  · intro h
    rw [DESEncryptor.encrypt_eq, DESEncryptor.encrypt_eq, hexForm_of_not_evenHex h,
      hexForm_stringToHex]
  · unfold stringToHex
    apply List.flatMap_congr
    intro c _
    have h1 := hexDigitLower_eq ⟨c.val / 16, by omega⟩
    have h2 := hexDigitLower_eq ⟨c.val % 16, by omega⟩
    simp only at h1 h2
    rw [h1, h2]
  · intro heven hhex
    rw [DESEncryptor.encrypt_eq, hexForm_of_evenHex heven hhex]

theorem validateKey_iff (k : Str) :
    DESEncryptor.validateKey k = true ↔
      (k.length = 16 ∧ ∀ c ∈ k, c ∈ str "0123456789ABCDEFabcdef") := by
  unfold DESEncryptor.validateKey
  by_cases h : k.length = 16
  · rw [if_neg (by simpa using h), all_isHexDigit_iff]
    exact ⟨fun hc => ⟨h, hc⟩, fun hc => hc.2⟩
  · rw [if_pos h]
    exact ⟨fun hc => (by cases hc), fun hc => absurd hc.1 h⟩

theorem encryptor_init_cases (k : Str) :
    (DESEncryptor.validateKey k = true ∧ ∃ e, DESEncryptor.init k = .ok e) ∨
    (DESEncryptor.validateKey k = false ∧
      DESEncryptor.init k = .error ⟨"Invalid DES key format"⟩) := by
  cases h : DESEncryptor.validateKey k
  · right; exact ⟨rfl, by simp [DESEncryptor.init, h]⟩
  · left; exact ⟨rfl, _, DESEncryptor.init_of_valid h⟩

theorem encryptor_setKey_cases (self : DESEncryptor) (k : Str) :
    (DESEncryptor.validateKey k = true ∧ ∃ e, self.setKey k = .ok e) ∨
    (DESEncryptor.validateKey k = false ∧
      self.setKey k = .error ⟨"Invalid DES key format"⟩) := by
  cases h : DESEncryptor.validateKey k
  · right; exact ⟨rfl, by simp [DESEncryptor.setKey, h]⟩
  · left; exact ⟨rfl, DESEncryptor.generateSubkeys { self with key := k },
      by simp [DESEncryptor.setKey, h]⟩

theorem decryptor_init_cases (k : Str) :
    (DESEncryptor.validateKey k = true ∧ ∃ d, DESDecryptor.init k = .ok d) ∨
    (DESEncryptor.validateKey k = false ∧
      DESDecryptor.init k = .error ⟨"Invalid DES key format"⟩) := by
  cases h : DESEncryptor.validateKey k
  · right; exact ⟨rfl, by simp [DESDecryptor.init, DESDecryptor.validateKey, h]⟩
  · left; exact ⟨rfl, _, DESDecryptor.init_of_valid_key h⟩

theorem decryptor_setKey_cases (self : DESDecryptor) (k : Str) :
    (DESEncryptor.validateKey k = true ∧ ∃ d, self.setKey k = .ok d) ∨
    (DESEncryptor.validateKey k = false ∧
      self.setKey k = .error ⟨"Invalid DES key format"⟩) := by
  cases h : DESEncryptor.validateKey k
  · right; exact ⟨rfl, by simp [DESDecryptor.setKey, DESDecryptor.validateKey, h]⟩
  · left; exact ⟨rfl, DESDecryptor.generateSubkeys { self with key := k },
      by simp [DESDecryptor.setKey, DESDecryptor.validateKey, h]⟩

/-- From the two possible outcomes of a key-taking operation: it fails with the
invalid-key error exactly on invalid keys and returns an object exactly on valid
ones. -/
theorem outcome_iff {α : Type} {k : Str} {r : Except DESException α}
    (h : (DESEncryptor.validateKey k = true ∧ ∃ e, r = .ok e) ∨
      (DESEncryptor.validateKey k = false ∧ r = .error ⟨"Invalid DES key format"⟩)) :
    (r = .error ⟨"Invalid DES key format"⟩ ↔
      ¬ (k.length = 16 ∧ ∀ c ∈ k, c ∈ str "0123456789ABCDEFabcdef")) ∧
    ((∃ e, r = .ok e) ↔
      (k.length = 16 ∧ ∀ c ∈ k, c ∈ str "0123456789ABCDEFabcdef")) := by
  rw [← validateKey_iff]
  rcases h with ⟨hv, e, he⟩ | ⟨hv, he⟩
  · rw [hv, he]
    exact ⟨⟨fun hc => (by cases hc), fun hc => absurd rfl hc⟩, ⟨fun _ => rfl, fun _ => ⟨e, rfl⟩⟩⟩
  · rw [hv, he]
    refine ⟨⟨fun _ hc => (by cases hc), fun _ => rfl⟩, ⟨?_, fun hc => (by cases hc)⟩⟩
    rintro ⟨e, he'⟩
    cases he'

/-- C1: with the key `133457799BBCDFF1`, encrypting the block `0123456789ABCDEF`
returns `85E813540F0AB405`. -/
theorem C1_known_vector :
    (DESEncryptor.init (str "133457799BBCDFF1")).map
        (fun e => e.encrypt (str "0123456789ABCDEF"))
      = .ok (str "85E813540F0AB405") := by
  decide!

/-- C9: `DESEncryptor::validateKey` and `DESDecryptor::validateKey` return true
exactly for the strings of 16 characters that are all in `[0-9A-Fa-f]`; they accept
`133457799BBCDFF1` and reject `invalid`. -/
theorem C9_validateKey_iff_sixteen_hex :
    (∀ k : Str, DESEncryptor.validateKey k = true ↔
      (k.length = 16 ∧ ∀ c ∈ k, c ∈ str "0123456789ABCDEFabcdef")) ∧
    (∀ k : Str, DESDecryptor.validateKey k = true ↔
      (k.length = 16 ∧ ∀ c ∈ k, c ∈ str "0123456789ABCDEFabcdef")) ∧
    DESEncryptor.validateKey (str "133457799BBCDFF1") = true ∧
    DESDecryptor.validateKey (str "133457799BBCDFF1") = true ∧
    DESEncryptor.validateKey (str "invalid") = false ∧
    DESDecryptor.validateKey (str "invalid") = false :=
  ⟨validateKey_iff, validateKey_iff, by decide, by decide, by decide, by decide⟩

/-- C10: for both classes, the constructor and `setKey` (from any object state)
fail with `DESException("Invalid DES key format")` exactly when the key does not
have 16 characters all in `[0-9A-Fa-f]`, and return an object exactly when it does;
so a key of 10 characters and `not-a-key-value!` are rejected. -/
theorem C10_invalid_key_rejected_iff (k : Str) (enc : DESEncryptor) (dec : DESDecryptor) :
    ((DESEncryptor.init k = .error ⟨"Invalid DES key format"⟩ ↔
        ¬ (k.length = 16 ∧ ∀ c ∈ k, c ∈ str "0123456789ABCDEFabcdef")) ∧
      ((∃ e, DESEncryptor.init k = .ok e) ↔
        (k.length = 16 ∧ ∀ c ∈ k, c ∈ str "0123456789ABCDEFabcdef"))) ∧
    ((enc.setKey k = .error ⟨"Invalid DES key format"⟩ ↔
        ¬ (k.length = 16 ∧ ∀ c ∈ k, c ∈ str "0123456789ABCDEFabcdef")) ∧
      ((∃ e, enc.setKey k = .ok e) ↔
        (k.length = 16 ∧ ∀ c ∈ k, c ∈ str "0123456789ABCDEFabcdef"))) ∧
    ((DESDecryptor.init k = .error ⟨"Invalid DES key format"⟩ ↔
        ¬ (k.length = 16 ∧ ∀ c ∈ k, c ∈ str "0123456789ABCDEFabcdef")) ∧
      ((∃ d, DESDecryptor.init k = .ok d) ↔
        (k.length = 16 ∧ ∀ c ∈ k, c ∈ str "0123456789ABCDEFabcdef"))) ∧
    ((dec.setKey k = .error ⟨"Invalid DES key format"⟩ ↔
        ¬ (k.length = 16 ∧ ∀ c ∈ k, c ∈ str "0123456789ABCDEFabcdef")) ∧
      ((∃ d, dec.setKey k = .ok d) ↔
        (k.length = 16 ∧ ∀ c ∈ k, c ∈ str "0123456789ABCDEFabcdef"))) ∧
    (k.length = 10 →
      DESEncryptor.init k = .error ⟨"Invalid DES key format"⟩ ∧
      enc.setKey k = .error ⟨"Invalid DES key format"⟩ ∧
      DESDecryptor.init k = .error ⟨"Invalid DES key format"⟩ ∧
      dec.setKey k = .error ⟨"Invalid DES key format"⟩) ∧
    (DESEncryptor.init (str "not-a-key-value!") = .error ⟨"Invalid DES key format"⟩ ∧
      enc.setKey (str "not-a-key-value!") = .error ⟨"Invalid DES key format"⟩ ∧
      DESDecryptor.init (str "not-a-key-value!") = .error ⟨"Invalid DES key format"⟩ ∧
      dec.setKey (str "not-a-key-value!") = .error ⟨"Invalid DES key format"⟩) := by
  have h1 := outcome_iff (encryptor_init_cases k)
  have h2 := outcome_iff (encryptor_setKey_cases enc k)
  have h3 := outcome_iff (decryptor_init_cases k)
  have h4 := outcome_iff (decryptor_setKey_cases dec k)
  refine ⟨h1, h2, h3, h4, ?_, ?_⟩
  · intro h10
    have hn : ¬ (k.length = 16 ∧ ∀ c ∈ k, c ∈ str "0123456789ABCDEFabcdef") := by
      rintro ⟨h16, -⟩; omega
    exact ⟨h1.1.mpr hn, h2.1.mpr hn, h3.1.mpr hn, h4.1.mpr hn⟩
  · have hn : ¬ ((str "not-a-key-value!").length = 16 ∧
        ∀ c ∈ str "not-a-key-value!", c ∈ str "0123456789ABCDEFabcdef") := by
      rw [← validateKey_iff]; decide
    exact ⟨(outcome_iff (encryptor_init_cases _)).1.mpr hn,
      (outcome_iff (encryptor_setKey_cases enc _)).1.mpr hn,
      (outcome_iff (decryptor_init_cases _)).1.mpr hn,
      (outcome_iff (decryptor_setKey_cases dec _)).1.mpr hn⟩

/-! ## Key schedule, object state and lookups in range -/

namespace DESEncryptor

theorem shiftBit_length {s : Str} {n : Nat} (h : n ≤ s.length) :
    (shiftBit s n).length = s.length := by
  simp only [shiftBit, List.length_append, List.length_map, List.length_range]
  omega

theorem shiftBit_isBits {s : Str} {n : Nat} (hs : IsBits s) (h : n ≤ s.length) :
    IsBits (shiftBit s n) := by
  intro c hc
  simp only [shiftBit, List.mem_append, List.mem_map, List.mem_range] at hc
  rcases hc with ⟨d, hd, rfl⟩ | ⟨i, hi, rfl⟩
  · exact hs _ (charAt_mem (by omega))
  · exact hs _ (charAt_mem (by omega))

theorem NUM_LEFTSHIFT_small : ∀ n ∈ NUM_LEFTSHIFT, n ≤ 2 := by decide

theorem NUM_LEFTSHIFT_getD_le (i : Nat) : NUM_LEFTSHIFT.getD i 0 ≤ 2 := by
  rcases getD_eq_default_or_mem NUM_LEFTSHIFT i 0 with h | h
  · rw [h]; exact Nat.zero_le _
  · exact NUM_LEFTSHIFT_small _ h

theorem rotatedHalf_good {half : Str} (hl : half.length = 28) (hb : IsBits half) (i : Nat) :
    (rotatedHalf half i).length = 28 ∧ IsBits (rotatedHalf half i) := by
  induction i with
  | zero =>
    have hn : NUM_LEFTSHIFT.getD 0 0 ≤ half.length := by
      have := NUM_LEFTSHIFT_getD_le 0; omega
    exact ⟨by rw [rotatedHalf, shiftBit_length hn, hl], shiftBit_isBits hb hn⟩
  | succ i ih =>
    have hn : NUM_LEFTSHIFT.getD (i + 1) 0 ≤ (rotatedHalf half i).length := by
      have := NUM_LEFTSHIFT_getD_le (i + 1); omega
    exact ⟨by rw [rotatedHalf, shiftBit_length hn, ih.1], shiftBit_isBits ih.2 hn⟩

theorem PC_1_in_range : ∀ t ∈ PC_1, t - 1 < 64 := by decide
theorem PC_2_in_range : ∀ t ∈ PC_2, t - 1 < 56 := by decide

theorem processKey_eq_pick (key : Str) : processKey key = pick PC_1 (hexToBin key) := rfl

theorem processKey_good {key : Str} (hl : key.length = 16) :
    (processKey key).length = 56 ∧ IsBits (processKey key) := by
  rw [processKey_eq_pick]
  refine ⟨pick_length _ _, pick_isBits (hexToBin_isBits _) ?_⟩
  rw [hexToBin_length, hl]
  exact PC_1_in_range

theorem scheduledKeys_good {key : Str} (hl : key.length = 16) :
    ∀ k ∈ scheduledKeys key, k.length = 48 ∧ IsBits k := by
  obtain ⟨hp1, hp2⟩ := processKey_good hl
  have h1 : (substr (processKey key) 0 28).length = 28 := by simp [substr, hp1]
  have h2 : (substr (processKey key) 28 28).length = 28 := by simp [substr, hp1]
  have b1 : IsBits (substr (processKey key) 0 28) := isBits_take _ (isBits_drop _ hp2)
  have b2 : IsBits (substr (processKey key) 28 28) := isBits_take _ (isBits_drop _ hp2)
  intro k hk
  simp only [scheduledKeys, List.mem_map, List.mem_range] at hk
  obtain ⟨i, -, rfl⟩ := hk
  obtain ⟨l1, c1⟩ := rotatedHalf_good h1 b1 i
  obtain ⟨l2, c2⟩ := rotatedHalf_good h2 b2 i
  refine ⟨pick_length PC_2 _, pick_isBits (isBits_append c1 c2) ?_⟩
  rw [List.length_append, l1, l2]
  exact PC_2_in_range

theorem validateKey_length {key : Str} (h : validateKey key = true) : key.length = 16 :=
  ((validateKey_iff key).mp h).1

end DESEncryptor

/-- C14: for every object whose key is valid, `generateSubkeys` (Encryptor and
Decryptor) leaves exactly 16 subkeys, each a string of exactly 48 characters that
are all `'0'` or `'1'`. -/
theorem C14_subkeys_sixteen_of_48_bits (e : DESEncryptor) (d : DESDecryptor)
    (he : DESEncryptor.validateKey e.key = true)
    (hd : DESDecryptor.validateKey d.key = true) :
    (e.generateSubkeys.subkeys.length = 16 ∧
      ∀ k ∈ e.generateSubkeys.subkeys, k.length = 48 ∧ ∀ c ∈ k, c = ch '0' ∨ c = ch '1') ∧
    (d.generateSubkeys.subkeys.length = 16 ∧
      ∀ k ∈ d.generateSubkeys.subkeys, k.length = 48 ∧ ∀ c ∈ k, c = ch '0' ∨ c = ch '1') := by
  refine ⟨⟨DESEncryptor.scheduledKeys_length _,
    DESEncryptor.scheduledKeys_good (DESEncryptor.validateKey_length he)⟩, ?_, ?_⟩
  · show (DESDecryptor.scheduledKeys d.key).reverse.length = 16
    rw [List.length_reverse, DESDecryptor.scheduledKeys_eq_encryptor]
    exact DESEncryptor.scheduledKeys_length _
  · intro k hk
    have hk' : k ∈ (DESDecryptor.scheduledKeys d.key).reverse := hk
    rw [List.mem_reverse, DESDecryptor.scheduledKeys_eq_encryptor] at hk'
    exact DESEncryptor.scheduledKeys_good (DESEncryptor.validateKey_length hd) k hk'

/-- C15: for every valid key `K` the subkey list of `DESDecryptor(K)` is the reverse
of the subkey list of `DESEncryptor(K)`: the decryptor's subkey of round `i` is the
encryptor's subkey of round `17 - i`, for `i = 1..16` (rounds counted from 1). -/
theorem C15_decryptor_subkeys_reversed (K : Str)
    (hK : DESEncryptor.validateKey K = true) :
    ∃ e d, DESEncryptor.init K = .ok e ∧ DESDecryptor.init K = .ok d ∧
      d.subkeys = e.subkeys.reverse ∧
      ∀ i, 1 ≤ i → i ≤ 16 → d.subkeys[i - 1]? = e.subkeys[17 - i - 1]? ∧
        (d.subkeys[i - 1]?).isSome = true := by
  refine ⟨_, _, DESEncryptor.init_of_valid hK, DESDecryptor.init_of_valid_key hK, rfl, ?_⟩
  intro i h1 h16
  have hlen := DESEncryptor.scheduledKeys_length K
  show (DESEncryptor.scheduledKeys K).reverse[i - 1]? = (DESEncryptor.scheduledKeys K)[17 - i - 1]? ∧ _
  have hi : i - 1 < (DESEncryptor.scheduledKeys K).reverse.length := by
    rw [List.length_reverse, hlen]; omega
  have hj : 17 - i - 1 < (DESEncryptor.scheduledKeys K).length := by rw [hlen]; omega
  rw [List.getElem?_eq_getElem hi, List.getElem?_eq_getElem hj, List.getElem_reverse]
  refine ⟨?_, rfl⟩
  congr 2
  rw [hlen]; omega

/-- C20: `Utils::generateKey()` returns a string of length 16 that
`DESEncryptor::validateKey` accepts. -/
theorem C20_generateKey_is_valid :
    Utils.generateKey.length = 16 ∧ DESEncryptor.validateKey Utils.generateKey = true := by
  decide

/-- C11 (as stated, refuted): `DESEncryptor::validateKey` does not return false for
`1234567890ABCDEF`; it returns true. -/
theorem C11_test_key_counterexample :
    DESEncryptor.validateKey (str "1234567890ABCDEF") ≠ false := by
  decide

/-- C11 (amended): the string `1234567890ABCDEF` has exactly 16 characters, all of
them hex digits, and `validateKey` of both classes returns true for it. -/
theorem C11_test_key_is_accepted :
    (str "1234567890ABCDEF").length = 16 ∧
    (str "1234567890ABCDEF").all (fun c => decide (c ∈ str "0123456789ABCDEFabcdef")) = true ∧
    DESEncryptor.validateKey (str "1234567890ABCDEF") = true ∧
    DESDecryptor.validateKey (str "1234567890ABCDEF") = true := by
  refine ⟨by decide, by decide!, by decide, by decide⟩

theorem encryptor_setKeyStep_fst (self : DESEncryptor) (k : Str) :
    (self.setKeyStep k).1 = (self.setKey k).map (fun _ => ()) := by
  unfold DESEncryptor.setKeyStep DESEncryptor.setKey
  split <;> rfl

theorem decryptor_setKeyStep_fst (self : DESDecryptor) (k : Str) :
    (self.setKeyStep k).1 = (self.setKey k).map (fun _ => ()) := by
  unfold DESDecryptor.setKeyStep DESDecryptor.setKey
  split <;> rfl

/-- C12: for a key that `validateKey` rejects, `setKey` on an Encryptor or a
Decryptor throws the invalid-key exception and the object afterwards is the object
before the call, stored key and stored subkey list included. -/
theorem C12_failed_setKey_leaves_object (enc : DESEncryptor) (dec : DESDecryptor) (k : Str)
    (hk : DESEncryptor.validateKey k = false) :
    (enc.setKeyStep k = (.error ⟨"Invalid DES key format"⟩, enc) ∧
      (enc.setKeyStep k).2.key = enc.key ∧ (enc.setKeyStep k).2.subkeys = enc.subkeys ∧
      enc.setKey k = .error ⟨"Invalid DES key format"⟩) ∧
    (dec.setKeyStep k = (.error ⟨"Invalid DES key format"⟩, dec) ∧
      (dec.setKeyStep k).2.key = dec.key ∧ (dec.setKeyStep k).2.subkeys = dec.subkeys ∧
      dec.setKey k = .error ⟨"Invalid DES key format"⟩) := by
  have h1 : enc.setKeyStep k = (.error ⟨"Invalid DES key format"⟩, enc) := by
    simp [DESEncryptor.setKeyStep, hk]
  have h2 : dec.setKeyStep k = (.error ⟨"Invalid DES key format"⟩, dec) := by
    simp [DESDecryptor.setKeyStep, DESDecryptor.validateKey, hk]
  refine ⟨⟨h1, by rw [h1], by rw [h1], by simp [DESEncryptor.setKey, hk]⟩,
    ⟨h2, by rw [h2], by rw [h2], by simp [DESDecryptor.setKey, DESDecryptor.validateKey, hk]⟩⟩

theorem encryptor_init_subkeys {k : Str} {e : DESEncryptor}
    (h : DESEncryptor.init k = .ok e) : e.subkeys = DESEncryptor.scheduledKeys e.key := by
  unfold DESEncryptor.init at h
  split at h
  · cases h
  · cases h; rfl

theorem decryptor_init_subkeys {k : Str} {d : DESDecryptor}
    (h : DESDecryptor.init k = .ok d) :
    d.subkeys = (DESEncryptor.scheduledKeys d.key).reverse := by
  unfold DESDecryptor.init at h
  split at h
  · cases h
  · cases h
    show (DESDecryptor.scheduledKeys k).reverse = _
    rw [DESDecryptor.scheduledKeys_eq_encryptor]
    rfl

theorem encryptor_reachable_inv {e : DESEncryptor} (h : e.Reachable) :
    e.subkeys = DESEncryptor.scheduledKeys e.key := by
  induction h with
  | construct h => exact encryptor_init_subkeys h
  | afterSetKey newKey _ ih =>
    unfold DESEncryptor.setKeyStep
    split
    · exact ih
    · rfl
  | afterGenerateKey _ _ => rfl

theorem decryptor_reachable_inv {d : DESDecryptor} (h : d.Reachable) :
    d.subkeys = (DESEncryptor.scheduledKeys d.key).reverse := by
  induction h with
  | construct h => exact decryptor_init_subkeys h
  | afterSetKey newKey _ ih =>
    unfold DESDecryptor.setKeyStep
    split
    · exact ih
    · show (DESDecryptor.scheduledKeys newKey).reverse = _
      rw [DESDecryptor.scheduledKeys_eq_encryptor]
      rfl

theorem encryptor_setKey_eq_init (self : DESEncryptor) (k : Str) :
    self.setKey k = DESEncryptor.init k := by
  unfold DESEncryptor.setKey DESEncryptor.init
  split <;> rfl

theorem decryptor_setKey_eq_init (self : DESDecryptor) (k : Str) :
    self.setKey k = DESDecryptor.init k := by
  unfold DESDecryptor.setKey DESDecryptor.init
  split <;> rfl

/-- C13: in every reachable state an Encryptor's subkey list is the key schedule of
its stored key and a Decryptor's subkey list is that schedule reversed; and a
`setKey(k)` that returns leaves the object that the constructor builds from `k`,
whatever the object was before. -/
theorem C13_subkeys_follow_stored_key (e : DESEncryptor) (d : DESDecryptor)
    (he : e.Reachable) (hd : d.Reachable) :
    e.subkeys = DESEncryptor.scheduledKeys e.key ∧
    d.subkeys = (DESEncryptor.scheduledKeys d.key).reverse ∧
    d.subkeys = (DESDecryptor.scheduledKeys d.key).reverse ∧
    (∀ (k : Str) (e' : DESEncryptor), (e.setKeyStep k = (.ok (), e') ↔ e.setKey k = .ok e') ∧
      (e.setKey k = .ok e' → DESEncryptor.init k = .ok e')) ∧
    (∀ (k : Str) (d' : DESDecryptor), (d.setKeyStep k = (.ok (), d') ↔ d.setKey k = .ok d') ∧
      (d.setKey k = .ok d' → DESDecryptor.init k = .ok d')) := by
  refine ⟨encryptor_reachable_inv he, decryptor_reachable_inv hd, ?_, ?_, ?_⟩
  · rw [DESDecryptor.scheduledKeys_eq_encryptor]; exact decryptor_reachable_inv hd
  · intro k e'
    refine ⟨?_, fun h => by rw [← encryptor_setKey_eq_init e k]; exact h⟩
    unfold DESEncryptor.setKeyStep DESEncryptor.setKey
    split
    · exact ⟨fun h => (by cases h), fun h => (by cases h)⟩
    · exact ⟨fun h => (by cases h; rfl), fun h => (by cases h; rfl)⟩
  · intro k d'
    refine ⟨?_, fun h => by rw [← decryptor_setKey_eq_init d k]; exact h⟩
    unfold DESDecryptor.setKeyStep DESDecryptor.setKey
    split
    · exact ⟨fun h => (by cases h), fun h => (by cases h)⟩
    · exact ⟨fun h => (by cases h; rfl), fun h => (by cases h; rfl)⟩

theorem pick_congr {t : List Nat} {x y : Str}
    (h : ∀ i ∈ t, charAt x (i - 1) = charAt y (i - 1)) : pick t x = pick t y :=
  List.map_congr_left h

theorem PC_1_skips_parity : ∀ t ∈ DESEncryptor.PC_1, t - 1 < 64 ∧ (t - 1 + 1) % 8 ≠ 0 := by
  decide

theorem scheduledKeys_of_processKey {K1 K2 : Str}
    (h : DESEncryptor.processKey K1 = DESEncryptor.processKey K2) :
    DESEncryptor.scheduledKeys K1 = DESEncryptor.scheduledKeys K2 := by
  unfold DESEncryptor.scheduledKeys
  rw [h]

theorem scheduledKeys_of_hexToBin {K1 K2 : Str} (h : hexToBin K1 = hexToBin K2) :
    DESEncryptor.scheduledKeys K1 = DESEncryptor.scheduledKeys K2 :=
  scheduledKeys_of_processKey (by rw [DESEncryptor.processKey_eq_pick, h]; rfl)

theorem encrypt_of_subkeys {e1 e2 : DESEncryptor} (h : e1.subkeys = e2.subkeys) (p : Str) :
    e1.encrypt p = e2.encrypt p := by
  rw [DESEncryptor.encrypt_eq, DESEncryptor.encrypt_eq, h]

theorem decrypt_of_subkeys {d1 d2 : DESDecryptor} (h : d1.subkeys = d2.subkeys) (c : Str) :
    d1.decrypt c = d2.decrypt c := by
  rw [DESDecryptor.decrypt_eq, DESDecryptor.decrypt_eq, h]

theorem hexToBin_toUpperHex_singleton : ∀ c : Byte, hexToBin [toUpperHex c] = hexToBin [c] := by
  decide!

theorem hexToBin_map_toUpperHex (s : Str) : hexToBin (s.map toUpperHex) = hexToBin s := by
  rw [hexToBin_eq_flatMap, hexToBin_eq_flatMap s, List.flatMap_map]
  exact List.flatMap_congr (fun c _ => hexToBin_toUpperHex_singleton c)

theorem isHexDigit_of_toUpperHex_eq : ∀ c : Byte,
    isUpperHexDigit (toUpperHex c) = true → isHexDigit c = true := by decide!

theorem isUpperHexDigit_toUpperHex : ∀ c : Byte,
    isHexDigit c = true → isUpperHexDigit (toUpperHex c) = true := by decide!

theorem validateKey_of_same_upper {K K' : Str} (hK : DESEncryptor.validateKey K = true)
    (hcase : K'.map toUpperHex = K.map toUpperHex) : DESEncryptor.validateKey K' = true := by
  obtain ⟨hl, hh⟩ := (validateKey_iff K).mp hK
  rw [validateKey_iff]
  refine ⟨?_, ?_⟩
  · have := congrArg List.length hcase
    simpa [hl] using this
  · intro c hc
    have hmem : toUpperHex c ∈ K.map toUpperHex := by
      rw [← hcase]; exact List.mem_map_of_mem _ hc
    obtain ⟨x, hx, hxc⟩ := List.mem_map.mp hmem
    apply (isHexDigit_iff_mem c).mp
    apply isHexDigit_of_toUpperHex_eq
    rw [← hxc]
    exact isUpperHexDigit_toUpperHex x ((isHexDigit_iff_mem x).mpr (hh x hx))

/-- C17: if `K` is a valid key and `K'` differs from `K` only in the letter case of
some hex letters (both have the same upper-case form), then `K'` is valid too,
`hexToBin` gives the same 64 bits for both, the Encryptors built from them hold the
same subkey list and `encrypt` returns the same ciphertext for every input. -/
theorem C17_key_case_insensitive (K K' : Str)
    (hK : DESEncryptor.validateKey K = true)
    (hcase : K'.map toUpperHex = K.map toUpperHex) :
    DESEncryptor.validateKey K' = true ∧ hexToBin K' = hexToBin K ∧
    ∃ e e', DESEncryptor.init K = .ok e ∧ DESEncryptor.init K' = .ok e' ∧
      e.subkeys = e'.subkeys ∧ ∀ p, e.encrypt p = e'.encrypt p := by
  have hK' := validateKey_of_same_upper hK hcase
  have hbin : hexToBin K' = hexToBin K := by
    rw [← hexToBin_map_toUpperHex K', hcase, hexToBin_map_toUpperHex]
  have hs := scheduledKeys_of_hexToBin hbin.symm
  exact ⟨hK', hbin, _, _, DESEncryptor.init_of_valid hK, DESEncryptor.init_of_valid hK', hs,
    encrypt_of_subkeys hs⟩

theorem decrypt_length (self : DESDecryptor) (hk : self.subkeys.length = 16) {c : Str}
    (hc : c.length % 16 = 0) : (self.decrypt c).length = c.length := by
  obtain ⟨-, h2⟩ := blocksOf_of_dvd (n := 16) (by decide) hc
  rw [DESDecryptor.decrypt_eq, length_flatMap_of_const _ _ 16
    (fun b hb => DESEncryptor.blockTransform_length hk (h2 b hb)), blocksOf_length_of_dvd hc]

/-- C18 (as stated, refuted): the character `G` is outside `[0-9A-Fa-f]`, yet
`hexToBin` returns `0000` for it, and under the key `133457799BBCDFF1` `decrypt`
of the ciphertext `G000000000000000` returns the output `9EFDFC5C2B5CD585`. -/
theorem C18_nonhex_ciphertext_counterexample :
    isHexDigit (ch 'G') = false ∧ hexToBin (str "G") = str "0000" ∧
    (DESDecryptor.init (str "133457799BBCDFF1")).map
        (fun d => d.decrypt (str "G000000000000000"))
      = .ok (str "9EFDFC5C2B5CD585") := by
  refine ⟨by decide, by decide!, by decide!⟩

/-- C18 (amended): `hexToBin` signals no error on any string: it returns four
characters `'0'`/`'1'` for every input character, hex digit or not; and for every
valid key `decrypt` of any ciphertext whose length is a multiple of 16 returns an
output of that same length, also when the ciphertext has characters outside
`[0-9A-Fa-f]`. -/
theorem C18_hexToBin_is_total (K c : Str)
    (hK : DESEncryptor.validateKey K = true) (hc : c.length % 16 = 0) :
    (∀ s : Str, (hexToBin s).length = 4 * s.length ∧
      ∀ x ∈ hexToBin s, x = ch '0' ∨ x = ch '1') ∧
    ∃ d, DESDecryptor.init K = .ok d ∧ (d.decrypt c).length = c.length := by
  refine ⟨fun s => ⟨hexToBin_length s, hexToBin_isBits s⟩, _,
    DESDecryptor.init_of_valid_key hK, ?_⟩
  exact decrypt_length _ (by
    show (DESEncryptor.scheduledKeys K).reverse.length = 16
    rw [List.length_reverse, DESEncryptor.scheduledKeys_length]) hc

namespace DESEncryptor

theorem pickChecked_eq_some {t : List Nat} {s : Str}
    (h : ∀ i ∈ t, 1 ≤ i ∧ i - 1 < s.length) : pickChecked t s = some (pick t s) := by
  unfold pickChecked
  rw [if_pos]
  · rfl
  · rw [List.all_eq_true]
    intro i hi
    exact decide_eq_true (h i hi)

theorem pickChecked_eq_none {t : List Nat} {s : Str}
    (h : ∃ i ∈ t, ¬ (1 ≤ i ∧ i - 1 < s.length)) : pickChecked t s = none := by
  unfold pickChecked
  rw [if_neg]
  rw [List.all_eq_true]
  intro hall
  obtain ⟨i, hi, hn⟩ := h
  exact hn (of_decide_eq_true (hall i hi))

theorem xorAddChecked_eq_some {s1 s2 : Str} (h : s1.length ≤ s2.length) :
    xorAddChecked s1 s2 = some (xorAdd s1 s2) := by
  unfold xorAddChecked
  rw [if_pos h]

theorem sbox_index_bounds {s : Str} (hl : s.length = 6) (hb : IsBits s) :
    0 ≤ sboxRow s ∧ sboxRow s < 4 ∧ 0 ≤ sboxCol s ∧ sboxCol s < 16 := by
  match s, hl with
  | [a, b, c, d, e, f], _ =>
    have ha := hb a (by simp)
    have hb' := hb b (by simp)
    have hc := hb c (by simp)
    have hd := hb d (by simp)
    have he := hb e (by simp)
    have hf := hb f (by simp)
    rcases ha with rfl | rfl <;> rcases hb' with rfl | rfl <;> rcases hc with rfl | rfl <;>
      rcases hd with rfl | rfl <;> rcases he with rfl | rfl <;> rcases hf with rfl | rfl <;>
      decide!

theorem getElementFromBoxChecked_eq_some {s : Str} {k : Nat} (hl : s.length = 6)
    (hb : IsBits s) (hk : k < 8) :
    getElementFromBoxChecked s k = some (getElementFromBox s k) := by
  obtain ⟨h1, h2, h3, h4⟩ := sbox_index_bounds hl hb
  unfold getElementFromBoxChecked
  rw [if_pos ⟨by omega, hk, h1, h2, h3, h4⟩]

theorem E_T_checked : ∀ t ∈ E_T, 1 ≤ t ∧ t - 1 < 32 := by decide
theorem P_checked : ∀ t ∈ P, 1 ≤ t ∧ t - 1 < 32 := by decide
theorem IP_T_checked : ∀ t ∈ IP_T, 1 ≤ t ∧ t - 1 < 64 := by decide
theorem P_1_checked : ∀ t ∈ P_1, 1 ≤ t ∧ t - 1 < 64 := by decide
theorem sbox_starts : ∀ j ∈ strideStarts 48 6, j + 6 ≤ 48 ∧ j / 6 < 8 := by decide

theorem roundStepChecked_eq_some {ks : List Str} {LR : Str × Str} {round : Nat}
    (hLR : GoodHalves LR) (hr : round < ks.length) (hk : 48 ≤ (ks.getD round []).length) :
    roundStepChecked ks LR round = some (roundStep (ks.getD round []) LR) := by
  obtain ⟨h1, h2, -, h4⟩ := hLR
  have hsub : ks[round]? = some (ks.getD round []) := by
    rw [List.getElem?_eq_getElem hr, List.getD_eq_getElem _ _ hr]
  have hE : pickChecked E_T LR.2 = some (pick E_T LR.2) :=
    pickChecked_eq_some (by rw [h2]; exact E_T_checked)
  have hX : xorAddChecked (pick E_T LR.2) (ks.getD round [])
      = some (xorAdd (pick E_T LR.2) (ks.getD round [])) :=
    xorAddChecked_eq_some (by rw [pick_length]; exact hk)
  have hXlen : (xorAdd (pick E_T LR.2) (ks.getD round [])).length = 48 := by
    rw [xorAdd_length, pick_length]; rfl
  have hboxes : ((strideStarts 48 6).map fun j =>
      getElementFromBoxChecked (substr (xorAdd (pick E_T LR.2) (ks.getD round [])) j 6)
        (j / 6)).all Option.isSome = true := by
    rw [List.all_eq_true]
    intro o ho
    obtain ⟨j, hj, rfl⟩ := List.mem_map.mp ho
    obtain ⟨hj1, hj2⟩ := sbox_starts j hj
    have hsl : (substr (xorAdd (pick E_T LR.2) (ks.getD round [])) j 6).length = 6 := by
      simp only [substr, List.length_take, List.length_drop, hXlen]; omega
    have hsb : IsBits (substr (xorAdd (pick E_T LR.2) (ks.getD round [])) j 6) :=
      isBits_take _ (isBits_drop _ (xorAdd_isBits _ _))
    rw [getElementFromBoxChecked_eq_some hsl hsb hj2]
    rfl
  have hP : pickChecked P ((strideStarts 48 6).flatMap fun j =>
      getElementFromBox (substr (xorAdd (pick E_T LR.2) (ks.getD round [])) j 6) (j / 6))
      = some (feistel (ks.getD round []) LR.2) := by
    rw [pickChecked_eq_some]
    · rfl
    · rw [length_flatMap_of_const _ _ 4 (fun j _ => getElementFromBox_length _ _)]
      exact P_checked
  have hN : xorAddChecked (feistel (ks.getD round []) LR.2) LR.1
      = some (xorAdd (feistel (ks.getD round []) LR.2) LR.1) :=
    xorAddChecked_eq_some (by rw [feistel_length, h1])
  unfold roundStepChecked
  simp only [hE, hsub, hX, hboxes, hP, hN, Option.bind_eq_bind, Option.some_bind, if_true,
    Option.pure_def, roundStep_eq]

theorem roundsChecked_eq_some {ks : List Str} (hk : ∀ k ∈ ks, 48 ≤ k.length) :
    ∀ (rs : List Nat) {LR : Str × Str}, GoodHalves LR → (∀ r ∈ rs, r < ks.length) →
      rs.foldlM (roundStepChecked ks) LR
        = some (rs.foldl (fun st round => roundStep (ks.getD round []) st) LR) := by
  intro rs
  induction rs with
  | nil => intro LR _ _; rfl
  | cons r rs ih =>
    intro LR hLR hr
    have hr0 : r < ks.length := hr r (List.mem_cons_self _ _)
    have hk0 : 48 ≤ (ks.getD r []).length := by
      rw [List.getD_eq_getElem _ _ hr0]; exact hk _ (List.getElem_mem hr0)
    rw [List.foldlM_cons, roundStepChecked_eq_some hLR hr0 hk0]
    simp only [Option.bind_eq_bind, Option.some_bind, List.foldl_cons]
    exact ih (roundStep_good _ hLR) (fun x hx => hr x (List.mem_cons_of_mem _ hx))

theorem blockTransformChecked_eq_some {ks : List Str} (hlen : ks.length = 16)
    (hk : ∀ k ∈ ks, 48 ≤ k.length) {block : Str} (hb : block.length = 16) :
    blockTransformChecked ks block = some (blockTransform ks block) := by
  have hbin : (hexToBin block).length = 64 := by rw [hexToBin_length, hb]
  have hIP : pickChecked IP_T (hexToBin block) = some (pick IP_T (hexToBin block)) :=
    pickChecked_eq_some (by rw [hbin]; exact IP_T_checked)
  have hIPbits : IsBits (pick IP_T (hexToBin block)) :=
    pick_isBits (hexToBin_isBits _) (by rw [hbin]; exact IP_T_in_range)
  have hgood := halves_good hIPbits (pick_length _ _)
  have hrounds := roundsChecked_eq_some hk (List.range 16) hgood
    (fun r hr => by rw [hlen]; exact List.mem_range.mp hr)
  have hgood16 : GoodHalves ((List.range 16).foldl
      (fun st round => roundStep (ks.getD round []) st) (halves (pick IP_T (hexToBin block)))) := by
    have h := range_foldl_getD roundStep ks (halves (pick IP_T (hexToBin block)))
    rw [hlen] at h
    rw [h]
    exact rounds_good ks hgood
  obtain ⟨g1, g2, -, -⟩ := hgood16
  unfold blockTransformChecked
  simp only [hIP, Option.bind_eq_bind, Option.some_bind]
  rw [show (substr (pick IP_T (hexToBin block)) 0 32, substr (pick IP_T (hexToBin block)) 32 32)
      = halves (pick IP_T (hexToBin block)) from rfl, hrounds]
  simp only [Option.some_bind]
  rw [pickChecked_eq_some (by rw [List.length_append, g1, g2]; exact P_1_checked)]
  rfl

theorem encryptChecked_eq_some (self : DESEncryptor) (hlen : self.subkeys.length = 16)
    (hk : ∀ k ∈ self.subkeys, 48 ≤ k.length) (p : Str) :
    self.encryptChecked p = some (self.encrypt p) := by
  obtain ⟨-, h2⟩ := blocksOf_of_dvd (n := 16) (by decide) (padLoop_length_mod (hexForm p))
  unfold encryptChecked
  rw [if_pos]
  rw [List.all_eq_true]
  intro o ho
  obtain ⟨i, hi, rfl⟩ := List.mem_map.mp ho
  have hmem : substr (padLoop (hexForm p)) i 16 ∈ blocksOf 16 (padLoop (hexForm p)) :=
    List.mem_map.mpr ⟨i, hi, rfl⟩
  show (blockTransformChecked self.subkeys (substr (padLoop (hexForm p)) i 16)).isSome = true
  rw [blockTransformChecked_eq_some hlen hk (h2 _ hmem)]
  rfl

end DESEncryptor

namespace DESDecryptor

theorem blockTransformChecked_eq_encryptor :
    @DESDecryptor.blockTransformChecked = @DESEncryptor.blockTransformChecked := rfl

theorem decryptChecked_eq_some (self : DESDecryptor) (hlen : self.subkeys.length = 16)
    (hk : ∀ k ∈ self.subkeys, 48 ≤ k.length) {c : Str} (hc : c.length % 16 = 0) :
    self.decryptChecked c = some (self.decrypt c) := by
  obtain ⟨-, h2⟩ := blocksOf_of_dvd (n := 16) (by decide) hc
  unfold decryptChecked
  rw [if_pos]
  rw [List.all_eq_true]
  intro o ho
  obtain ⟨i, hi, rfl⟩ := List.mem_map.mp ho
  have hmem : substr c i 16 ∈ blocksOf 16 c := List.mem_map.mpr ⟨i, hi, rfl⟩
  rw [blockTransformChecked_eq_encryptor,
    DESEncryptor.blockTransformChecked_eq_some hlen hk (h2 _ hmem)]
  rfl

end DESDecryptor

theorem forall_48_le_of_good {ks : List Str} (h : ∀ k ∈ ks, k.length = 48 ∧ IsBits k) :
    ∀ k ∈ ks, 48 ≤ k.length :=
  fun k hk => Nat.le_of_eq (h k hk).1.symm

/-- C19: for every valid key, `encrypt` on any input and `decrypt` on any string
whose length is a multiple of 16 run with every read in range (the checked runs
return the results of the plain ones).  On the way: both objects hold 16 subkeys,
every block decodes to 64 bits, the two halves are 32-character bit strings before
and after any number of rounds, a 6-character bit string gives a row index in `0..3`
and a column index in `0..15`, and every S-box output has 4 characters. -/
theorem C19_no_out_of_range_lookup (K p c : Str)
    (hK : DESEncryptor.validateKey K = true) (hc : c.length % 16 = 0) :
    ∃ e d, DESEncryptor.init K = .ok e ∧ DESDecryptor.init K = .ok d ∧
      e.encryptChecked p = some (e.encrypt p) ∧
      d.decryptChecked c = some (d.decrypt c) ∧
      (e.subkeys.length = 16 ∧ d.subkeys.length = 16) ∧
      (∀ b ∈ blocksOf 16 (padLoop (hexForm p)), (hexToBin b).length = 64) ∧
      (∀ b ∈ blocksOf 16 c, (hexToBin b).length = 64) ∧
      (∀ (b : Str) (ks : List Str), b.length = 16 →
        DESEncryptor.GoodHalves
          (DESEncryptor.rounds ks (DESEncryptor.halves (pick DESEncryptor.IP_T (hexToBin b))))) ∧
      (∀ s : Str, s.length = 6 → IsBits s →
        0 ≤ DESEncryptor.sboxRow s ∧ DESEncryptor.sboxRow s < 4 ∧
        0 ≤ DESEncryptor.sboxCol s ∧ DESEncryptor.sboxCol s < 16) ∧
      (∀ (s : Str) (k : Nat), (DESEncryptor.getElementFromBox s k).length = 4) := by
  have hl := DESEncryptor.validateKey_length hK
  have hlen := DESEncryptor.scheduledKeys_length K
  have hgood := forall_48_le_of_good (DESEncryptor.scheduledKeys_good hl)
  have hlenr : (DESEncryptor.scheduledKeys K).reverse.length = 16 := by
    rw [List.length_reverse, hlen]
  have hgoodr : ∀ k ∈ (DESEncryptor.scheduledKeys K).reverse, 48 ≤ k.length :=
    fun k hk => hgood k (List.mem_reverse.mp hk)
  refine ⟨_, _, DESEncryptor.init_of_valid hK, DESDecryptor.init_of_valid_key hK,
    DESEncryptor.encryptChecked_eq_some _ hlen hgood p,
    DESDecryptor.decryptChecked_eq_some _ hlenr hgoodr hc, ⟨hlen, hlenr⟩, ?_, ?_, ?_,
    fun s h1 h2 => DESEncryptor.sbox_index_bounds h1 h2,
    fun s k => DESEncryptor.getElementFromBox_length s k⟩
  · intro b hb
    rw [hexToBin_length,
      (blocksOf_of_dvd (n := 16) (by decide) (padLoop_length_mod (hexForm p))).2 b hb]
  · intro b hb
    rw [hexToBin_length, (blocksOf_of_dvd (n := 16) (by decide) hc).2 b hb]
  · intro b ks hb
    have hbin : (hexToBin b).length = 64 := by rw [hexToBin_length, hb]
    exact DESEncryptor.rounds_good ks (DESEncryptor.halves_good
      (pick_isBits (hexToBin_isBits _) (by rw [hbin]; exact DESEncryptor.IP_T_in_range))
      (pick_length _ _))

/-! ## Reference forms of the key schedule, S-boxes and permutations; frame of the calls -/

namespace DESEncryptor

theorem shiftBit_eq_rotate {s : Str} {n : Nat} (h : n ≤ s.length) :
    shiftBit s n = s.rotate n := by
  rw [List.rotate_eq_drop_append_take h]
  unfold shiftBit
  congr 1
  · apply List.ext_getElem
    · simp
    · intro i h1 h2
      simp only [List.getElem_map, List.getElem_range, List.getElem_drop]
      exact charAt_of_lt (by simp at h1; omega)
  · apply List.ext_getElem
    · simp [h]
    · intro i h1 h2
      simp only [List.getElem_map, List.getElem_range, List.getElem_take]
      exact charAt_of_lt (by simp at h1; omega)

theorem NUM_LEFTSHIFT_sum : NUM_LEFTSHIFT.sum = 28 := by decide

theorem NUM_LEFTSHIFT_length : NUM_LEFTSHIFT.length = 16 := by decide

theorem rotatedHalf_eq_rotate {half : Str} (hl : half.length = 28) :
    ∀ i, i < 16 → rotatedHalf half i = half.rotate ((NUM_LEFTSHIFT.take (i + 1)).sum) := by
  intro i
  induction i with
  | zero =>
    intro _
    have hn : NUM_LEFTSHIFT.getD 0 0 ≤ half.length := by
      have := NUM_LEFTSHIFT_getD_le 0; omega
    rw [rotatedHalf, shiftBit_eq_rotate hn]
    rfl
  | succ i ih =>
    intro hi
    have hlen : (rotatedHalf half i).length = 28 := by
      rw [ih (by omega), List.length_rotate, hl]
    have hn : NUM_LEFTSHIFT.getD (i + 1) 0 ≤ (rotatedHalf half i).length := by
      have := NUM_LEFTSHIFT_getD_le (i + 1); omega
    have hlt : i + 1 < NUM_LEFTSHIFT.length := by rw [NUM_LEFTSHIFT_length]; exact hi
    rw [rotatedHalf, shiftBit_eq_rotate hn, ih (by omega), List.rotate_rotate,
      List.sum_take_succ _ _ hlt, List.getD_eq_getElem _ _ hlt]

theorem rotatedHalf_last {half : Str} (hl : half.length = 28) : rotatedHalf half 15 = half := by
  rw [rotatedHalf_eq_rotate hl 15 (by decide)]
  have : (NUM_LEFTSHIFT.take (15 + 1)).sum = half.length := by rw [hl]; decide
  rw [this, List.rotate_length]

theorem scheduledKeys_getElem_opt (key : Str) {i : Nat} (hi : i < 16) :
    (scheduledKeys key)[i]? = some (pick PC_2
      (rotatedHalf (substr (processKey key) 0 28) i ++
        rotatedHalf (substr (processKey key) 28 28) i)) := by
  unfold scheduledKeys
  simp only [List.getElem?_map]
  rw [List.getElem?_range hi]
  rfl

theorem processKey_halves {key : Str} (hl : key.length = 16) :
    (substr (processKey key) 0 28).length = 28 ∧ (substr (processKey key) 28 28).length = 28 ∧
    substr (processKey key) 0 28 = (processKey key).take 28 ∧
    substr (processKey key) 28 28 = (processKey key).drop 28 := by
  obtain ⟨hp, -⟩ := processKey_good hl
  refine ⟨by simp [substr, hp], by simp [substr, hp], by simp [substr], ?_⟩
  simp only [substr]
  exact List.take_of_length_le (by rw [List.length_drop, hp])

end DESEncryptor

/-- C25: for every valid key, `L_key[15]` and `R_key[15]` of `generateSubkeys` are
the two 28-character halves of the `PC_1` output before any rotation (the entries
of `NUM_LEFTSHIFT` sum to 28), and the Encryptor's 16th subkey is `PC_2` applied to
the `PC_1` output itself. -/
theorem C25_rotation_closure (K : Str) (hK : DESEncryptor.validateKey K = true) :
    DESEncryptor.NUM_LEFTSHIFT.sum = 28 ∧
    (substr (DESEncryptor.processKey K) 0 28).length = 28 ∧
    (substr (DESEncryptor.processKey K) 28 28).length = 28 ∧
    DESEncryptor.rotatedHalf (substr (DESEncryptor.processKey K) 0 28) 15
      = substr (DESEncryptor.processKey K) 0 28 ∧
    DESEncryptor.rotatedHalf (substr (DESEncryptor.processKey K) 28 28) 15
      = substr (DESEncryptor.processKey K) 28 28 ∧
    ∃ e, DESEncryptor.init K = .ok e ∧
      e.subkeys[15]? = some (DESEncryptor.PC_2.map fun t =>
        charAt (DESEncryptor.processKey K) (t - 1)) := by
  have hl := DESEncryptor.validateKey_length hK
  obtain ⟨h1, h2, h3, h4⟩ := DESEncryptor.processKey_halves hl
  refine ⟨DESEncryptor.NUM_LEFTSHIFT_sum, h1, h2, DESEncryptor.rotatedHalf_last h1,
    DESEncryptor.rotatedHalf_last h2, _, DESEncryptor.init_of_valid hK, ?_⟩
  show (DESEncryptor.scheduledKeys K)[15]? = _
  rw [DESEncryptor.scheduledKeys_getElem_opt K (by decide), DESEncryptor.rotatedHalf_last h1,
    DESEncryptor.rotatedHalf_last h2, h3, h4, List.take_append_drop]
  rfl

/-- C26: for every valid key and every round `i` in `1..16`, the Encryptor's subkey
of round `i` is the specification's `K_i`: `PC_2` applied to the left rotations by
`s_i` of the first and of the last 28 bits of the `PC_1` output, where `s_i` is the
sum of the first `i` entries of the shift table; the table and the sums are the
stated ones. -/
theorem C26_subkey_refines_spec (K : Str) (hK : DESEncryptor.validateKey K = true) :
    (∃ e, DESEncryptor.init K = .ok e ∧
      ∀ i, 1 ≤ i → i ≤ 16 → e.subkeys[i - 1]? = some (DESEncryptor.specSubkey K i)) ∧
    DESEncryptor.NUM_LEFTSHIFT = [1, 1, 2, 2, 2, 2, 2, 2, 1, 2, 2, 2, 2, 2, 2, 1] ∧
    (List.range 16).map (fun i => (DESEncryptor.NUM_LEFTSHIFT.take (i + 1)).sum)
      = [1, 2, 4, 6, 8, 10, 12, 14, 15, 17, 19, 21, 23, 25, 27, 28] := by
  have hl := DESEncryptor.validateKey_length hK
  obtain ⟨h1, h2, h3, h4⟩ := DESEncryptor.processKey_halves hl
  refine ⟨⟨_, DESEncryptor.init_of_valid hK, ?_⟩, rfl, by decide⟩
  intro i hi1 hi16
  show (DESEncryptor.scheduledKeys K)[i - 1]? = _
  rw [DESEncryptor.scheduledKeys_getElem_opt K (by omega),
    DESEncryptor.rotatedHalf_eq_rotate h1 _ (by omega),
    DESEncryptor.rotatedHalf_eq_rotate h2 _ (by omega), h3, h4,
    show i - 1 + 1 = i by omega]
  rfl

namespace DESEncryptor

theorem sbox_indices_of_bits {s : Str} (hl : s.length = 6) (hb : IsBits s) :
    sboxRow s = ((2 * bitValue (charAt s 0) + bitValue (charAt s 5) : Nat) : Int) ∧
    sboxCol s = ((8 * bitValue (charAt s 1) + 4 * bitValue (charAt s 2)
      + 2 * bitValue (charAt s 3) + bitValue (charAt s 4) : Nat) : Int) := by
  match s, hl with
  | [a, b, c, d, e, f], _ =>
    have ha := hb a (by simp)
    have hb' := hb b (by simp)
    have hc := hb c (by simp)
    have hd := hb d (by simp)
    have he := hb e (by simp)
    have hf := hb f (by simp)
    rcases ha with rfl | rfl <;> rcases hb' with rfl | rfl <;> rcases hc with rfl | rfl <;>
      rcases hd with rfl | rfl <;> rcases he with rfl | rfl <;> rcases hf with rfl | rfl <;>
      decide!

theorem sboxEntry_of_nat (k r c : Nat) :
    sboxEntry k (r : Int) (c : Int) = ((S.getD k []).getD r []).getD c 0 := by
  unfold sboxEntry
  rw [if_pos ⟨Int.natCast_nonneg r, Int.natCast_nonneg c⟩]
  simp

theorem decToBin_eq_binary4 : ∀ n < 16, decToBin n = binary4 n := by decide!

theorem S_entry_le (k r c : Nat) : ((S.getD k []).getD r []).getD c 0 ≤ 15 := by
  have h := sboxEntry_lt k (r : Int) (c : Int)
  rw [sboxEntry_of_nat] at h
  omega

theorem getElementFromBox_eq (s : Str) (k : Nat) :
    getElementFromBox s k = decToBin (sboxEntry k (sboxRow s) (sboxCol s)) := rfl

end DESEncryptor

/-- C27: for every 6-character string `s = b0 b1 b2 b3 b4 b5` of `'0'`/`'1'` and
every box index `k` in `0..7`, `getElementFromBox(s, k)` is the 4-character binary
form, most significant digit first, of `S[k][2*b0 + b5][8*b1 + 4*b2 + 2*b3 + b4]`;
it has 4 characters, the lookup stays inside the array, every entry of `S` is at
most 15, and `decToBin(n)` is the 4-digit binary form of `n` for `n <= 15`. -/
theorem C27_getElementFromBox_value (s : Str) (k : Nat)
    (hl : s.length = 6) (hb : ∀ c ∈ s, c = ch '0' ∨ c = ch '1') (hk : k < 8) :
    DESEncryptor.getElementFromBox s k
      = binary4 (((DESEncryptor.S.getD k []).getD
          (2 * bitValue (charAt s 0) + bitValue (charAt s 5)) []).getD
          (8 * bitValue (charAt s 1) + 4 * bitValue (charAt s 2)
            + 2 * bitValue (charAt s 3) + bitValue (charAt s 4)) 0) ∧
    (DESEncryptor.getElementFromBox s k).length = 4 ∧
    DESEncryptor.getElementFromBoxChecked s k = some (DESEncryptor.getElementFromBox s k) ∧
    ((DESEncryptor.S.getD k []).getD
          (2 * bitValue (charAt s 0) + bitValue (charAt s 5)) []).getD
          (8 * bitValue (charAt s 1) + 4 * bitValue (charAt s 2)
            + 2 * bitValue (charAt s 3) + bitValue (charAt s 4)) 0 ≤ 15 ∧
    (∀ box ∈ DESEncryptor.S, ∀ row ∈ box, ∀ x ∈ row, x ≤ 15) ∧
    (∀ n, n ≤ 15 → decToBin n = binary4 n ∧ (decToBin n).length = 4) := by
  obtain ⟨hr, hc⟩ := DESEncryptor.sbox_indices_of_bits hl hb
  refine ⟨?_, DESEncryptor.getElementFromBox_length s k,
    DESEncryptor.getElementFromBoxChecked_eq_some hl hb hk, DESEncryptor.S_entry_le _ _ _, ?_, ?_⟩
  · rw [DESEncryptor.getElementFromBox_eq, hr, hc, DESEncryptor.sboxEntry_of_nat]
    exact DESEncryptor.decToBin_eq_binary4 _ (by
      have := DESEncryptor.S_entry_le k (2 * bitValue (charAt s 0) + bitValue (charAt s 5))
        (8 * bitValue (charAt s 1) + 4 * bitValue (charAt s 2)
          + 2 * bitValue (charAt s 3) + bitValue (charAt s 4))
      omega)
  · intro box h1 row h2 x h3
    have := DESEncryptor.S_entries_small box h1 row h2 x h3
    omega
  · intro n hn
    exact ⟨DESEncryptor.decToBin_eq_binary4 n (by omega), (decToBin_small n (by omega)).1⟩

/-- C28: `IP_T` and `P_1` are permutations of `1..64`, each the inverse of the
other: entry `IP_T[j]` of `P_1` is `j` and entry `P_1[j]` of `IP_T` is `j` (positions
counted from 1), so on every 64-character string selecting by `IP_T` and then by
`P_1`, or by `P_1` and then by `IP_T`, returns the string. -/
theorem C28_final_permutation_inverts_initial :
    DESEncryptor.IP_T.Perm (List.range' 1 64) ∧
    DESEncryptor.P_1.Perm (List.range' 1 64) ∧
    (∀ j, j < 64 →
      DESEncryptor.P_1.getD (DESEncryptor.IP_T.getD j 0 - 1) 0 = j + 1 ∧
      DESEncryptor.IP_T.getD (DESEncryptor.P_1.getD j 0 - 1) 0 = j + 1) ∧
    (∀ x : Str, x.length = 64 →
      (DESEncryptor.P_1.map fun t =>
          charAt (DESEncryptor.IP_T.map fun u => charAt x (u - 1)) (t - 1)) = x ∧
      (DESEncryptor.IP_T.map fun t =>
          charAt (DESEncryptor.P_1.map fun u => charAt x (u - 1)) (t - 1)) = x) := by
  refine ⟨by decide, by decide, by decide, fun x hx => ?_⟩
  exact ⟨DESEncryptor.pick_P_1_pick_IP_T hx, DESEncryptor.pick_IP_T_pick_P_1 hx⟩

/-- C29: the eight tables of `DESDecryptor` equal those of `DESEncryptor`, and for
every valid key `K` and every string `c` (in particular every hex string whose
length is a multiple of 16) `DESDecryptor(K).decrypt(c)` is the concatenation, over
the 16-character groups of `c`, of `DESEncryptor`'s block transform run with the
subkeys of `DESEncryptor(K)` in reverse order. -/
theorem C29_decryptor_duplicates_encryptor (K c : Str)
    (hK : DESEncryptor.validateKey K = true) :
    (DESDecryptor.PC_1 = DESEncryptor.PC_1 ∧ DESDecryptor.PC_2 = DESEncryptor.PC_2 ∧
      DESDecryptor.IP_T = DESEncryptor.IP_T ∧ DESDecryptor.E_T = DESEncryptor.E_T ∧
      DESDecryptor.S = DESEncryptor.S ∧ DESDecryptor.P = DESEncryptor.P ∧
      DESDecryptor.P_1 = DESEncryptor.P_1 ∧
      DESDecryptor.NUM_LEFTSHIFT = DESEncryptor.NUM_LEFTSHIFT) ∧
    ∃ e d, DESEncryptor.init K = .ok e ∧ DESDecryptor.init K = .ok d ∧
      e.subkeys.length = 16 ∧
      d.decrypt c = (strideStarts c.length 16).flatMap fun i =>
        DESEncryptor.blockTransform e.subkeys.reverse (substr c i 16) := by
  refine ⟨⟨rfl, rfl, rfl, rfl, rfl, rfl, rfl, rfl⟩, _, _, DESEncryptor.init_of_valid hK,
    DESDecryptor.init_of_valid_key hK, DESEncryptor.scheduledKeys_length K, ?_⟩
  rw [DESDecryptor.decrypt_eq]
  simp only [blocksOf, List.flatMap_map]

/-! ## Inverse transform, output alphabet, weak key and out-of-range reads -/

theorem mem_ite_or {p : Prop} [Decidable p] {a b : Str} {c : Byte}
    (h : c ∈ (if p then a else b)) : c ∈ a ∨ c ∈ b := by
  by_cases hp : p
  · rw [if_pos hp] at h; exact Or.inl h
  · rw [if_neg hp] at h; exact Or.inr h

theorem nibbleHex_upper (k : Str) : ∀ c ∈ nibbleHex k, c ∈ str "0123456789ABCDEF" := by
  intro c hc
  unfold nibbleHex at hc
  repeat (rcases mem_ite_or hc with h | hc; · rw [List.mem_singleton.mp h]; decide)
  exact absurd hc (List.not_mem_nil c)

theorem binToHex_upper (b : Str) : ∀ c ∈ binToHex b, c ∈ str "0123456789ABCDEF" := by
  intro c hc
  rw [binToHex_eq_blocksOf] at hc
  obtain ⟨k, -, hk⟩ := List.mem_flatMap.mp hc
  exact nibbleHex_upper k c hk

theorem blockTransform_upper (ks : List Str) (block : Str) :
    ∀ c ∈ DESEncryptor.blockTransform ks block, c ∈ str "0123456789ABCDEF" :=
  binToHex_upper _

theorem encrypt_upper (self : DESEncryptor) (p : Str) :
    ∀ c ∈ self.encrypt p, c ∈ str "0123456789ABCDEF" := by
  intro c hc
  rw [DESEncryptor.encrypt_eq] at hc
  obtain ⟨b, -, hb⟩ := List.mem_flatMap.mp hc
  exact blockTransform_upper _ b c hb

theorem decrypt_upper (self : DESDecryptor) (p : Str) :
    ∀ c ∈ self.decrypt p, c ∈ str "0123456789ABCDEF" := by
  intro c hc
  rw [DESDecryptor.decrypt_eq] at hc
  obtain ⟨b, -, hb⟩ := List.mem_flatMap.mp hc
  exact blockTransform_upper _ b c hb

theorem binToHex_hexToBin_of_upper {s : Str} (h : ∀ c ∈ s, c ∈ str "0123456789ABCDEF") :
    binToHex (hexToBin s) = s := by
  rw [binToHex_hexToBin_of_hex
      (fun c hc => isHexDigit_of_upper c ((isUpperHexDigit_iff_mem c).mpr (h c hc))),
    map_toUpperHex_of_upper (fun c hc => (isUpperHexDigit_iff_mem c).mpr (h c hc))]

/-- C31: for every list `ks` of 16 strings of 48 characters `'0'`/`'1'` and every
block `B` of 16 upper-case hex characters, the block transform run with `ks`
reversed, applied to the result of the block transform run with `ks` on `B`,
returns `B`. -/
theorem C31_block_transform_invertible (ks : List Str) (B : Str)
    (hks : ks.length = 16)
    (hbits : ∀ k ∈ ks, k.length = 48 ∧ ∀ c ∈ k, c = ch '0' ∨ c = ch '1')
    (hB : B.length = 16) (hup : ∀ c ∈ B, c ∈ str "0123456789ABCDEF") :
    DESEncryptor.blockTransform ks.reverse (DESEncryptor.blockTransform ks B) = B ∧
    DESDecryptor.blockTransform ks.reverse (DESEncryptor.blockTransform ks B) = B ∧
    DESEncryptor.blockTransformChecked ks B = some (DESEncryptor.blockTransform ks B) := by
  have h := DESEncryptor.blockTransform_roundTrip hks hB
  rw [binToHex_hexToBin_of_upper hup] at h
  refine ⟨h, ?_, DESEncryptor.blockTransformChecked_eq_some hks
    (fun k hk => Nat.le_of_eq (hbits k hk).1.symm) hB⟩
  rw [DESDecryptor.blockTransform_eq_encryptor]
  exact h

theorem encrypt_of_aligned_hex (self : DESEncryptor) {x : Str} (h16 : x.length % 16 = 0)
    (hhex : ∀ c ∈ x, c ∈ str "0123456789ABCDEFabcdef") :
    self.encrypt x = (blocksOf 16 x).flatMap (DESEncryptor.blockTransform self.subkeys) := by
  rw [DESEncryptor.encrypt_eq, hexForm_of_evenHex (by omega) hhex, padLoop_of_aligned h16]

theorem encrypt_decrypt_of_reversed {e : DESEncryptor} {d : DESDecryptor}
    (hlen : e.subkeys.length = 16) (hrev : d.subkeys = e.subkeys.reverse) {C : Str}
    (h16 : C.length % 16 = 0) (hup : ∀ c ∈ C, c ∈ str "0123456789ABCDEF") :
    e.encrypt (d.decrypt C) = C := by
  have hdl : (d.decrypt C).length = C.length :=
    decrypt_length d (by rw [hrev, List.length_reverse, hlen]) h16
  rw [encrypt_of_aligned_hex e (by rw [hdl]; exact h16)
    (fun c hc => upper_subset_hex c (decrypt_upper d C c hc)), DESDecryptor.decrypt_eq, hrev]
  have hlenr : e.subkeys.reverse.length = 16 := by rw [List.length_reverse, hlen]
  have h := DESEncryptor.messageRoundTrip hlenr h16
  rw [List.reverse_reverse] at h
  rw [h, binToHex_hexToBin_of_upper hup]

theorem decrypt_encrypt_of_reversed {e : DESEncryptor} {d : DESDecryptor}
    (hlen : e.subkeys.length = 16) (hrev : d.subkeys = e.subkeys.reverse) {B : Str}
    (h16 : B.length % 16 = 0) (hup : ∀ c ∈ B, c ∈ str "0123456789ABCDEF") :
    d.decrypt (e.encrypt B) = B := by
  rw [encrypt_of_aligned_hex e h16 (fun c hc => upper_subset_hex c (hup c hc)),
    DESDecryptor.decrypt_eq, hrev, DESEncryptor.messageRoundTrip hlen h16,
    binToHex_hexToBin_of_upper hup]

theorem encrypt_block_mem (e : DESEncryptor) (hlen : e.subkeys.length = 16) {B : Str}
    (hB : B.length = 16) (hup : ∀ c ∈ B, c ∈ str "0123456789ABCDEF") :
    (e.encrypt B).length = 16 ∧ ∀ c ∈ e.encrypt B, c ∈ str "0123456789ABCDEF" := by
  refine ⟨?_, encrypt_upper e B⟩
  rw [DESEncryptor.encrypt_length e hlen,
    hexForm_of_evenHex (by rw [hB]) (fun c hc => upper_subset_hex c (hup c hc)),
    padLoop_of_aligned (by rw [hB]), hB]

theorem decrypt_block_mem (d : DESDecryptor) (hlen : d.subkeys.length = 16) {B : Str}
    (hB : B.length = 16) :
    (d.decrypt B).length = 16 ∧ ∀ c ∈ d.decrypt B, c ∈ str "0123456789ABCDEF" := by
  refine ⟨?_, decrypt_upper d B⟩
  rw [decrypt_length d hlen (by rw [hB]), hB]

/-- C32: for every valid key `K` and every string `C` of upper-case hex digits whose
length is a multiple of 16, `DESEncryptor(K).encrypt(DESDecryptor(K).decrypt(C))` is
`C`; and `encrypt` under `K` is a bijection of the set of 16-character upper-case
hex blocks onto itself. -/
theorem C32_encrypt_undoes_decrypt (K C : Str)
    (hK : DESEncryptor.validateKey K = true) (h16 : C.length % 16 = 0)
    (hup : ∀ c ∈ C, c ∈ str "0123456789ABCDEF") :
    ∃ e d, DESEncryptor.init K = .ok e ∧ DESDecryptor.init K = .ok d ∧
      e.encrypt (d.decrypt C) = C ∧
      Set.BijOn e.encrypt
        {B : Str | B.length = 16 ∧ ∀ c ∈ B, c ∈ str "0123456789ABCDEF"}
        {B : Str | B.length = 16 ∧ ∀ c ∈ B, c ∈ str "0123456789ABCDEF"} := by
  have hlen := DESEncryptor.scheduledKeys_length K
  have hlenr : (DESEncryptor.scheduledKeys K).reverse.length = 16 := by
    rw [List.length_reverse, hlen]
  refine ⟨⟨K, DESEncryptor.scheduledKeys K⟩, ⟨K, (DESEncryptor.scheduledKeys K).reverse⟩,
    DESEncryptor.init_of_valid hK, DESDecryptor.init_of_valid_key hK,
    encrypt_decrypt_of_reversed hlen rfl h16 hup, ?_⟩
  have hinv : Set.InvOn (DESDecryptor.decrypt ⟨K, (DESEncryptor.scheduledKeys K).reverse⟩)
      (DESEncryptor.encrypt ⟨K, DESEncryptor.scheduledKeys K⟩)
      {B : Str | B.length = 16 ∧ ∀ c ∈ B, c ∈ str "0123456789ABCDEF"}
      {B : Str | B.length = 16 ∧ ∀ c ∈ B, c ∈ str "0123456789ABCDEF"} :=
    ⟨fun B hB => decrypt_encrypt_of_reversed hlen rfl (by rw [hB.1]) hB.2,
      fun B hB => encrypt_decrypt_of_reversed hlen rfl (by rw [hB.1]) hB.2⟩
  exact hinv.bijOn (fun B hB => encrypt_block_mem _ hlen hB.1 hB.2)
    (fun B hB => decrypt_block_mem _ hlenr hB.1)

theorem encrypt_of_padded_form (e : DESEncryptor) {p q : Str}
    (h : padLoop (hexForm p) = padLoop (hexForm q)) : e.encrypt p = e.encrypt q := by
  rw [DESEncryptor.encrypt_eq, DESEncryptor.encrypt_eq, h]

/-- C34: for every valid key the distinct inputs `A` (one character, rendered as the
byte hex `41`) and `41` (taken as hex) have the same ciphertext, that of the block
`4100000000000000`. -/
theorem C34_encrypt_not_injective (K : Str) (hK : DESEncryptor.validateKey K = true) :
    ∃ e, DESEncryptor.init K = .ok e ∧ str "A" ≠ str "41" ∧
      stringToHex (str "A") = str "41" ∧
      e.encrypt (str "A") = e.encrypt (str "41") ∧
      e.encrypt (str "A") = e.encrypt (str "4100000000000000") ∧
      e.encrypt (str "4100000000000000")
        = DESEncryptor.blockTransform e.subkeys (str "4100000000000000") := by
  have h1 : padLoop (hexForm (str "A")) = str "4100000000000000" := by decide!
  have h2 : padLoop (hexForm (str "41")) = str "4100000000000000" := by decide!
  have h3 : padLoop (hexForm (str "4100000000000000")) = str "4100000000000000" := by decide!
  have hb : blocksOf 16 (str "4100000000000000") = [str "4100000000000000"] := by decide!
  refine ⟨_, DESEncryptor.init_of_valid hK, by decide, by decide,
    encrypt_of_padded_form _ (h1.trans h2.symm), encrypt_of_padded_form _ (h1.trans h3.symm), ?_⟩
  rw [DESEncryptor.encrypt_eq, h3, hb]
  simp

/-- C36: for every valid key and every input, the output of `encrypt` has only the
characters `0-9A-F` and its length is the least multiple of 16 that is at least `L`,
where `L` is the input length for an even-length string of hex digits and twice
the input length otherwise; and `decrypt` on a string whose length is a multiple
of 16 returns a string of that length with only the characters `0-9A-F`. -/
theorem C36_output_alphabet_and_length (K input c : Str)
    (hK : DESEncryptor.validateKey K = true) (hc : c.length % 16 = 0) :
    ∃ e d, DESEncryptor.init K = .ok e ∧ DESDecryptor.init K = .ok d ∧
      (∀ x ∈ e.encrypt input, x ∈ str "0123456789ABCDEF") ∧
      ((input.length % 2 = 0 ∧ ∀ x ∈ input, x ∈ str "0123456789ABCDEFabcdef") →
        (e.encrypt input).length % 16 = 0 ∧ input.length ≤ (e.encrypt input).length ∧
        ∀ m, input.length ≤ m → m % 16 = 0 → (e.encrypt input).length ≤ m) ∧
      (¬ (input.length % 2 = 0 ∧ ∀ x ∈ input, x ∈ str "0123456789ABCDEFabcdef") →
        (e.encrypt input).length % 16 = 0 ∧ 2 * input.length ≤ (e.encrypt input).length ∧
        ∀ m, 2 * input.length ≤ m → m % 16 = 0 → (e.encrypt input).length ≤ m) ∧
      (∀ x ∈ d.decrypt c, x ∈ str "0123456789ABCDEF") ∧
      (d.decrypt c).length = c.length := by
  have hlen := DESEncryptor.scheduledKeys_length K
  have hlenr : (DESEncryptor.scheduledKeys K).reverse.length = 16 := by
    rw [List.length_reverse, hlen]
  have hL : (DESEncryptor.encrypt ⟨K, DESEncryptor.scheduledKeys K⟩ input).length
      = (hexForm input).length + (16 - (hexForm input).length % 16) % 16 := by
    rw [DESEncryptor.encrypt_length _ hlen, padLoop_eq, List.length_append,
      List.length_replicate]
  refine ⟨⟨K, DESEncryptor.scheduledKeys K⟩, ⟨K, (DESEncryptor.scheduledKeys K).reverse⟩,
    DESEncryptor.init_of_valid hK, DESDecryptor.init_of_valid_key hK,
    encrypt_upper _ input, ?_, ?_, decrypt_upper _ c, decrypt_length _ hlenr hc⟩
  · intro h
    rw [hL, hexForm_of_evenHex h.1 h.2]
    refine ⟨by omega, by omega, fun m h1 h2 => by omega⟩
  · intro h
    rw [hL, hexForm_of_not_evenHex h, stringToHex_length]
    refine ⟨by omega, by omega, fun m h1 h2 => by omega⟩

theorem weak_key_schedule :
    DESEncryptor.scheduledKeys (str "0101010101010101")
      = List.replicate 16 (List.replicate 48 (ch '0')) := by decide!

/-- C37: for the valid key `0101010101010101` all 16 subkeys are 48 characters `'0'`;
the Decryptor holds the same list as the Encryptor, and `encrypt(encrypt(B))` is `B`
for every block `B` of 16 upper-case hex characters. -/
theorem C37_weak_key_involution (B : Str)
    (hB : B.length = 16) (hup : ∀ c ∈ B, c ∈ str "0123456789ABCDEF") :
    DESEncryptor.validateKey (str "0101010101010101") = true ∧
    ∃ e d, DESEncryptor.init (str "0101010101010101") = .ok e ∧
      DESDecryptor.init (str "0101010101010101") = .ok d ∧
      e.subkeys = List.replicate 16 (List.replicate 48 (ch '0')) ∧
      d.subkeys = e.subkeys ∧
      d.decrypt (e.encrypt B) = e.encrypt (e.encrypt B) ∧
      e.encrypt (e.encrypt B) = B := by
  have hv : DESEncryptor.validateKey (str "0101010101010101") = true := by decide
  have hlen := DESEncryptor.scheduledKeys_length (str "0101010101010101")
  have hrev : (DESEncryptor.scheduledKeys (str "0101010101010101")).reverse
      = DESEncryptor.scheduledKeys (str "0101010101010101") := by
    rw [weak_key_schedule, List.reverse_replicate]
  obtain ⟨hel, heu⟩ := encrypt_block_mem
    ⟨str "0101010101010101", DESEncryptor.scheduledKeys (str "0101010101010101")⟩ hlen hB hup
  have hsame : DESDecryptor.decrypt
      ⟨str "0101010101010101", (DESEncryptor.scheduledKeys (str "0101010101010101")).reverse⟩
      (DESEncryptor.encrypt
        ⟨str "0101010101010101", DESEncryptor.scheduledKeys (str "0101010101010101")⟩ B)
      = DESEncryptor.encrypt
        ⟨str "0101010101010101", DESEncryptor.scheduledKeys (str "0101010101010101")⟩
        (DESEncryptor.encrypt
          ⟨str "0101010101010101", DESEncryptor.scheduledKeys (str "0101010101010101")⟩ B) := by
    rw [DESDecryptor.decrypt_eq, encrypt_of_aligned_hex _ (by rw [hel])
      (fun c hc => upper_subset_hex c (heu c hc))]
    show List.flatMap _ (DESEncryptor.blockTransform
      (DESEncryptor.scheduledKeys (str "0101010101010101")).reverse) = _
    rw [hrev]
  refine ⟨hv, _, _, DESEncryptor.init_of_valid hv, DESDecryptor.init_of_valid_key hv,
    weak_key_schedule, hrev, hsame, ?_⟩
  rw [← hsame]
  exact decrypt_encrypt_of_reversed hlen rfl (by rw [hB]) hup

/-- C38: `DESEncryptor::generateRandomKey()` and `Utils::generateKey()` are the constant
`133457799BBCDFF1`, and after `generateKey()` the object, whatever it was before, is
the object that `DESEncryptor("133457799BBCDFF1")` constructs. -/
theorem C38_key_generation_is_constant :
    DESEncryptor.generateRandomKey = str "133457799BBCDFF1" ∧
    Utils.generateKey = str "133457799BBCDFF1" ∧
    ∀ e : DESEncryptor,
      DESEncryptor.init (str "133457799BBCDFF1") = .ok e.generateKey ∧
      e.generateKey.key = str "133457799BBCDFF1" ∧
      e.generateKey.subkeys = DESEncryptor.scheduledKeys (str "133457799BBCDFF1") := by
  refine ⟨rfl, rfl, fun e => ⟨?_, rfl, rfl⟩⟩
  exact DESEncryptor.init_of_valid (by decide)

/-- C40: `hexToBin(binToHex(b))` is `b` for every string `b` of `'0'`/`'1'` whose length
is a multiple of 4; and for every string `h` of hex digits `hexToBin(h)` has length
`4 * |h|` and `binToHex(hexToBin(h))` is `h` with its letters in upper case. -/
theorem C40_hex_binary_codec_lossless (b h : Str)
    (hb : ∀ c ∈ b, c = ch '0' ∨ c = ch '1') (hl : b.length % 4 = 0)
    (hh : ∀ c ∈ h, c ∈ str "0123456789ABCDEFabcdef") :
    hexToBin (binToHex b) = b ∧ (hexToBin h).length = 4 * h.length ∧
      binToHex (hexToBin h) = h.map toUpperHex :=
  ⟨hexToBin_binToHex hb hl, hexToBin_length h,
    binToHex_hexToBin_of_hex (fun c hc => (isHexDigit_iff_mem c).mpr (hh c hc))⟩

theorem last_start_mem {n : Nat} (h : n % 16 ≠ 0) :
    16 * (n / 16) ∈ strideStarts n 16 ∧
    (strideStarts n 16).getLast? = some (16 * (n / 16)) := by
  have hq : (n + 16 - 1) / 16 = n / 16 + 1 := by omega
  unfold strideStarts
  rw [hq]
  constructor
  · exact List.mem_map.mpr ⟨n / 16, List.mem_range.mpr (by omega), by omega⟩
  · rw [List.range_succ, List.map_append, List.map_singleton]
    simp
    exact Nat.mul_comm _ _

theorem last_chunk_length (c : Str) :
    (substr c (16 * (c.length / 16)) 16).length = c.length % 16 := by
  simp only [substr, List.length_take, List.length_drop]
  omega

theorem IP_T_has_64 : 64 ∈ DESEncryptor.IP_T := by decide

theorem blockTransformChecked_short (ks : List Str) {block : Str} (h : block.length < 16) :
    DESEncryptor.blockTransformChecked ks block = none := by
  have hnone : DESEncryptor.pickChecked DESEncryptor.IP_T (hexToBin block) = none :=
    DESEncryptor.pickChecked_eq_none
      ⟨64, IP_T_has_64, by rw [hexToBin_length]; omega⟩
  unfold DESEncryptor.blockTransformChecked
  simp only [hnone, Option.bind_eq_bind, Option.none_bind]

/-- C35: `decrypt` has no length check: for every valid key and every ciphertext
whose length is not a multiple of 16, the last chunk has fewer than 16 characters,
its bit string has fewer than 64 characters, and the initial-permutation loop reads
`blockBin[IP_T[j] - 1]` past its end for some `j`; the bounds-checked run therefore
has no result, while `decrypt` itself raises no exception (the plain run is a total
function returning a string). -/
theorem C35_decrypt_short_chunk_reads_past_end (K c : Str)
    (hK : DESEncryptor.validateKey K = true) (hc : c.length % 16 ≠ 0) :
    ∃ d, DESDecryptor.init K = .ok d ∧
      (strideStarts c.length 16).getLast? = some (16 * (c.length / 16)) ∧
      (substr c (16 * (c.length / 16)) 16).length < 16 ∧
      (hexToBin (substr c (16 * (c.length / 16)) 16)).length < 64 ∧
      (∃ t ∈ DESDecryptor.IP_T,
        (hexToBin (substr c (16 * (c.length / 16)) 16)).length ≤ t - 1) ∧
      DESDecryptor.blockTransformChecked d.subkeys (substr c (16 * (c.length / 16)) 16)
        = none ∧
      d.decryptChecked c = none := by
  have hlast := last_chunk_length c
  have hlt : (substr c (16 * (c.length / 16)) 16).length < 16 := by rw [hlast]; omega
  have hnone := blockTransformChecked_short
    (DESEncryptor.scheduledKeys K).reverse hlt
  refine ⟨_, DESDecryptor.init_of_valid_key hK, (last_start_mem hc).2, hlt,
    by rw [hexToBin_length]; omega, ⟨64, by decide, by rw [hexToBin_length]; omega⟩, ?_, ?_⟩
  · rw [DESDecryptor.blockTransformChecked_eq_encryptor]; exact hnone
  · unfold DESDecryptor.decryptChecked
    rw [if_neg]
    intro hall
    have := List.all_eq_true.mp hall _
      (List.mem_map.mpr ⟨16 * (c.length / 16), (last_start_mem hc).1, rfl⟩)
    rw [DESDecryptor.blockTransformChecked_eq_encryptor] at this
    rw [show DESEncryptor.blockTransformChecked
        (DESDecryptor.mk K (DESEncryptor.scheduledKeys K).reverse).subkeys
        (substr c (16 * (c.length / 16)) 16) = none from hnone] at this
    cases this

/-! ## The calls as runs on the object; ciphertexts of other lengths -/

theorem substr_length_of_start {s : Str} (hs : s.length % 16 = 0) {i : Nat}
    (hi : i ∈ strideStarts s.length 16) : (substr s i 16).length = 16 :=
  (blocksOf_of_dvd (n := 16) (by decide) hs).2 _ (List.mem_map.mpr ⟨i, hi, rfl⟩)

namespace DESEncryptor

theorem sboxFold_eq (self : DESEncryptor) (x : Str) : ∀ (starts : List Nat) (acc : Str),
    starts.foldlM (sboxBody x) (self, acc) =
      if (starts.map fun j => getElementFromBoxChecked (substr x j 6) (j / 6)).all Option.isSome
      then some (self, acc ++ starts.flatMap fun j => getElementFromBox (substr x j 6) (j / 6))
      else none := by
  intro starts
  induction starts with
  | nil => intro acc; simp
  | cons j starts ih =>
    intro acc
    rw [List.foldlM_cons]
    by_cases hc : 5 < (substr x j 6).length ∧ j / 6 < 8 ∧ 0 ≤ sboxRow (substr x j 6) ∧
        sboxRow (substr x j 6) < 4 ∧ 0 ≤ sboxCol (substr x j 6) ∧ sboxCol (substr x j 6) < 16
    · have hg : getElementFromBoxChecked (substr x j 6) (j / 6)
          = some (getElementFromBox (substr x j 6) (j / 6)) := by
        unfold getElementFromBoxChecked; rw [if_pos hc]
      have hstep : sboxBody x (self, acc) j
          = some (self, acc ++ getElementFromBox (substr x j 6) (j / 6)) := by
        simp only [sboxBody, getElementFromBoxRun, hg, Option.map_some', Option.bind_eq_bind,
          Option.some_bind, Option.pure_def]
      rw [hstep, Option.bind_eq_bind, Option.some_bind, ih]
      simp only [List.map_cons, List.all_cons, hg, Option.isSome_some, Bool.true_and,
        List.flatMap_cons, List.append_assoc]
    · have hg : getElementFromBoxChecked (substr x j 6) (j / 6) = none := by
        unfold getElementFromBoxChecked; rw [if_neg hc]
      have hstep : sboxBody x (self, acc) j = none := by
        simp only [sboxBody, getElementFromBoxRun, hg, Option.map_none', Option.bind_eq_bind,
          Option.none_bind]
      rw [hstep, Option.bind_eq_bind, Option.none_bind]
      simp only [List.map_cons, List.all_cons, hg, Option.isSome_none, Bool.false_and]
      rfl

theorem roundBody_eq (self : DESEncryptor) (LR : Str × Str) (round : Nat) :
    roundBody (self, LR) round =
      (roundStepChecked self.subkeys LR round).map fun LR' => (self, LR') := by
  unfold roundBody roundStepChecked
  simp only [Option.bind_eq_bind, Option.pure_def]
  cases pickChecked E_T LR.2 with
  | none => rfl
  | some R48 =>
    simp only [Option.some_bind]
    cases self.subkeys[round]? with
    | none => rfl
    | some subkey =>
      simp only [Option.some_bind, xorAddRun]
      cases xorAddChecked R48 subkey with
      | none => rfl
      | some x =>
        simp only [Option.map_some', Option.some_bind, sboxFold_eq, List.nil_append]
        split
        · simp only [Option.some_bind]
          cases pickChecked P _ with
          | none => rfl
          | some P_R =>
            simp only [Option.some_bind]
            cases xorAddChecked P_R LR.1 with
            | none => rfl
            | some newR => rfl
        · rfl

theorem roundFold_eq (self : DESEncryptor) : ∀ (rs : List Nat) (LR : Str × Str),
    rs.foldlM roundBody (self, LR) =
      (rs.foldlM (roundStepChecked self.subkeys) LR).map fun LR' => (self, LR') := by
  intro rs
  induction rs with
  | nil => intro LR; rfl
  | cons r rs ih =>
    intro LR
    rw [List.foldlM_cons, List.foldlM_cons, roundBody_eq]
    cases roundStepChecked self.subkeys LR r with
    | none => rfl
    | some LR' =>
      simp only [Option.map_some', Option.bind_eq_bind, Option.some_bind]
      exact ih LR'

theorem blockBody_eq (st : EncryptVars) (i : Nat) :
    blockBody st i =
      (blockTransformChecked st.self.subkeys (substr st.plaintextHex i 16)).map fun out =>
        { st with result := st.result ++ out } := by
  unfold blockBody blockTransformChecked
  simp only [Option.bind_eq_bind, Option.pure_def]
  cases pickChecked IP_T (hexToBin (substr st.plaintextHex i 16)) with
  | none => rfl
  | some IP =>
    simp only [Option.some_bind, roundFold_eq]
    cases List.foldlM (roundStepChecked st.self.subkeys) (substr IP 0 32, substr IP 32 32)
        (List.range 16) with
    | none => rfl
    | some LR =>
      simp only [Option.map_some', Option.some_bind]
      cases pickChecked P_1 (LR.2 ++ LR.1) with
      | none => rfl
      | some fp => rfl

theorem foldlM_blockBody {ks : List Str} (hlen : ks.length = 16)
    (hk : ∀ k ∈ ks, 48 ≤ k.length) (key text : Str) :
    ∀ (starts : List Nat) (res : Str), (∀ i ∈ starts, (substr text i 16).length = 16) →
      starts.foldlM blockBody ⟨⟨key, ks⟩, text, res⟩ =
        some ⟨⟨key, ks⟩, text, res ++ starts.flatMap fun i => blockTransform ks (substr text i 16)⟩ := by
  intro starts
  induction starts with
  | nil => intro res _; simp
  | cons i starts ih =>
    intro res h
    have hb := blockTransformChecked_eq_some hlen hk (h i (List.mem_cons_self i starts))
    rw [List.foldlM_cons]
    have hstep : blockBody ⟨⟨key, ks⟩, text, res⟩ i
        = some ⟨⟨key, ks⟩, text, res ++ blockTransform ks (substr text i 16)⟩ := by
      rw [blockBody_eq]
      simp only [hb, Option.map_some']
    rw [hstep, Option.bind_eq_bind, Option.some_bind,
      ih _ (fun j hj => h j (List.mem_cons_of_mem i hj))]
    simp [List.append_assoc]

theorem encryptRun_eq (self : DESEncryptor) (hlen : self.subkeys.length = 16)
    (hk : ∀ k ∈ self.subkeys, 48 ≤ k.length) (p : Str) :
    self.encryptRun p = some (self.encrypt p, self) := by
  obtain ⟨key, ks⟩ := self
  unfold encryptRun
  simp only
  rw [foldlM_blockBody hlen hk key _ _ []
    (fun i hi => substr_length_of_start (padLoop_length_mod _) hi)]
  simp only [Option.map_some', List.nil_append]
  rfl

theorem afterEncrypts_eq (self : DESEncryptor) (hlen : self.subkeys.length = 16)
    (hk : ∀ k ∈ self.subkeys, 48 ≤ k.length) (qs : List Str) :
    self.afterEncrypts qs = some self := by
  unfold afterEncrypts
  induction qs with
  | nil => rfl
  | cons q qs ih =>
    rw [List.foldlM_cons, encryptRun_eq self hlen hk q]
    exact ih

end DESEncryptor

namespace DESDecryptor

theorem sboxFold_decrypt_eq (self : DESDecryptor) (x : Str) : ∀ (starts : List Nat) (acc : Str),
    starts.foldlM (sboxBody x) (self, acc) =
      if (starts.map fun j => getElementFromBoxChecked (substr x j 6) (j / 6)).all Option.isSome
      then some (self, acc ++ starts.flatMap fun j => getElementFromBox (substr x j 6) (j / 6))
      else none := by
  intro starts
  induction starts with
  | nil => intro acc; simp
  | cons j starts ih =>
    intro acc
    rw [List.foldlM_cons]
    by_cases hc : 5 < (substr x j 6).length ∧ j / 6 < 8 ∧ 0 ≤ sboxRow (substr x j 6) ∧
        sboxRow (substr x j 6) < 4 ∧ 0 ≤ sboxCol (substr x j 6) ∧ sboxCol (substr x j 6) < 16
    · have hg : getElementFromBoxChecked (substr x j 6) (j / 6)
          = some (getElementFromBox (substr x j 6) (j / 6)) := by
        unfold getElementFromBoxChecked; rw [if_pos hc]
      have hstep : sboxBody x (self, acc) j
          = some (self, acc ++ getElementFromBox (substr x j 6) (j / 6)) := by
        simp only [sboxBody, getElementFromBoxRun, hg, Option.map_some', Option.bind_eq_bind,
          Option.some_bind, Option.pure_def]
      rw [hstep, Option.bind_eq_bind, Option.some_bind, ih]
      simp only [List.map_cons, List.all_cons, hg, Option.isSome_some, Bool.true_and,
        List.flatMap_cons, List.append_assoc]
    · have hg : getElementFromBoxChecked (substr x j 6) (j / 6) = none := by
        unfold getElementFromBoxChecked; rw [if_neg hc]
      have hstep : sboxBody x (self, acc) j = none := by
        simp only [sboxBody, getElementFromBoxRun, hg, Option.map_none', Option.bind_eq_bind,
          Option.none_bind]
      rw [hstep, Option.bind_eq_bind, Option.none_bind]
      simp only [List.map_cons, List.all_cons, hg, Option.isSome_none, Bool.false_and]
      rfl

theorem roundBody_decrypt_eq (self : DESDecryptor) (LR : Str × Str) (round : Nat) :
    roundBody (self, LR) round =
      (roundStepChecked self.subkeys LR round).map fun LR' => (self, LR') := by
  unfold roundBody roundStepChecked
  simp only [Option.bind_eq_bind, Option.pure_def]
  cases pickChecked E_T LR.2 with
  | none => rfl
  | some R48 =>
    simp only [Option.some_bind]
    cases self.subkeys[round]? with
    | none => rfl
    | some subkey =>
      simp only [Option.some_bind, xorAddRun]
      cases xorAddChecked R48 subkey with
      | none => rfl
      | some x =>
        simp only [Option.map_some', Option.some_bind, sboxFold_decrypt_eq, List.nil_append]
        split
        · simp only [Option.some_bind]
          cases pickChecked P _ with
          | none => rfl
          | some P_R =>
            simp only [Option.some_bind]
            cases xorAddChecked P_R LR.1 with
            | none => rfl
            | some newR => rfl
        · rfl

theorem roundFold_decrypt_eq (self : DESDecryptor) : ∀ (rs : List Nat) (LR : Str × Str),
    rs.foldlM roundBody (self, LR) =
      (rs.foldlM (roundStepChecked self.subkeys) LR).map fun LR' => (self, LR') := by
  intro rs
  induction rs with
  | nil => intro LR; rfl
  | cons r rs ih =>
    intro LR
    rw [List.foldlM_cons, List.foldlM_cons, roundBody_decrypt_eq]
    cases roundStepChecked self.subkeys LR r with
    | none => rfl
    | some LR' =>
      simp only [Option.map_some', Option.bind_eq_bind, Option.some_bind]
      exact ih LR'

theorem blockBody_decrypt_eq (st : DecryptVars) (i : Nat) :
    blockBody st i =
      (blockTransformChecked st.self.subkeys (substr st.ciphertext i 16)).map fun out =>
        { st with result := st.result ++ out } := by
  unfold blockBody blockTransformChecked
  simp only [Option.bind_eq_bind, Option.pure_def]
  cases pickChecked IP_T (hexToBin (substr st.ciphertext i 16)) with
  | none => rfl
  | some IP =>
    simp only [Option.some_bind, roundFold_decrypt_eq]
    cases List.foldlM (roundStepChecked st.self.subkeys) (substr IP 0 32, substr IP 32 32)
        (List.range 16) with
    | none => rfl
    | some LR =>
      simp only [Option.map_some', Option.some_bind]
      cases pickChecked P_1 (LR.2 ++ LR.1) with
      | none => rfl
      | some fp => rfl

theorem foldlM_decryptBody {ks : List Str} (hlen : ks.length = 16)
    (hk : ∀ k ∈ ks, 48 ≤ k.length) (key text : Str) :
    ∀ (starts : List Nat) (res : Str), (∀ i ∈ starts, (substr text i 16).length = 16) →
      starts.foldlM blockBody ⟨⟨key, ks⟩, text, res⟩ =
        some ⟨⟨key, ks⟩, text, res ++ starts.flatMap fun i => blockTransform ks (substr text i 16)⟩ := by
  intro starts
  induction starts with
  | nil => intro res _; simp
  | cons i starts ih =>
    intro res h
    have hb : blockTransformChecked ks (substr text i 16)
        = some (blockTransform ks (substr text i 16)) := by
      rw [blockTransformChecked_eq_encryptor, blockTransform_eq_encryptor]
      exact DESEncryptor.blockTransformChecked_eq_some hlen hk (h i (List.mem_cons_self i starts))
    rw [List.foldlM_cons]
    have hstep : blockBody ⟨⟨key, ks⟩, text, res⟩ i
        = some ⟨⟨key, ks⟩, text, res ++ blockTransform ks (substr text i 16)⟩ := by
      rw [blockBody_decrypt_eq]
      simp only [hb, Option.map_some']
    rw [hstep, Option.bind_eq_bind, Option.some_bind,
      ih _ (fun j hj => h j (List.mem_cons_of_mem i hj))]
    simp [List.append_assoc]

theorem decryptRun_eq (self : DESDecryptor) (hlen : self.subkeys.length = 16)
    (hk : ∀ k ∈ self.subkeys, 48 ≤ k.length) {c : Str} (hc : c.length % 16 = 0) :
    self.decryptRun c = some (self.decrypt c, self) := by
  obtain ⟨key, ks⟩ := self
  unfold decryptRun
  rw [foldlM_decryptBody hlen hk key _ _ [] (fun i hi => substr_length_of_start hc hi)]
  simp only [Option.map_some', List.nil_append]
  rfl

theorem afterDecrypts_eq (self : DESDecryptor) (hlen : self.subkeys.length = 16)
    (hk : ∀ k ∈ self.subkeys, 48 ≤ k.length) :
    ∀ qs : List Str, (∀ q ∈ qs, q.length % 16 = 0) → self.afterDecrypts qs = some self := by
  intro qs
  unfold afterDecrypts
  induction qs with
  | nil => intro _; rfl
  | cons q qs ih =>
    intro h
    rw [List.foldlM_cons, decryptRun_eq self hlen hk (h q (List.mem_cons_self q qs))]
    exact ih (fun x hx => h x (List.mem_cons_of_mem q hx))

theorem foldlM_blockBody_short (text : Str) {i0 : Nat} (hshort : (substr text i0 16).length < 16) :
    ∀ (starts : List Nat), i0 ∈ starts → ∀ (self : DESDecryptor) (res : Str),
      starts.foldlM blockBody ⟨self, text, res⟩ = none := by
  intro starts
  induction starts with
  | nil => intro h; cases h
  | cons i starts ih =>
    intro hmem self res
    rw [List.foldlM_cons]
    cases hb : blockTransformChecked self.subkeys (substr text i 16) with
    | none =>
      have hstep : blockBody ⟨self, text, res⟩ i = none := by
        rw [blockBody_decrypt_eq]
        simp only [hb, Option.map_none']
      rw [hstep]; rfl
    | some out =>
      have hne : i0 ≠ i := by
        rintro rfl
        rw [blockTransformChecked_eq_encryptor, blockTransformChecked_short _ hshort] at hb
        cases hb
      have hmem2 : i0 ∈ starts := by
        rcases List.mem_cons.mp hmem with h | h
        · exact absurd h hne
        · exact h
      have hstep : blockBody ⟨self, text, res⟩ i = some ⟨self, text, res ++ out⟩ := by
        rw [blockBody_decrypt_eq]
        simp only [hb, Option.map_some']
      rw [hstep, Option.bind_eq_bind, Option.some_bind]
      exact ih hmem2 self _

theorem decryptRun_misaligned (self : DESDecryptor) {c : Str} (hc : c.length % 16 ≠ 0) :
    self.decryptRun c = none := by
  unfold decryptRun
  rw [foldlM_blockBody_short c (by rw [last_chunk_length]; omega) _ (last_start_mem hc).1]
  rfl

theorem decryptChecked_misaligned (self : DESDecryptor) {c : Str} (hc : c.length % 16 ≠ 0) :
    self.decryptChecked c = none := by
  unfold decryptChecked
  rw [if_neg]
  intro hall
  have h := List.all_eq_true.mp hall _
    (List.mem_map.mpr ⟨16 * (c.length / 16), (last_start_mem hc).1, rfl⟩)
  rw [blockTransformChecked_eq_encryptor,
    blockTransformChecked_short _ (by rw [last_chunk_length]; omega)] at h
  cases h

end DESDecryptor

namespace DESEncryptor

theorem foldlM_blockBody_self : ∀ (starts : List Nat) (st st' : EncryptVars),
    starts.foldlM blockBody st = some st' → st'.self = st.self := by
  intro starts
  induction starts with
  | nil =>
    intro st st' h
    cases h
    rfl
  | cons i starts ih =>
    intro st st' h
    rw [List.foldlM_cons] at h
    cases hb : blockTransformChecked st.self.subkeys (substr st.plaintextHex i 16) with
    | none =>
      have hstep : blockBody st i = none := by
        rw [blockBody_eq]
        simp only [hb, Option.map_none']
      rw [hstep] at h
      cases h
    | some out =>
      have hstep : blockBody st i = some { st with result := st.result ++ out } := by
        rw [blockBody_eq]
        simp only [hb, Option.map_some']
      rw [hstep, Option.bind_eq_bind, Option.some_bind] at h
      exact (ih _ _ h).trans rfl

theorem encryptRun_self {self : DESEncryptor} {p : Str} {r : Str × DESEncryptor}
    (h : self.encryptRun p = some r) : r.2 = self := by
  unfold encryptRun at h
  simp only [Option.map_eq_some'] at h
  obtain ⟨st, hst, rfl⟩ := h
  exact foldlM_blockBody_self _ _ _ hst

end DESEncryptor

namespace DESDecryptor

theorem foldlM_decryptBody_self : ∀ (starts : List Nat) (st st' : DecryptVars),
    starts.foldlM blockBody st = some st' → st'.self = st.self := by
  intro starts
  induction starts with
  | nil =>
    intro st st' h
    cases h
    rfl
  | cons i starts ih =>
    intro st st' h
    rw [List.foldlM_cons] at h
    cases hb : blockTransformChecked st.self.subkeys (substr st.ciphertext i 16) with
    | none =>
      have hstep : blockBody st i = none := by
        rw [blockBody_decrypt_eq]
        simp only [hb, Option.map_none']
      rw [hstep] at h
      cases h
    | some out =>
      have hstep : blockBody st i = some { st with result := st.result ++ out } := by
        rw [blockBody_decrypt_eq]
        simp only [hb, Option.map_some']
      rw [hstep, Option.bind_eq_bind, Option.some_bind] at h
      exact (ih _ _ h).trans rfl

theorem decryptRun_self {self : DESDecryptor} {c : Str} {r : Str × DESDecryptor}
    (h : self.decryptRun c = some r) : r.2 = self := by
  unfold decryptRun at h
  simp only [Option.map_eq_some'] at h
  obtain ⟨st, hst, rfl⟩ := h
  exact foldlM_decryptBody_self _ _ _ hst

end DESDecryptor

/-- C16 (as stated, refuted): the valid keys `133457799BBCDFF1` and `123456789ABCDEF0`
agree on every bit outside positions 8, 16, ..., 64, and for the 14-character input
`85E813540F0AB4` the call of `decrypt` reads past the end of the bit string of its
only chunk under either key: no output is defined to be equal. -/
theorem C16_misaligned_ciphertext_counterexample :
    DESEncryptor.validateKey (str "133457799BBCDFF1") = true ∧
    DESEncryptor.validateKey (str "123456789ABCDEF0") = true ∧
    (∀ j < 64, (j + 1) % 8 ≠ 0 →
      charAt (hexToBin (str "133457799BBCDFF1")) j
        = charAt (hexToBin (str "123456789ABCDEF0")) j) ∧
    ∃ d1 d2, DESDecryptor.init (str "133457799BBCDFF1") = .ok d1 ∧
      DESDecryptor.init (str "123456789ABCDEF0") = .ok d2 ∧
      d1.decryptChecked (str "85E813540F0AB4") = none ∧
      d2.decryptChecked (str "85E813540F0AB4") = none :=
  ⟨by decide, by decide, by decide!, _, _,
    DESDecryptor.init_of_valid_key (by decide), DESDecryptor.init_of_valid_key (by decide),
    DESDecryptor.decryptChecked_misaligned _ (by decide),
    DESDecryptor.decryptChecked_misaligned _ (by decide)⟩

/-- C16 (amended): two valid keys whose 64-bit strings agree at every position
except possibly positions 8, 16, ..., 64 (index `j` below is the position minus
one) give equal subkey lists to the Encryptor and to the Decryptor; hence `encrypt`
returns equal results on every input, and `decrypt` returns equal results on every
input whose length is a multiple of 16, with every read in range. -/
theorem C16_parity_bits_are_ignored (K1 K2 : Str)
    (h1 : DESEncryptor.validateKey K1 = true) (h2 : DESEncryptor.validateKey K2 = true)
    (hagree : ∀ j < 64, (j + 1) % 8 ≠ 0 →
      charAt (hexToBin K1) j = charAt (hexToBin K2) j) :
    ∃ e1 e2 d1 d2, DESEncryptor.init K1 = .ok e1 ∧ DESEncryptor.init K2 = .ok e2 ∧
      DESDecryptor.init K1 = .ok d1 ∧ DESDecryptor.init K2 = .ok d2 ∧
      e1.subkeys = e2.subkeys ∧ d1.subkeys = d2.subkeys ∧
      (∀ p, e1.encrypt p = e2.encrypt p) ∧
      (∀ p, e1.encryptChecked p = some (e1.encrypt p) ∧
        e2.encryptChecked p = some (e1.encrypt p)) ∧
      (∀ c, c.length % 16 = 0 →
        d1.decryptChecked c = some (d1.decrypt c) ∧
        d2.decryptChecked c = some (d1.decrypt c)) := by
  have hs : DESEncryptor.scheduledKeys K1 = DESEncryptor.scheduledKeys K2 := by
    apply scheduledKeys_of_processKey
    rw [DESEncryptor.processKey_eq_pick, DESEncryptor.processKey_eq_pick]
    exact pick_congr (fun t ht =>
      hagree (t - 1) (PC_1_skips_parity t ht).1 (PC_1_skips_parity t ht).2)
  have hd : (DESEncryptor.scheduledKeys K1).reverse = (DESEncryptor.scheduledKeys K2).reverse := by
    rw [hs]
  have hl1 := DESEncryptor.validateKey_length h1
  have hl2 := DESEncryptor.validateKey_length h2
  have hg1 := forall_48_le_of_good (DESEncryptor.scheduledKeys_good hl1)
  have hg2 := forall_48_le_of_good (DESEncryptor.scheduledKeys_good hl2)
  have hn1 := DESEncryptor.scheduledKeys_length K1
  have hn2 := DESEncryptor.scheduledKeys_length K2
  have henc : ∀ p, DESEncryptor.encrypt ⟨K1, DESEncryptor.scheduledKeys K1⟩ p
      = DESEncryptor.encrypt ⟨K2, DESEncryptor.scheduledKeys K2⟩ p := encrypt_of_subkeys hs
  have hdec : ∀ c, DESDecryptor.decrypt ⟨K1, (DESEncryptor.scheduledKeys K1).reverse⟩ c
      = DESDecryptor.decrypt ⟨K2, (DESEncryptor.scheduledKeys K2).reverse⟩ c :=
    decrypt_of_subkeys hd
  refine ⟨_, _, _, _, DESEncryptor.init_of_valid h1, DESEncryptor.init_of_valid h2,
    DESDecryptor.init_of_valid_key h1, DESDecryptor.init_of_valid_key h2, hs, hd,
    henc, fun p => ⟨DESEncryptor.encryptChecked_eq_some _ hn1 hg1 p, ?_⟩,
    fun c hc => ⟨DESDecryptor.decryptChecked_eq_some _
      (by rw [List.length_reverse]; exact hn1)
      (fun k hk => hg1 k (List.mem_reverse.mp hk)) hc, ?_⟩⟩
  · rw [henc p]
    exact DESEncryptor.encryptChecked_eq_some _ hn2 hg2 p
  · rw [hdec c]
    exact DESDecryptor.decryptChecked_eq_some _ (by rw [List.length_reverse]; exact hn2)
      (fun k hk => hg2 k (List.mem_reverse.mp hk)) hc

/-- C30 (as stated, refuted): under the valid key `133457799BBCDFF1` the call of
`decrypt` on the 14-character input `85E813540F0AB4` reads past the end of the bit
string of its only chunk, so the call has no defined output to be repeated. -/
theorem C30_misaligned_decrypt_counterexample :
    DESEncryptor.validateKey (str "133457799BBCDFF1") = true ∧
    ∃ d, DESDecryptor.init (str "133457799BBCDFF1") = .ok d ∧
      d.decryptRun (str "85E813540F0AB4") = none ∧
      ¬ ∃ out d', d.decryptRun (str "85E813540F0AB4") = some (out, d') :=
  ⟨by decide, _, DESDecryptor.init_of_valid_key (by decide),
    DESDecryptor.decryptRun_misaligned _ (by decide),
    fun ⟨out, d', h⟩ => by
      rw [DESDecryptor.decryptRun_misaligned _ (by decide)] at h
      cases h⟩

/-- C30 (amended): a call of `encrypt` or `decrypt` that returns leaves the object
(stored key and subkey list) as it was, whatever the object and the input.  For
every valid key, `encrypt` returns on every input and `decrypt` on every input
whose length is a multiple of 16; and a first call, then calls on any list of
other such inputs, then a second call with the first input, all on one object,
return at the second call what the first call returned. -/
theorem C30_encrypt_decrypt_leave_object (K p c : Str) (qs cs : List Str)
    (hK : DESEncryptor.validateKey K = true)
    (hc : c.length % 16 = 0) (hcs : ∀ q ∈ cs, q.length % 16 = 0) :
    (∀ (x : DESEncryptor) (q : Str) (r : Str × DESEncryptor),
      x.encryptRun q = some r → r.2.key = x.key ∧ r.2.subkeys = x.subkeys) ∧
    (∀ (y : DESDecryptor) (q : Str) (r : Str × DESDecryptor),
      y.decryptRun q = some r → r.2.key = y.key ∧ r.2.subkeys = y.subkeys) ∧
    ∃ e d, DESEncryptor.init K = .ok e ∧ DESDecryptor.init K = .ok d ∧
      e.encryptRun p = some (e.encrypt p, e) ∧
      d.decryptRun c = some (d.decrypt c, d) ∧
      ((e.encryptRun p).bind fun r =>
        (r.2.afterEncrypts qs).bind fun e' => e'.encryptRun p) = some (e.encrypt p, e) ∧
      ((d.decryptRun c).bind fun r =>
        (r.2.afterDecrypts cs).bind fun d' => d'.decryptRun c) = some (d.decrypt c, d) := by
  have hl := DESEncryptor.validateKey_length hK
  have hlen := DESEncryptor.scheduledKeys_length K
  have hgood := forall_48_le_of_good (DESEncryptor.scheduledKeys_good hl)
  have hlenr : (DESEncryptor.scheduledKeys K).reverse.length = 16 := by
    rw [List.length_reverse, hlen]
  have hgoodr : ∀ k ∈ (DESEncryptor.scheduledKeys K).reverse, 48 ≤ k.length :=
    fun k hk => hgood k (List.mem_reverse.mp hk)
  have he := DESEncryptor.encryptRun_eq ⟨K, DESEncryptor.scheduledKeys K⟩ hlen hgood p
  have hd := DESDecryptor.decryptRun_eq ⟨K, (DESEncryptor.scheduledKeys K).reverse⟩
    hlenr hgoodr hc
  refine ⟨fun x q r h => by rw [DESEncryptor.encryptRun_self h]; exact ⟨rfl, rfl⟩,
    fun y q r h => by rw [DESDecryptor.decryptRun_self h]; exact ⟨rfl, rfl⟩,
    _, _, DESEncryptor.init_of_valid hK, DESDecryptor.init_of_valid_key hK, he, hd, ?_, ?_⟩
  · rw [he, Option.some_bind,
      DESEncryptor.afterEncrypts_eq _ hlen hgood qs, Option.some_bind]
    exact he
  · rw [hd, Option.some_bind,
      DESDecryptor.afterDecrypts_eq _ hlenr hgoodr cs hcs, Option.some_bind]
    exact hd

/-! ## The complementation property -/

theorem flipBit_flipBit : ∀ c : Byte, flipBit (flipBit c) = c := by decide!

theorem flipBit_eq_iff {a b : Byte} : flipBit a = flipBit b ↔ a = b :=
  ⟨fun h => by rw [← flipBit_flipBit a, h, flipBit_flipBit], fun h => by rw [h]⟩

theorem charAt_flipBits (s : Str) (i : Nat) : charAt (flipBits s) i = flipBit (charAt s i) := by
  unfold charAt flipBits
  exact List.getD_map (f := flipBit) (d := (0 : Byte)) (l := s) (n := i)

theorem flipBits_length (s : Str) : (flipBits s).length = s.length := List.length_map _ _

theorem pick_flipBits (t : List Nat) (s : Str) : pick t (flipBits s) = flipBits (pick t s) := by
  unfold pick flipBits
  rw [List.map_map]
  exact List.map_congr_left (fun i _ => charAt_flipBits s (i - 1))

theorem substr_flipBits (s : Str) (p n : Nat) :
    substr (flipBits s) p n = flipBits (substr s p n) := by
  unfold substr flipBits
  rw [List.map_take, List.map_drop]

theorem flipBits_append (a b : Str) : flipBits (a ++ b) = flipBits a ++ flipBits b :=
  List.map_append _ _ _

theorem isBits_flipBits {s : Str} (h : IsBits s) : IsBits (flipBits s) := by
  intro c hc
  obtain ⟨x, hx, rfl⟩ := List.mem_map.mp hc
  rcases h x hx with rfl | rfl
  · exact Or.inr (by decide)
  · exact Or.inl (by decide)

namespace DESEncryptor

theorem xorAdd_flipBits_both (a b : Str) : xorAdd (flipBits a) (flipBits b) = xorAdd a b := by
  unfold xorAdd
  rw [flipBits_length]
  refine List.map_congr_left (fun j _ => ?_)
  rw [charAt_flipBits, charAt_flipBits]
  by_cases h : charAt a j = charAt b j
  · rw [if_neg (not_not.mpr h), if_neg (not_not.mpr (flipBit_eq_iff.mpr h))]
  · rw [if_pos h, if_pos (fun h2 => h (flipBit_eq_iff.mp h2))]

theorem xorAdd_flipBits_right {a b : Str} (ha : IsBits a) (hb : IsBits b)
    (hl : a.length ≤ b.length) : xorAdd a (flipBits b) = flipBits (xorAdd a b) := by
  unfold xorAdd flipBits
  rw [List.map_map]
  refine List.map_congr_left (fun j hj => ?_)
  have hja : j < a.length := List.mem_range.mp hj
  have h1 := ha _ (charAt_mem hja)
  have h2 := hb _ (charAt_mem (Nat.lt_of_lt_of_le hja hl))
  have h3 := charAt_flipBits b j
  unfold flipBits at h3
  simp only [Function.comp_apply]
  rw [h3]
  rcases h1 with h1 | h1 <;> rcases h2 with h2 | h2 <;> rw [h1, h2] <;> decide

theorem feistel_flipBits (k R : Str) : feistel (flipBits k) (flipBits R) = feistel k R := by
  unfold feistel
  rw [pick_flipBits, xorAdd_flipBits_both]

theorem roundStep_flipBits (k : Str) {LR : Str × Str} (h : GoodHalves LR) :
    roundStep (flipBits k) (flipBits LR.1, flipBits LR.2) =
      (flipBits (roundStep k LR).1, flipBits (roundStep k LR).2) := by
  rw [roundStep_eq, roundStep_eq]
  simp only
  rw [feistel_flipBits, xorAdd_flipBits_right (feistel_isBits k LR.2) h.2.2.1
    (by rw [feistel_length, h.1])]

theorem rounds_flipBits (ks : List Str) : ∀ {LR : Str × Str}, GoodHalves LR →
    rounds (ks.map flipBits) (flipBits LR.1, flipBits LR.2) =
      (flipBits (rounds ks LR).1, flipBits (rounds ks LR).2) := by
  induction ks with
  | nil => intro LR _; rfl
  | cons k ks ih =>
    intro LR h
    have hstep := roundStep_flipBits k h
    have hgood := roundStep_good k h
    show rounds (ks.map flipBits) (roundStep (flipBits k) (flipBits LR.1, flipBits LR.2)) = _
    rw [hstep, ih hgood]
    rfl

theorem halves_flipBits (s : Str) :
    halves (flipBits s) = (flipBits (halves s).1, flipBits (halves s).2) := by
  unfold halves
  rw [substr_flipBits, substr_flipBits]

theorem shiftBit_flipBits (s : Str) (n : Nat) :
    shiftBit (flipBits s) n = flipBits (shiftBit s n) := by
  unfold shiftBit
  rw [flipBits_length, flipBits_append]
  unfold flipBits
  rw [List.map_map, List.map_map]
  congr 1
  · exact List.map_congr_left (fun d _ => charAt_flipBits s (n + d))
  · exact List.map_congr_left (fun d _ => charAt_flipBits s d)

theorem rotatedHalf_flipBits (half : Str) :
    ∀ i, rotatedHalf (flipBits half) i = flipBits (rotatedHalf half i)
  | 0 => shiftBit_flipBits half _
  | i + 1 => by
    show shiftBit (rotatedHalf (flipBits half) i) _ = flipBits (shiftBit (rotatedHalf half i) _)
    rw [rotatedHalf_flipBits half i, shiftBit_flipBits]

end DESEncryptor

theorem hexToBin_complDigit : ∀ c : Byte, isHexDigit c = true →
    hexToBin [complDigit c] = flipBits (hexToBin [c]) := by decide!

theorem complDigit_upper : ∀ c : Byte, isHexDigit c = true →
    complDigit c ∈ str "0123456789ABCDEF" := by decide!

theorem hexToBin_complHex {s : Str} (h : ∀ c ∈ s, isHexDigit c = true) :
    hexToBin (complHex s) = flipBits (hexToBin s) := by
  induction s with
  | nil => rfl
  | cons c s ih =>
    have hc := hexToBin_complDigit c (h c (List.mem_cons_self c s))
    have hs := ih (fun x hx => h x (List.mem_cons_of_mem c hx))
    have e1 : hexToBin (complHex (c :: s)) = hexToBin [complDigit c] ++ hexToBin (complHex s) := by
      rw [hexToBin_eq_flatMap (complHex (c :: s)), hexToBin_eq_flatMap (complHex s)]
      simp [complHex]
    have e2 : hexToBin (c :: s) = hexToBin [c] ++ hexToBin s := by
      rw [hexToBin_eq_flatMap (c :: s), hexToBin_eq_flatMap s]
      simp
    rw [e1, e2, hc, hs, flipBits_append]

theorem complHex_upper {s : Str} (h : ∀ c ∈ s, isHexDigit c = true) :
    ∀ c ∈ complHex s, c ∈ str "0123456789ABCDEF" := by
  intro c hc
  obtain ⟨x, hx, rfl⟩ := List.mem_map.mp hc
  exact complDigit_upper x (h x hx)

theorem binToHex_flipBits {b : Str} (hb : IsBits b) (hl : b.length % 4 = 0) :
    binToHex (flipBits b) = complHex (binToHex b) := by
  have hhex : ∀ c ∈ binToHex b, isHexDigit c = true := fun c hc =>
    isHexDigit_of_upper c ((isUpperHexDigit_iff_mem c).mpr (binToHex_upper b c hc))
  have h1 : flipBits b = hexToBin (complHex (binToHex b)) := by
    rw [hexToBin_complHex hhex, hexToBin_binToHex hb hl]
  rw [h1, binToHex_hexToBin_of_upper (complHex_upper hhex)]

namespace DESEncryptor

theorem scheduledKeys_complHex {K : Str} (h : ∀ c ∈ K, isHexDigit c = true) :
    scheduledKeys (complHex K) = (scheduledKeys K).map flipBits := by
  unfold scheduledKeys
  simp only [processKey_eq_pick]
  rw [hexToBin_complHex h, pick_flipBits, substr_flipBits, substr_flipBits, List.map_map]
  refine List.map_congr_left (fun i _ => ?_)
  simp only [Function.comp_apply]
  rw [rotatedHalf_flipBits, rotatedHalf_flipBits, ← flipBits_append]
  exact pick_flipBits PC_2 _

theorem blockTransform_complHex {ks : List Str} (hk : ks.length = 16) {B : Str}
    (hB : B.length = 16) (hhex : ∀ c ∈ B, isHexDigit c = true) :
    blockTransform (ks.map flipBits) (complHex B) = complHex (blockTransform ks B) := by
  have hIP : GoodHalves (halves (pick IP_T (hexToBin B))) :=
    halves_good (pick_isBits (hexToBin_isBits B)
      (fun i hi => by rw [hexToBin_length, hB]; exact IP_T_in_range i hi))
      (by rw [pick_length]; rfl)
  have hR := rounds_good ks hIP
  rw [blockTransform_eq (by rw [List.length_map, hk]), blockTransform_eq hk,
    hexToBin_complHex hhex, pick_flipBits, halves_flipBits, rounds_flipBits ks hIP]
  simp only
  rw [← flipBits_append, pick_flipBits]
  refine binToHex_flipBits (pick_isBits (isBits_append hR.2.2.2 hR.2.2.1) ?_) ?_
  · intro i hi
    rw [List.length_append, hR.1, hR.2.1]
    exact P_1_in_range i hi
  · rw [pick_length]; rfl

end DESEncryptor

theorem blocksOf_single {B : Str} (hB : B.length = 16) : blocksOf 16 B = [B] := by
  have h := blocksOf_append (show 0 < 16 by decide) hB []
  rwa [List.append_nil, blocksOf_nil] at h

theorem encrypt_single (e : DESEncryptor) {B : Str} (hB : B.length = 16)
    (hhex : ∀ c ∈ B, c ∈ str "0123456789ABCDEFabcdef") :
    e.encrypt B = DESEncryptor.blockTransform e.subkeys B := by
  rw [encrypt_of_aligned_hex e (by rw [hB]) hhex, blocksOf_single hB]
  simp

/-- C33: the complementation property of DES.  For every valid key `K` and every
block `B` of 16 hex characters, the complement of `K` (every hex digit `d` replaced
by `15 - d`) is a valid key whose bit string is the bitwise complement of that of
`K`, and encrypting the complement of `B` under it gives the complement of the
encryption of `B` under `K`, as hex strings and as 64-bit strings. -/
theorem C33_complementation (K B : Str) (hK : DESEncryptor.validateKey K = true)
    (hB : B.length = 16) (hhex : ∀ c ∈ B, c ∈ str "0123456789ABCDEFabcdef") :
    ∃ e e', DESEncryptor.init K = .ok e ∧ DESEncryptor.init (complHex K) = .ok e' ∧
      hexToBin (complHex K) = flipBits (hexToBin K) ∧
      hexToBin (complHex B) = flipBits (hexToBin B) ∧
      e'.encrypt (complHex B) = complHex (e.encrypt B) ∧
      hexToBin (e'.encrypt (complHex B)) = flipBits (hexToBin (e.encrypt B)) := by
  obtain ⟨hKl, hKm⟩ := (validateKey_iff K).mp hK
  have hKh : ∀ c ∈ K, isHexDigit c = true := fun c hc => (isHexDigit_iff_mem c).mpr (hKm c hc)
  have hBh : ∀ c ∈ B, isHexDigit c = true := fun c hc => (isHexDigit_iff_mem c).mpr (hhex c hc)
  have hK' : DESEncryptor.validateKey (complHex K) = true :=
    (validateKey_iff _).mpr ⟨by rw [complHex, List.length_map, hKl],
      fun c hc => upper_subset_hex c (complHex_upper hKh c hc)⟩
  have henc : DESEncryptor.encrypt ⟨complHex K, DESEncryptor.scheduledKeys (complHex K)⟩
      (complHex B) = complHex (DESEncryptor.encrypt ⟨K, DESEncryptor.scheduledKeys K⟩ B) := by
    rw [encrypt_single _ (by rw [complHex, List.length_map, hB])
        (fun c hc => upper_subset_hex c (complHex_upper hBh c hc)),
      encrypt_single _ hB hhex]
    show DESEncryptor.blockTransform (DESEncryptor.scheduledKeys (complHex K)) _ = _
    rw [DESEncryptor.scheduledKeys_complHex hKh]
    exact DESEncryptor.blockTransform_complHex (DESEncryptor.scheduledKeys_length K) hB hBh
  refine ⟨_, _, DESEncryptor.init_of_valid hK, DESEncryptor.init_of_valid hK',
    hexToBin_complHex hKh, hexToBin_complHex hBh, henc, ?_⟩
  rw [henc]
  exact hexToBin_complHex (fun c hc =>
    isHexDigit_of_upper c ((isUpperHexDigit_iff_mem c).mpr (encrypt_upper _ B c hc)))

/-! ## Instances of the properties at concrete inputs -/

theorem C2_block_roundtrip_uppercased_witness :
    DESEncryptor.validateKey (str "133457799BBCDFF1") = true ∧
    (str "0123456789abcdef").length = 16 ∧
    Utils.encryptThenDecrypt (str "133457799BBCDFF1") (str "0123456789abcdef")
      = .ok ((str "0123456789abcdef").map toUpperHex) :=
  ⟨by decide, by decide,
    (C2_block_roundtrip_uppercased (str "133457799BBCDFF1") (str "0123456789abcdef")
      (by decide!) (by decide!) (by decide!)).1⟩

theorem C3_roundtrip_keeps_padding_witness :
    (str "0123456789ABCDEF0123").length % 2 = 0 ∧
    ∃ k : Nat, Utils.encryptThenDecrypt (str "133457799BBCDFF1") (str "0123456789ABCDEF0123")
        = .ok (str "0123456789ABCDEF0123" ++ List.replicate k (ch '0')) ∧
      ((str "0123456789ABCDEF0123").length + k) % 16 = 0 ∧
      ∀ j < k, ((str "0123456789ABCDEF0123").length + j) % 16 ≠ 0 :=
  ⟨by decide,
    C3_roundtrip_keeps_padding (str "133457799BBCDFF1") (str "0123456789ABCDEF0123")
      (by decide!) (by decide!) (by decide!)⟩

theorem C5_text_roundtrip_after_unhex_and_strip_witness :
    (str "Hello, World!").getLast? ≠ some 0 ∧
    Utils.decryptedText (str "133457799BBCDFF1") (str "Hello, World!")
      = .ok (str "Hello, World!") :=
  ⟨by decide,
    C5_text_roundtrip_after_unhex_and_strip (str "133457799BBCDFF1") (str "Hello, World!")
      (by decide!) (by decide!) (by decide!)⟩

theorem C6_block_independence_witness :
    (str "0123456789ABCDEF").length = 16 ∧ (str "fedcba9876543210").length = 16 ∧
    ∃ e, DESEncryptor.init (str "133457799BBCDFF1") = .ok e ∧
      e.encrypt (str "0123456789ABCDEF" ++ str "fedcba9876543210")
        = e.encrypt (str "0123456789ABCDEF") ++ e.encrypt (str "fedcba9876543210") :=
  ⟨by decide, by decide,
    C6_block_independence (str "133457799BBCDFF1") (str "0123456789ABCDEF")
      (str "fedcba9876543210") (by decide!) (by decide!) (by decide!) (by decide!) (by decide!)⟩

theorem C7_encrypt_zero_padding_witness :
    (str "4100").length % 2 = 0 ∧
    ∃ e, DESEncryptor.init (str "133457799BBCDFF1") = .ok e ∧ ∃ k : Nat,
      (((str "4100").length + k) % 16 = 0 ∧ ∀ j < k, ((str "4100").length + j) % 16 ≠ 0) ∧
      e.encrypt (str "4100") = e.encrypt (str "4100" ++ List.replicate k (ch '0')) ∧
      (e.encrypt (str "4100")).length = (str "4100" ++ List.replicate k (ch '0')).length :=
  ⟨by decide,
    C7_encrypt_zero_padding (str "133457799BBCDFF1") (str "4100")
      (by decide!) (by decide!) (by decide!)⟩

theorem C8_encrypt_renders_text_as_hex_witness :
    DESEncryptor.validateKey (str "133457799BBCDFF1") = true ∧
    stringToHex (str "Hello") = str "48656c6c6f" :=
  ⟨by decide,
    by
      obtain ⟨_, _, _, h, _⟩ :=
        C8_encrypt_renders_text_as_hex (str "133457799BBCDFF1") (str "Hello") (by decide!)
      rw [h]
      decide⟩

theorem C12_failed_setKey_leaves_object_witness :
    DESEncryptor.validateKey (str "invalid") = false ∧
    (DESEncryptor.mk (str "133457799BBCDFF1") []).setKeyStep (str "invalid")
      = (.error ⟨"Invalid DES key format"⟩, DESEncryptor.mk (str "133457799BBCDFF1") []) :=
  ⟨by decide,
    (C12_failed_setKey_leaves_object (DESEncryptor.mk (str "133457799BBCDFF1") [])
      (DESDecryptor.mk (str "133457799BBCDFF1") []) (str "invalid") (by decide)).1.1⟩

theorem C13_subkeys_follow_stored_key_witness :
    (DESEncryptor.generateSubkeys ⟨str "133457799BBCDFF1", []⟩).subkeys
      = DESEncryptor.scheduledKeys
          (DESEncryptor.generateSubkeys ⟨str "133457799BBCDFF1", []⟩).key :=
  (C13_subkeys_follow_stored_key
    (DESEncryptor.generateSubkeys ⟨str "133457799BBCDFF1", []⟩)
    ⟨str "133457799BBCDFF1", (DESEncryptor.scheduledKeys (str "133457799BBCDFF1")).reverse⟩
    (DESEncryptor.Reachable.construct (DESEncryptor.init_of_valid (by decide)))
    (DESDecryptor.Reachable.construct (DESDecryptor.init_of_valid_key (by decide)))).1

theorem C14_subkeys_sixteen_of_48_bits_witness :
    DESEncryptor.validateKey (str "133457799BBCDFF1") = true ∧
    (DESEncryptor.generateSubkeys ⟨str "133457799BBCDFF1", []⟩).subkeys.length = 16 :=
  ⟨by decide,
    (C14_subkeys_sixteen_of_48_bits ⟨str "133457799BBCDFF1", []⟩ ⟨str "133457799BBCDFF1", []⟩
      (by decide) (by decide)).1.1⟩

theorem C15_decryptor_subkeys_reversed_witness :
    ∃ e d, DESEncryptor.init (str "133457799BBCDFF1") = .ok e ∧
      DESDecryptor.init (str "133457799BBCDFF1") = .ok d ∧ d.subkeys = e.subkeys.reverse := by
  obtain ⟨e, d, h1, h2, h3, _⟩ := C15_decryptor_subkeys_reversed (str "133457799BBCDFF1") (by decide)
  exact ⟨e, d, h1, h2, h3⟩

theorem C16_parity_bits_are_ignored_witness :
    str "133457799BBCDFF1" ≠ str "123456789ABCDEF0" ∧
    ∃ e1 e2 d1 d2, DESEncryptor.init (str "133457799BBCDFF1") = .ok e1 ∧
      DESEncryptor.init (str "123456789ABCDEF0") = .ok e2 ∧
      DESDecryptor.init (str "133457799BBCDFF1") = .ok d1 ∧
      DESDecryptor.init (str "123456789ABCDEF0") = .ok d2 ∧
      e1.subkeys = e2.subkeys ∧
      d1.decryptChecked (str "85E813540F0AB405") = some (d1.decrypt (str "85E813540F0AB405")) ∧
      d2.decryptChecked (str "85E813540F0AB405") = some (d1.decrypt (str "85E813540F0AB405")) := by
  obtain ⟨e1, e2, d1, d2, h1, h2, h3, h4, h5, _, _, _, h6⟩ :=
    C16_parity_bits_are_ignored (str "133457799BBCDFF1") (str "123456789ABCDEF0")
      (by decide) (by decide) (by decide!)
  exact ⟨by decide, e1, e2, d1, d2, h1, h2, h3, h4, h5, h6 _ (by decide)⟩

theorem C17_key_case_insensitive_witness :
    str "133457799bbcdff1" ≠ str "133457799BBCDFF1" ∧
    hexToBin (str "133457799bbcdff1") = hexToBin (str "133457799BBCDFF1") :=
  ⟨by decide,
    (C17_key_case_insensitive (str "133457799BBCDFF1") (str "133457799bbcdff1")
      (by decide) (by decide!)).2.1⟩

theorem C18_hexToBin_is_total_witness :
    (str "G000000000000000").length % 16 = 0 ∧
    ∃ d, DESDecryptor.init (str "133457799BBCDFF1") = .ok d ∧
      (d.decrypt (str "G000000000000000")).length = (str "G000000000000000").length :=
  ⟨by decide,
    (C18_hexToBin_is_total (str "133457799BBCDFF1") (str "G000000000000000")
      (by decide) (by decide)).2⟩

theorem C19_no_out_of_range_lookup_witness :
    ∃ e d, DESEncryptor.init (str "133457799BBCDFF1") = .ok e ∧
      DESDecryptor.init (str "133457799BBCDFF1") = .ok d ∧
      e.encryptChecked (str "Hello, World!") = some (e.encrypt (str "Hello, World!")) ∧
      d.decryptChecked (str "85E813540F0AB405") = some (d.decrypt (str "85E813540F0AB405")) := by
  obtain ⟨e, d, h1, h2, h3, h4, _⟩ :=
    C19_no_out_of_range_lookup (str "133457799BBCDFF1") (str "Hello, World!")
      (str "85E813540F0AB405") (by decide) (by decide)
  exact ⟨e, d, h1, h2, h3, h4⟩

theorem C25_rotation_closure_witness :
    DESEncryptor.validateKey (str "133457799BBCDFF1") = true ∧
    DESEncryptor.rotatedHalf (substr (DESEncryptor.processKey (str "133457799BBCDFF1")) 0 28) 15
      = substr (DESEncryptor.processKey (str "133457799BBCDFF1")) 0 28 :=
  ⟨by decide, (C25_rotation_closure (str "133457799BBCDFF1") (by decide)).2.2.2.1⟩

theorem C26_subkey_refines_spec_witness :
    ∃ e, DESEncryptor.init (str "133457799BBCDFF1") = .ok e ∧
      e.subkeys[0]? = some (DESEncryptor.specSubkey (str "133457799BBCDFF1") 1) := by
  obtain ⟨⟨e, he, h⟩, _⟩ := C26_subkey_refines_spec (str "133457799BBCDFF1") (by decide)
  exact ⟨e, he, h 1 (by decide) (by decide)⟩

theorem C27_getElementFromBox_value_witness :
    DESEncryptor.getElementFromBox (str "011011") 0 = str "0101" := by
  rw [(C27_getElementFromBox_value (str "011011") 0 (by decide) (by decide!) (by decide)).1]
  decide

theorem C29_decryptor_duplicates_encryptor_witness :
    ∃ e d, DESEncryptor.init (str "133457799BBCDFF1") = .ok e ∧
      DESDecryptor.init (str "133457799BBCDFF1") = .ok d ∧
      d.decrypt (str "85E813540F0AB405") = (strideStarts 16 16).flatMap fun i =>
        DESEncryptor.blockTransform e.subkeys.reverse (substr (str "85E813540F0AB405") i 16) := by
  obtain ⟨_, e, d, h1, h2, _, h3⟩ :=
    C29_decryptor_duplicates_encryptor (str "133457799BBCDFF1") (str "85E813540F0AB405")
      (by decide)
  exact ⟨e, d, h1, h2, h3⟩

theorem C30_encrypt_decrypt_leave_object_witness :
    ∃ e d, DESEncryptor.init (str "133457799BBCDFF1") = .ok e ∧
      DESDecryptor.init (str "133457799BBCDFF1") = .ok d ∧
      ((e.encryptRun (str "Hello")).bind fun r =>
        (r.2.afterEncrypts [str "00", str "0123456789ABCDEF"]).bind fun e' =>
          e'.encryptRun (str "Hello")) = some (e.encrypt (str "Hello"), e) ∧
      ((d.decryptRun (str "85E813540F0AB405")).bind fun r =>
        (r.2.afterDecrypts [str "0123456789ABCDEF"]).bind fun d' =>
          d'.decryptRun (str "85E813540F0AB405"))
        = some (d.decrypt (str "85E813540F0AB405"), d) := by
  obtain ⟨_, _, e, d, h1, h2, _, _, h3, h4⟩ :=
    C30_encrypt_decrypt_leave_object (str "133457799BBCDFF1") (str "Hello")
      (str "85E813540F0AB405") [str "00", str "0123456789ABCDEF"] [str "0123456789ABCDEF"]
      (by decide) (by decide) (by decide)
  exact ⟨e, d, h1, h2, h3, h4⟩

theorem C31_block_transform_invertible_witness :
    DESEncryptor.blockTransform (List.replicate 16 (List.replicate 48 (ch '1'))).reverse
      (DESEncryptor.blockTransform (List.replicate 16 (List.replicate 48 (ch '1')))
        (str "0123456789ABCDEF")) = str "0123456789ABCDEF" :=
  (C31_block_transform_invertible (List.replicate 16 (List.replicate 48 (ch '1')))
    (str "0123456789ABCDEF") (by decide)
    (fun k hk => by
      rw [List.eq_of_mem_replicate hk]
      exact ⟨by decide, fun c hc => Or.inr (List.eq_of_mem_replicate hc)⟩)
    (by decide) (by decide!)).1

theorem C32_encrypt_undoes_decrypt_witness :
    ∃ e d, DESEncryptor.init (str "133457799BBCDFF1") = .ok e ∧
      DESDecryptor.init (str "133457799BBCDFF1") = .ok d ∧
      e.encrypt (d.decrypt (str "85E813540F0AB405")) = str "85E813540F0AB405" := by
  obtain ⟨e, d, h1, h2, h3, _⟩ :=
    C32_encrypt_undoes_decrypt (str "133457799BBCDFF1") (str "85E813540F0AB405")
      (by decide) (by decide) (by decide!)
  exact ⟨e, d, h1, h2, h3⟩

theorem C33_complementation_witness :
    ∃ e e', DESEncryptor.init (str "133457799BBCDFF1") = .ok e ∧
      DESEncryptor.init (complHex (str "133457799BBCDFF1")) = .ok e' ∧
      e'.encrypt (complHex (str "0123456789ABCDEF"))
        = complHex (e.encrypt (str "0123456789ABCDEF")) := by
  obtain ⟨e, e', h1, h2, _, _, h3, _⟩ :=
    C33_complementation (str "133457799BBCDFF1") (str "0123456789ABCDEF")
      (by decide) (by decide) (by decide!)
  exact ⟨e, e', h1, h2, h3⟩

theorem C34_encrypt_not_injective_witness :
    ∃ e, DESEncryptor.init (str "133457799BBCDFF1") = .ok e ∧
      e.encrypt (str "A") = e.encrypt (str "41") := by
  obtain ⟨e, h1, _, _, h2, _⟩ := C34_encrypt_not_injective (str "133457799BBCDFF1") (by decide)
  exact ⟨e, h1, h2⟩

theorem C35_decrypt_short_chunk_reads_past_end_witness :
    ∃ d, DESDecryptor.init (str "133457799BBCDFF1") = .ok d ∧
      d.decryptChecked (str "85E813540F0AB4") = none := by
  obtain ⟨d, h1, _, _, _, _, _, h2⟩ :=
    C35_decrypt_short_chunk_reads_past_end (str "133457799BBCDFF1") (str "85E813540F0AB4")
      (by decide) (by decide)
  exact ⟨d, h1, h2⟩

theorem C36_output_alphabet_and_length_witness :
    ∃ e d, DESEncryptor.init (str "133457799BBCDFF1") = .ok e ∧
      DESDecryptor.init (str "133457799BBCDFF1") = .ok d ∧
      (∀ x ∈ e.encrypt (str "Hello"), x ∈ str "0123456789ABCDEF") ∧
      (d.decrypt (str "85E813540F0AB405")).length = 16 := by
  obtain ⟨e, d, h1, h2, h3, _, _, _, h4⟩ :=
    C36_output_alphabet_and_length (str "133457799BBCDFF1") (str "Hello")
      (str "85E813540F0AB405") (by decide) (by decide)
  exact ⟨e, d, h1, h2, h3, h4⟩

theorem C37_weak_key_involution_witness :
    ∃ e, DESEncryptor.init (str "0101010101010101") = .ok e ∧
      e.encrypt (e.encrypt (str "0123456789ABCDEF")) = str "0123456789ABCDEF" := by
  obtain ⟨_, e, _, h1, _, _, _, _, h2⟩ :=
    C37_weak_key_involution (str "0123456789ABCDEF") (by decide) (by decide!)
  exact ⟨e, h1, h2⟩

theorem C40_hex_binary_codec_lossless_witness :
    hexToBin (binToHex (str "10100101")) = str "10100101" ∧
    (hexToBin (str "a5F0")).length = 4 * (str "a5F0").length ∧
    binToHex (hexToBin (str "a5F0")) = (str "a5F0").map toUpperHex :=
  C40_hex_binary_codec_lossless (str "10100101") (str "a5F0") (by decide!) (by decide)
    (by decide!)

end DESCustom

/-! ## Properties of `CryptoUtils` -/

namespace CryptoUtils

open DESCustom

theorem any_tail_iff (d : List Byte) (n : Nat) (p : Byte) (hn : n ≤ d.length) :
    (List.range n).any (fun j => d.getD (d.length - n + j) 0 ≠ p) = true ↔
      ∃ x ∈ d.drop (d.length - n), x ≠ p := by
  rw [List.any_eq_true]
  constructor
  · rintro ⟨j, hj, hne⟩
    have hj' : j < n := List.mem_range.mp hj
    have hlt : d.length - n + j < d.length := by omega
    rw [List.getD_eq_getElem _ _ hlt] at hne
    refine ⟨d[d.length - n + j], ?_, by simpa using hne⟩
    rw [List.mem_iff_getElem]
    refine ⟨j, by rw [List.length_drop]; omega, ?_⟩
    rw [List.getElem_drop]
  · rintro ⟨x, hx, hne⟩
    obtain ⟨j, hj, rfl⟩ := List.mem_iff_getElem.mp hx
    rw [List.length_drop] at hj
    refine ⟨j, List.mem_range.mpr (by omega), ?_⟩
    have hlt : d.length - n + j < d.length := by omega
    rw [List.getD_eq_getElem _ _ hlt]
    rw [List.getElem_drop] at hne
    simpa using hne

theorem getLastD_of_getLast_some {d : List Byte} {n : Byte} (h : d.getLast? = some n) :
    d.getLastD 0 = n := by
  rw [List.getLastD_eq_getLast?, h]; rfl

theorem pkcs7Unpad_of_nonempty {d : List Byte} {n : Byte} (h : d.getLast? = some n) :
    Padding.pkcs7Unpad d =
      if n.val = 0 ∨ n.val > d.length then .error ⟨"Invalid PKCS7 padding"⟩
      else if (List.range n.val).any (fun j => d.getD (d.length - n.val + j) 0 ≠ n) then
        .error ⟨"Invalid PKCS7 padding"⟩
      else .ok (d.take (d.length - n.val)) := by
  have hne : d.isEmpty = false := by
    cases d with
    | nil => simp at h
    | cons a t => rfl
  unfold Padding.pkcs7Unpad
  rw [hne, getLastD_of_getLast_some h]
  simp

theorem pkcs7Unpad_cases (d : List Byte) (n : Byte) (hn : d.getLast? = some n) :
    ((n.val = 0 ∨ d.length < n.val ∨ ∃ x ∈ d.drop (d.length - n.val), x ≠ n) →
      Padding.pkcs7Unpad d = .error ⟨"Invalid PKCS7 padding"⟩) ∧
    (¬ (n.val = 0 ∨ d.length < n.val ∨ ∃ x ∈ d.drop (d.length - n.val), x ≠ n) →
      Padding.pkcs7Unpad d = .ok (d.take (d.length - n.val))) := by
  rw [pkcs7Unpad_of_nonempty hn]
  by_cases h1 : n.val = 0 ∨ n.val > d.length
  · rw [if_pos h1]
    refine ⟨fun _ => rfl, fun hc => absurd ?_ hc⟩
    rcases h1 with h | h
    · exact Or.inl h
    · exact Or.inr (Or.inl h)
  · rw [if_neg h1]
    have hle : n.val ≤ d.length := by
      by_contra hc; exact h1 (Or.inr (by omega))
    have hz : ¬ n.val = 0 := fun hc => h1 (Or.inl hc)
    have hl : ¬ d.length < n.val := by omega
    by_cases h2 : (List.range n.val).any
        (fun j => d.getD (d.length - n.val + j) 0 ≠ n) = true
    · rw [if_pos h2]
      exact ⟨fun _ => rfl,
        fun hc => absurd (Or.inr (Or.inr ((any_tail_iff d n.val n hle).mp h2))) hc⟩
    · rw [if_neg h2]
      refine ⟨fun hc => ?_, fun _ => rfl⟩
      rcases hc with h | h | h
      · exact absurd h hz
      · exact absurd h hl
      · exact absurd ((any_tail_iff d n.val n hle).mpr h) h2

/-- C24: `pkcs7Unpad(d)` throws a `CryptoException` exactly when `d` is empty, or its
last byte `n` is 0 or greater than `|d|`, or one of the last `n` bytes of `d` is not
`n`; in every other case it returns `d` without its last `n` bytes. -/
theorem C24_pkcs7Unpad_fails_iff (d : List Byte) :
    ((∃ e : CryptoException, Padding.pkcs7Unpad d = .error e) ↔
      (d = [] ∨ ∃ n : Byte, d.getLast? = some n ∧
        (n.val = 0 ∨ d.length < n.val ∨ ∃ x ∈ d.drop (d.length - n.val), x ≠ n))) ∧
    (∀ n : Byte, d.getLast? = some n →
      ¬ (n.val = 0 ∨ d.length < n.val ∨ ∃ x ∈ d.drop (d.length - n.val), x ≠ n) →
      Padding.pkcs7Unpad d = .ok (d.take (d.length - n.val))) := by
  have key := pkcs7Unpad_cases d
  refine ⟨⟨?_, ?_⟩, fun n hn => (key n hn).2⟩
  · rintro ⟨e, he⟩
    cases hd : d.getLast? with
    | none => exact Or.inl (List.getLast?_eq_none_iff.mp hd)
    | some n =>
      right
      refine ⟨n, rfl, ?_⟩
      by_contra hc
      rw [(key n hd).2 hc] at he
      cases he
  · rintro (h | ⟨n, hn, hc⟩)
    · subst h
      exact ⟨⟨"Cannot unpad empty data"⟩, rfl⟩
    · exact ⟨_, (key n hn).1 hc⟩

theorem pkcs7Pad_of_valid (d : List Byte) {b : Nat} (h1 : 1 ≤ b) (h2 : b ≤ 255) :
    Padding.pkcs7Pad d b
      = .ok (d ++ List.replicate (b - d.length % b) (Fin.ofNat (b - d.length % b))) := by
  unfold Padding.pkcs7Pad
  rw [if_neg (by omega)]

theorem padLength_bounds (n : Nat) {b : Nat} (h1 : 1 ≤ b) :
    1 ≤ b - n % b ∧ b - n % b ≤ b := by
  have := Nat.mod_lt n (show 0 < b by omega)
  omega

theorem val_ofNat_small {n : Nat} (h : n ≤ 255) : (Fin.ofNat n : Byte).val = n := by
  show n % 256 = n
  omega

/-- C22: for `1 <= b <= 255`, `pkcs7Pad(d, b)` returns `d` followed by
`b - |d| mod b` bytes; its length is the least multiple of `b` above `|d|`, `d` is its
prefix, every added byte has the number of added bytes as its value, and an input
whose length is a multiple of `b` gains `b` bytes. -/
theorem C22_pkcs7Pad_shape (d : List Byte) (b : Nat) (h1 : 1 ≤ b) (h2 : b ≤ 255) :
    ∃ padded, Padding.pkcs7Pad d b = .ok padded ∧
      padded.length = d.length + (b - d.length % b) ∧
      (padded.length % b = 0 ∧ d.length < padded.length ∧
        ∀ m, d.length < m → m % b = 0 → padded.length ≤ m) ∧
      padded.take d.length = d ∧
      (∀ x ∈ padded.drop d.length, x.val = padded.length - d.length) ∧
      (d.length % b = 0 → padded.length = d.length + b) := by
  obtain ⟨hp1, hp2⟩ := padLength_bounds d.length h1
  have hmod := Nat.mod_lt d.length (show 0 < b by omega)
  have hlen : (d ++ List.replicate (b - d.length % b)
      (Fin.ofNat (b - d.length % b) : Byte)).length = d.length + (b - d.length % b) := by
    rw [List.length_append, List.length_replicate]
  have hdiv := Nat.div_add_mod d.length b
  have htotal : d.length + (b - d.length % b) = b * (d.length / b + 1) := by
    rw [Nat.mul_add, Nat.mul_one]; omega
  refine ⟨_, pkcs7Pad_of_valid d h1 h2, hlen, ⟨?_, ?_, ?_⟩, ?_, ?_, ?_⟩
  · rw [hlen, htotal, Nat.mul_mod_right]
  · rw [hlen]; omega
  · intro m hm hmb
    rw [hlen, htotal]
    obtain ⟨k, rfl⟩ := Nat.dvd_of_mod_eq_zero hmb
    apply Nat.mul_le_mul_left
    by_contra hc
    have hk : k ≤ d.length / b := by omega
    have := Nat.mul_le_mul_left b hk
    omega
  · rw [List.take_left]
  · intro x hx
    rw [List.drop_left] at hx
    rw [List.eq_of_mem_replicate hx, hlen, val_ofNat_small (by omega)]
    omega
  · intro h0
    rw [hlen, h0]; rfl

/-- C21: for `1 <= b <= 255`, `pkcs7Pad(d, b)` returns a vector on which `pkcs7Unpad`
returns exactly `d`. -/
theorem C21_pkcs7_roundtrip (d : List Byte) (b : Nat) (h1 : 1 ≤ b) (h2 : b ≤ 255) :
    ∃ padded, Padding.pkcs7Pad d b = .ok padded ∧ Padding.pkcs7Unpad padded = .ok d := by
  obtain ⟨hp1, hp2⟩ := padLength_bounds d.length h1
  refine ⟨_, pkcs7Pad_of_valid d h1 h2, ?_⟩
  have hval : (Fin.ofNat (b - d.length % b) : Byte).val = b - d.length % b :=
    val_ofNat_small (by omega)
  have hlast : (d ++ List.replicate (b - d.length % b)
      (Fin.ofNat (b - d.length % b) : Byte)).getLast? = some (Fin.ofNat (b - d.length % b)) := by
    obtain ⟨k, hk⟩ : ∃ k, b - d.length % b = k + 1 := ⟨b - d.length % b - 1, by omega⟩
    rw [hk, List.replicate_succ', ← List.append_assoc, List.getLast?_concat]
  have h := (pkcs7Unpad_cases (d ++ List.replicate (b - d.length % b)
      (Fin.ofNat (b - d.length % b) : Byte)) _ hlast).2
  rw [h]
  · rw [hval, List.length_append, List.length_replicate, Nat.add_sub_cancel, List.take_left]
  · rw [hval, List.length_append, List.length_replicate, Nat.add_sub_cancel, List.drop_left]
    rintro (h | h | ⟨x, hx, hne⟩)
    · omega
    · omega
    · exact hne (List.eq_of_mem_replicate hx)

theorem hex_pairs_roundtrip :
    (str "0123456789ABCDEFabcdef").all (fun a =>
      (str "0123456789ABCDEFabcdef").all (fun b =>
        decide ((stoi16 [a, b]).isSome = true ∧
          DataConverter.bytesToHex [groupByte [a, b]] = [toLowerHex a, toLowerHex b]))) = true := by
  decide!

theorem hex_pair_roundtrip {g : Str} (hl : g.length = 2)
    (hh : ∀ c ∈ g, c ∈ str "0123456789ABCDEFabcdef") :
    (stoi16 g).isSome = true ∧ DataConverter.bytesToHex [groupByte g] = g.map toLowerHex := by
  match g, hl with
  | [a, b], _ =>
    have ha := hh a (by simp)
    have hb := hh b (by simp)
    have h := List.all_eq_true.mp (List.all_eq_true.mp hex_pairs_roundtrip a ha) b hb
    exact of_decide_eq_true h

theorem toLowerHex_of_not_upper_letter : ∀ c : Byte,
    c ∈ str "0123456789abcdef" → toLowerHex c = c := by decide!

theorem hexToBytes_of_evenHex {h : Str} (heven : h.length % 2 = 0)
    (hhex : ∀ c ∈ h, c ∈ str "0123456789ABCDEFabcdef") :
    DataConverter.hexToBytes h = .ok ((blocksOf 2 h).map groupByte) := by
  obtain ⟨h1, h2⟩ := blocksOf_of_dvd (n := 2) (by decide) heven
  have hmem : ∀ g ∈ blocksOf 2 h, ∀ c ∈ g, c ∈ str "0123456789ABCDEFabcdef" := by
    intro g hg c hc
    apply hhex
    rw [← h1]
    exact List.mem_flatten.mpr ⟨g, hg, hc⟩
  have hgroups : (strideStarts h.length 2).map (fun i => stoi16 (substr h i 2))
      = (blocksOf 2 h).map stoi16 := by
    simp [blocksOf, List.map_map]
  unfold DataConverter.hexToBytes
  rw [if_neg (by omega)]
  simp only [hgroups]
  rw [if_pos]
  · rw [List.map_map]; rfl
  · rw [List.all_eq_true]
    intro o ho
    obtain ⟨g, hg, rfl⟩ := List.mem_map.mp ho
    exact (hex_pair_roundtrip (h2 g hg) (hmem g hg)).1

theorem bytesToHex_hexToBytes_groups {h : Str} (heven : h.length % 2 = 0)
    (hhex : ∀ c ∈ h, c ∈ str "0123456789ABCDEFabcdef") :
    DataConverter.bytesToHex ((blocksOf 2 h).map groupByte) = h.map toLowerHex := by
  obtain ⟨h1, h2⟩ := blocksOf_of_dvd (n := 2) (by decide) heven
  have hmem : ∀ g ∈ blocksOf 2 h, ∀ c ∈ g, c ∈ str "0123456789ABCDEFabcdef" := by
    intro g hg c hc
    apply hhex
    rw [← h1]
    exact List.mem_flatten.mpr ⟨g, hg, hc⟩
  have e1 : DataConverter.bytesToHex ((blocksOf 2 h).map groupByte)
      = (blocksOf 2 h).flatMap (fun g => DataConverter.bytesToHex [groupByte g]) := by
    simp [DataConverter.bytesToHex, List.flatMap_map]
  rw [e1]
  conv_rhs => rw [← h1, List.flatten_eq_flatMap, List.map_flatMap]
  apply List.flatMap_congr
  intro g hg
  exact (hex_pair_roundtrip (h2 g hg) (hmem g hg)).2

/-- C23 (what the code returns at the test's input): for the even-length hex string
`48656C6C6F` of `testCryptoUtils`, `bytesToHex(hexToBytes(h))` is `48656c6c6f`,
which is not `h`. -/
theorem C23_test_input_is_lowercased :
    (str "48656C6C6F").length % 2 = 0 ∧
    (str "48656C6C6F").all (fun c => decide (c ∈ str "0123456789ABCDEFabcdef")) = true ∧
    (DataConverter.hexToBytes (str "48656C6C6F")).map DataConverter.bytesToHex
      = .ok (str "48656c6c6f") ∧
    (DataConverter.hexToBytes (str "48656C6C6F")).map DataConverter.bytesToHex
      ≠ .ok (str "48656C6C6F") := by
  refine ⟨by decide, by decide!, by decide!, by decide!⟩

/-- For every even-length string `h` of hex digits, `hexToBytes` returns a vector
and `bytesToHex` of it is `h` with its letters `A`..`F` in lower case, which is `h`
itself when `h` has lower-case hex digits only. -/
theorem bytesToHex_hexToBytes_lowercased (h : Str) (heven : h.length % 2 = 0)
    (hhex : ∀ c ∈ h, c ∈ str "0123456789ABCDEFabcdef") :
    (∃ bytes, DataConverter.hexToBytes h = .ok bytes ∧
      DataConverter.bytesToHex bytes = h.map toLowerHex) ∧
    ((∀ c ∈ h, c ∈ str "0123456789abcdef") →
      ∃ bytes, DataConverter.hexToBytes h = .ok bytes ∧ DataConverter.bytesToHex bytes = h) := by
  have h1 := hexToBytes_of_evenHex heven hhex
  have h2 := bytesToHex_hexToBytes_groups heven hhex
  refine ⟨⟨_, h1, h2⟩, fun hlow => ⟨_, h1, ?_⟩⟩
  rw [h2]
  conv_rhs => rw [← List.map_id h]
  exact List.map_congr_left (fun c hc => toLowerHex_of_not_upper_letter c (hlow c hc))

theorem groupByte_bytesToHex : ∀ x : Byte, groupByte (DataConverter.bytesToHex [x]) = x := by
  decide!

theorem bytesToHex_eq_stringToHex (b : List Byte) :
    DataConverter.bytesToHex b = stringToHex b := rfl

theorem bytesToHex_eq_flatten (b : List Byte) :
    DataConverter.bytesToHex b = (b.map fun x => DataConverter.bytesToHex [x]).flatten := by
  simp [DataConverter.bytesToHex, List.flatten_eq_flatMap, List.flatMap_map]

/-- C39: for every byte vector `b`, `hexToBytes(bytesToHex(b))` returns `b`, and
`bytesToHex(b)` has length `2 * |b|` and only the characters `0-9` and `a-f`. -/
theorem C39_bytes_hex_roundtrip (b : List Byte) :
    DataConverter.hexToBytes (DataConverter.bytesToHex b) = .ok b ∧
    (DataConverter.bytesToHex b).length = 2 * b.length ∧
    ∀ c ∈ DataConverter.bytesToHex b, c ∈ str "0123456789abcdef" := by
  have hlen : (DataConverter.bytesToHex b).length = 2 * b.length := stringToHex_length b
  have hlow : ∀ c ∈ DataConverter.bytesToHex b, c ∈ str "0123456789abcdef" :=
    stringToHex_lower b
  refine ⟨?_, hlen, hlow⟩
  rw [hexToBytes_of_evenHex (by rw [hlen]; omega) (fun c hc => lower_subset_hex c (hlow c hc)),
    bytesToHex_eq_flatten, blocksOf_flatten (by decide), List.map_map]
  · congr 1
    conv_rhs => rw [← List.map_id b]
    exact List.map_congr_left (fun x _ => groupByte_bytesToHex x)
  · intro g hg
    obtain ⟨x, -, rfl⟩ := List.mem_map.mp hg
    rfl

theorem C21_pkcs7_roundtrip_witness :
    ∃ padded, Padding.pkcs7Pad [1, 2, 3] 8 = .ok padded ∧
      Padding.pkcs7Unpad padded = .ok [1, 2, 3] :=
  C21_pkcs7_roundtrip [1, 2, 3] 8 (by decide) (by decide)

theorem C22_pkcs7Pad_shape_witness :
    ∃ padded, Padding.pkcs7Pad [1, 2, 3] 8 = .ok padded ∧ padded.length = 8 := by
  obtain ⟨padded, h1, h2, _⟩ := C22_pkcs7Pad_shape [1, 2, 3] 8 (by decide) (by decide)
  exact ⟨padded, h1, h2⟩

end CryptoUtils
